import Mathlib

/-!
# Advanced calculator (`module3/homework/advanced_calculator/advancedCalculator.cpp`)

A shallow embedding of the calculator's pipeline
(`checkCharacters`, `removeSpaces`, `findOperation`, `separateNums`,
`checkNumber`, the three domain checkers, the `command` table and `process`)
together with the properties of it that the specification states.

Conventions of the embedding.

* A `std::string` is a `List Char`.
* Operations of the C++ library that can throw or have undefined behaviour
  return `Except Fault _`; a `Fault` is an uncaught exception or undefined
  behaviour, i.e. the call of `process` does not return an `ErrorCode`.
* `double` is `Dbl`: a finite binary value, an infinity or a NaN (IEEE 754
  binary64).  The conversions between text, `int` and `double`, the
  comparisons and `+ - * /` (round to nearest, ties to even) are computed
  exactly.  The values that `pow` and `tgamma` of `<cmath>` return are not
  computed: a stored result is a `Val`, which records the function and its
  arguments.  `tgammaTable` records the results of `tgamma` at the integers 1
  to 13.
* Characters are `Char`; the only operations on them are comparisons with
  ASCII characters and `isdigit`.
-/

namespace AdvancedCalculator

/-! ## Faults and error codes -/

/-- Ways in which a call can fail to return: uncaught C++ exceptions and
undefined behaviour. -/
inductive Fault where
  /-- `operator[]` or `back()` outside the string: undefined behaviour. -/
  | outOfBounds
  /-- `std::out_of_range` (thrown by `stoi`, `stod`, `erase`, `map::at`). -/
  | outOfRange
  /-- `std::invalid_argument` (thrown by `stoi`, `stod`). -/
  | invalidArgument
  /-- Integer `%` with a zero divisor: undefined behaviour. -/
  | intDivByZero
  /-- Integer `%` whose quotient overflows (`INT_MIN % -1`): undefined behaviour. -/
  | intOverflow
  /-- Conversion of a `double` to `int` whose truncation is not an `int`:
  undefined behaviour. -/
  | floatToInt
  deriving DecidableEq, Repr

/-- Modelled from the spec: the enumeration `ErrorCode` of the header
`advancedCalculator.hpp`, which is not among the sources; the six values are
the ones the specification lists and `process` returns. -/
inductive ErrorCode where
  | OK
  | BadCharacter
  | BadFormat
  | DivideBy0
  | SqrtOfNegativeNumber
  | ModuleOfNonIntegerValue
  deriving DecidableEq, Repr

instance instDecidableEqExcept {ε α : Type} [DecidableEq ε] [DecidableEq α] :
    DecidableEq (Except ε α)
  | .ok a, .ok b => if h : a = b then isTrue (by rw [h]) else isFalse (by intro h1; cases h1; exact h rfl)
  | .error a, .error b => if h : a = b then isTrue (by rw [h]) else isFalse (by intro h1; cases h1; exact h rfl)
  | .ok _, .error _ => isFalse (by intro h; cases h)
  | .error _, .ok _ => isFalse (by intro h; cases h)

/-! ## Strings -/

/-- `input[i]` of `std::string`: the character at `i`, the terminating
`'\0'` at `i = size()`, undefined behaviour beyond. -/
def cAt (s : List Char) (i : Nat) : Except Fault Char :=
  match s[i]? with
  | some c => pure c
  | none => if i = s.length then pure (Char.ofNat 0) else throw Fault.outOfBounds

/-- `input.back()`: the last character; undefined behaviour on the empty string. -/
def back (s : List Char) : Except Fault Char :=
  match s.getLast? with
  | some c => pure c
  | none => throw Fault.outOfBounds

/-- `s.erase(pos, n)`: removes `min(n, size() - pos)` characters from `pos` on;
throws `std::out_of_range` when `pos > size()`. -/
def erase (s : List Char) (pos n : Nat) : Except Fault (List Char) :=
  if pos > s.length then throw Fault.outOfRange
  else pure (s.take pos ++ s.drop (pos + min n (s.length - pos)))

/-- `isdigit` in the "C" locale. -/
def isdigit (c : Char) : Bool := c.isDigit

/-- The global string `operations`: plus, minus, star, slash, percent, dollar,
caret, exclamation mark. -/
def operations : List Char := ['+', '-', '*', '/', '%', '$', '^', '!']

/-- The global string `digits`: the digits from one to nine, zero and the full
stop.  No function of the file reads it. -/
def digits : List Char := ['1', '2', '3', '4', '5', '6', '7', '8', '9', '0', '.']

/-- The local string `allowedChars` of `checkCharacters`: the ten digits, then
plus, minus, slash, star, exclamation mark, dollar, caret, percent, full stop,
comma and space, in the order of the source. -/
def allowedChars : List Char :=
  ['0', '1', '2', '3', '4', '5', '6', '7', '8', '9',
   '+', '-', '/', '*', '!', '$', '^', '%', '.', ',', ' ']

/-- `checkCharacters`: `all_of` the input `any_of` the allowed characters. -/
def checkCharacters (input : List Char) : Bool :=
  input.all fun character => allowedChars.any fun goodChar => character == goodChar

/-- `removeSpaces`: `input.erase(std::remove(begin, end, ' '), end)`; the new
value of `input`. -/
def removeSpaces (input : List Char) : List Char :=
  input.filter fun c => c != ' '

/-- `std::find_if(first, last, p) - first`: the number of elements before the
first one satisfying `p`, the length of the range when there is none. -/
def findIf (p : Char → Bool) : List Char → Nat
  | [] => 0
  | c :: cs => if p c then 0 else findIf p cs + 1

/-- The predicate passed to `find_if` in `findOperation`. -/
def isOperation (ch : Char) : Bool := operations.any fun op => ch == op

/-- `findOperation`. -/
def findOperation (input : List Char) : Except Fault Nat := do
  let c0 ← cAt input 0
  let n := if c0 = '-' then 1 else 0
  pure (n + findIf isOperation (input.drop n))

/-- `separateNums`.  `trim` is computed in `size_t`; when `distance` exceeds
the length it wraps, and the `erase` that receives it throws whatever its
value. -/
def separateNums (input : List Char) (distance : Nat) :
    Except Fault (List Char × List Char) := do
  let trim := input.length - distance
  let buffer := input
  let num1 ← erase input distance trim
  let num2 ← erase buffer 0 (distance + 1)
  pure (num1, num2)

/-- `checkFirstChar`. -/
def checkFirstChar (input : List Char) : Except Fault Bool := do
  let c0 ← cAt input 0
  if isdigit c0 || c0 = '-' then pure true else pure false

/-- The `for` loop of `checkNumber` over the characters `input[i]`,
`i = 1, ..., length - 1`, with the current `dotsCounter`: `false` when the
loop executes `return false`, `true` when it runs to its end. -/
def checkNumberLoop : List Char → Nat → Bool
  | [], _ => true
  | c :: cs, dotsCounter =>
    if c = '.' then
      if dotsCounter + 1 > 1 then false else checkNumberLoop cs (dotsCounter + 1)
    else if !isdigit c then false
    else checkNumberLoop cs dotsCounter

/-- `checkNumber`. -/
def checkNumber (input : List Char) : Except Fault Bool :=
  if input.isEmpty then pure false
  else do
    let first ← checkFirstChar input
    if !first then pure false
    else do
      let c0 ← cAt input 0
      let minusThenNoDigit ←
        if c0 = '-' then do
          let c1 ← cAt input 1
          pure (c1 = '.' || !isdigit c1)
        else pure false
      if minusThenNoDigit then pure false
      else if !checkNumberLoop (input.drop 1) 0 then pure false
      else do
        let last ← back input
        if last = '.' then pure false else pure true

/-! ## Doubles

A finite `double` is `(-1)^neg * m * 2^e`, kept in the form with `m` odd (or
`m = 0`, `e = 0`), so that two finite values other than zeros are the same
`double` exactly when they are the same term. -/

/-- The type `double` (IEEE 754 binary64). -/
inductive Dbl where
  | fin (neg : Bool) (m : Nat) (e : Int)
  | inf (neg : Bool)
  | nan
  deriving DecidableEq, Repr

/-- Divides `m` by two, raising `e`, while `m` is even (at most `fuel` times). -/
def oddPart : Nat → Nat → Int → Nat × Int
  | 0, m, e => (m, e)
  | fuel + 1, m, e => if m % 2 = 0 then oddPart fuel (m / 2) (e + 1) else (m, e)

/-- The finite value `(-1)^neg * m * 2^e` in its kept form. -/
def Dbl.mk (neg : Bool) (m : Nat) (e : Int) : Dbl :=
  if m = 0 then .fin neg 0 0 else .fin neg (oddPart m m e).1 (oddPart m m e).2

/-- Binary logarithm rounded down (`0` at `0`), by halving at most `fuel` times. -/
def ilog2Fuel : Nat → Nat → Nat
  | 0, _ => 0
  | fuel + 1, n => if n < 2 then 0 else ilog2Fuel fuel (n / 2) + 1

/-- Binary logarithm rounded down (`0` at `0`). -/
def ilog2 (n : Nat) : Nat := ilog2Fuel n n

/-- The outcome of rounding a non-negative rational to binary64: the result is
`mant * 2^(shift - 1074)`. -/
structure Rounded where
  mant : Nat
  shift : Nat
  /-- The rational is not the rounded value. -/
  inexact : Bool
  /-- The rational is below the least normal value `2^-1022`. -/
  tiny : Bool
  deriving DecidableEq, Repr

/-- Rounds `n / d` (`d > 0`) to the nearest binary64 value, ties to even, with
gradual underflow: 53 significant bits, least exponent `-1074`.  `A` is the
rational in units of `2^-1074` rounded down, `s` the exponent of the last place
kept above `-1074`. -/
def roundNearestEven (n d : Nat) : Rounded :=
  let N := n * 2 ^ 1074
  let A := N / d
  let s := ilog2 A - 52
  let D := d * 2 ^ s
  let fl := N / D
  let rem := N % D
  let up := decide (2 * rem > D) || (decide (2 * rem = D) && fl % 2 == 1)
  { mant := if up then fl + 1 else fl
    shift := s
    inexact := decide (rem ≠ 0)
    tiny := decide (A < 2 ^ 52) }

/-- The rounded value is `2^1024` or more: it is not a finite binary64 value. -/
def Rounded.overflow (r : Rounded) : Bool := decide (2 ^ 2098 ≤ r.mant * 2 ^ r.shift)

/-- The `double` nearest to `(-1)^neg * n / d`: an infinity on overflow. -/
def Dbl.roundRat (neg : Bool) (n d : Nat) : Dbl :=
  let r := roundNearestEven n d
  if r.overflow then .inf neg else Dbl.mk neg r.mant (r.shift - 1074)

/-- Conversion of an `int` to `double` (exact). -/
def Dbl.ofInt (i : Int) : Dbl := Dbl.mk (decide (i < 0)) i.natAbs 0

/-- Conversion of a `double` to `int`: truncation toward zero, undefined
behaviour when the truncated value is not an `int` (32 bits). -/
def Dbl.toInt : Dbl → Except Fault Int
  | .fin neg m e =>
    let t : Nat := if 0 ≤ e then m * 2 ^ e.toNat else m / 2 ^ (-e).toNat
    let v : Int := if neg then -(t : Int) else (t : Int)
    if -2 ^ 31 ≤ v ∧ v ≤ 2 ^ 31 - 1 then pure v else throw Fault.floatToInt
  | _ => throw Fault.floatToInt

/-- The integer `(-1)^neg * m * 2^(e - k)`, for `k ≤ e`. -/
def Dbl.scaledInt (neg : Bool) (m : Nat) (e k : Int) : Int :=
  (if neg then -1 else 1) * ((m : Int) * 2 ^ (e - k).toNat)

/-- `a == b` on `double`. -/
def Dbl.feq : Dbl → Dbl → Bool
  | .fin n1 m1 e1, .fin n2 m2 e2 =>
    decide (Dbl.scaledInt n1 m1 e1 (min e1 e2) = Dbl.scaledInt n2 m2 e2 (min e1 e2))
  | .inf n1, .inf n2 => n1 == n2
  | _, _ => false

/-- `a < b` on `double`. -/
def Dbl.flt : Dbl → Dbl → Bool
  | .fin n1 m1 e1, .fin n2 m2 e2 =>
    decide (Dbl.scaledInt n1 m1 e1 (min e1 e2) < Dbl.scaledInt n2 m2 e2 (min e1 e2))
  | .fin _ _ _, .inf n2 => !n2
  | .inf n1, .fin _ _ _ => n1
  | .inf n1, .inf n2 => n1 && !n2
  | _, _ => false

/-- `a <= b` on `double`. -/
def Dbl.fle (a b : Dbl) : Bool := Dbl.flt a b || Dbl.feq a b

/-- Unary minus on `double`. -/
def Dbl.neg : Dbl → Dbl
  | .fin n m e => .fin (!n) m e
  | .inf n => .inf (!n)
  | .nan => .nan

/-- `a + b` on `double` (IEEE 754, round to nearest even). -/
def Dbl.add : Dbl → Dbl → Dbl
  | .nan, _ => .nan
  | _, .nan => .nan
  | .inf a, .inf b => if a = b then .inf a else .nan
  | .inf a, .fin _ _ _ => .inf a
  | .fin _ _ _, .inf b => .inf b
  | .fin n1 m1 e1, .fin n2 m2 e2 =>
    let k := min e1 e2
    let s := Dbl.scaledInt n1 m1 e1 k + Dbl.scaledInt n2 m2 e2 k
    if s = 0 then .fin (n1 && n2) 0 0
    else if 0 ≤ k then Dbl.roundRat (decide (s < 0)) (s.natAbs * 2 ^ k.toNat) 1
    else Dbl.roundRat (decide (s < 0)) s.natAbs (2 ^ (-k).toNat)

/-- `a - b` on `double`. -/
def Dbl.sub (a b : Dbl) : Dbl := Dbl.add a (Dbl.neg b)

/-- `a * b` on `double`. -/
def Dbl.mul : Dbl → Dbl → Dbl
  | .nan, _ => .nan
  | _, .nan => .nan
  | .inf a, .inf b => .inf (xor a b)
  | .inf a, .fin n m _ => if m = 0 then .nan else .inf (xor a n)
  | .fin n m _, .inf b => if m = 0 then .nan else .inf (xor n b)
  | .fin n1 m1 e1, .fin n2 m2 e2 =>
    if 0 ≤ e1 + e2 then Dbl.roundRat (xor n1 n2) (m1 * m2 * 2 ^ (e1 + e2).toNat) 1
    else Dbl.roundRat (xor n1 n2) (m1 * m2) (2 ^ (-(e1 + e2)).toNat)

/-- `a / b` on `double`. -/
def Dbl.div : Dbl → Dbl → Dbl
  | .nan, _ => .nan
  | _, .nan => .nan
  | .inf _, .inf _ => .nan
  | .inf a, .fin n _ _ => .inf (xor a n)
  | .fin n _ _, .inf b => .fin (xor n b) 0 0
  | .fin n1 m1 e1, .fin n2 m2 e2 =>
    if m2 = 0 then (if m1 = 0 then .nan else .inf (xor n1 n2))
    else Dbl.roundRat (xor n1 n2) (m1 * 2 ^ (e1 - e2).toNat) (m2 * 2 ^ (e2 - e1).toNat)

/-! ## Conversions from text (`std::stod`, `std::stoi`)

`std::stod` and `std::stoi` call `strtod` and `strtol`, throw
`std::invalid_argument` when no conversion is performed and
`std::out_of_range` when the C function reports `ERANGE` (for `stoi` also when
the value is not an `int`).  The model reads the decimal forms; the other forms
`strtod` accepts (an exponent, hexadecimal, `inf`, `nan`) all contain a
letter, which no string that `process` converts does.

Whether `strtod` reports `ERANGE` on underflow is left to the implementation by
the C standard.  The model follows glibc (`round_and_return` in
`stdlib/strtod_l.c`, version 2.36, x86-64), which libstdc++ calls:
* a rounded magnitude of `2^1024` or more is an overflow, with `ERANGE`;
* a magnitude that is still below `2^-1022` once rounded to 53 bits is tiny,
  and `ERANGE` is reported for it when the result is not exact; a magnitude in
  `[2^-1022 - 2^-1076, 2^-1022)` rounds to `2^-1022` and is not tiny;
* for a tiny magnitude of `2^-1023` or more, this version drops the bit of
  weight `2^-1076` (the first bit after the 53 it keeps) before it rounds to a
  multiple of `2^-1074` and before it decides whether the result is exact.
Every value `stod` returns is a nearest `double` (`stod_nearest` below). -/

/-- `isspace` in the "C" locale. -/
def isspace (c : Char) : Bool := c = ' ' || (9 ≤ c.toNat && c.toNat ≤ 13)

/-- The number written by a string of decimal digits. -/
def digitsValue (ds : List Char) : Nat :=
  ds.foldl (fun acc c => 10 * acc + (c.toNat - 48)) 0

/-- An optional sign: whether it is a minus, and what follows it. -/
def takeSign : List Char → Bool × List Char
  | [] => (false, [])
  | c :: t => if c = '-' then (true, t) else if c = '+' then (false, t) else (false, c :: t)

/-- A decimal number read from the start of a string: its sign, the number
formed by all its digits, how many of them follow the point, and the unread
rest of the string. -/
structure Decimal where
  neg : Bool
  digits : Nat
  scale : Nat
  rest : List Char
  deriving DecidableEq, Repr

/-- The subject sequence of `strtod`, decimal form: white space, an optional
sign, then digits optionally containing a point, at least one digit. -/
def strtodDecimal (str : List Char) : Option Decimal :=
  let signed := takeSign (str.dropWhile isspace)
  let ip := signed.2.takeWhile isdigit
  let afterInt := signed.2.dropWhile isdigit
  match afterInt with
  | [] => if ip.isEmpty then none else some ⟨signed.1, digitsValue ip, 0, []⟩
  | c :: t =>
    if c = '.' then
      let fp := t.takeWhile isdigit
      if ip.isEmpty && fp.isEmpty then none
      else some ⟨signed.1, digitsValue (ip ++ fp), fp.length, t.dropWhile isdigit⟩
    else if ip.isEmpty then none else some ⟨signed.1, digitsValue ip, 0, c :: t⟩

/-- The magnitude `n / d` in units of `2^-1076`, rounded down. -/
def strtodQuarters (n d : Nat) : Nat := n * 2 ^ 1076 / d

/-- The magnitude `n / d` is in `[2^-1023, 2^-1022 - 2^-1076)` and its bit of
weight `2^-1076` is set: glibc 2.36 drops that bit. -/
def strtodDropsBit (n d : Nat) : Bool :=
  decide (2 ^ 53 ≤ strtodQuarters n d ∧ strtodQuarters n d < 2 ^ 54 - 1 ∧
    strtodQuarters n d % 2 = 1)

/-- `std::stod(str, nullptr)`: `std::invalid_argument` when `strtod` converts
nothing, `std::out_of_range` when it reports `ERANGE`. -/
def stod (str : List Char) : Except Fault Dbl :=
  match strtodDecimal str with
  | none => throw Fault.invalidArgument
  | some x =>
    if strtodDropsBit x.digits (10 ^ x.scale) then
      let r := roundNearestEven (x.digits * 2 ^ 1076 - 10 ^ x.scale) (10 ^ x.scale * 2 ^ 1076)
      if r.inexact then throw Fault.outOfRange
      else pure (Dbl.mk x.neg r.mant (r.shift - 1074))
    else
      let r := roundNearestEven x.digits (10 ^ x.scale)
      if r.overflow ||
          (r.tiny && r.inexact && decide (strtodQuarters x.digits (10 ^ x.scale) ≠ 2 ^ 54 - 1))
      then throw Fault.outOfRange
      else pure (Dbl.mk x.neg r.mant (r.shift - 1074))

/-- `std::stoi(str)`: white space, an optional sign, decimal digits. -/
def stoi (str : List Char) : Except Fault Int :=
  let signed := takeSign (str.dropWhile isspace)
  let ds := signed.2.takeWhile isdigit
  if ds.isEmpty then throw Fault.invalidArgument
  else
    let v : Int := if signed.1 then -(digitsValue ds : Int) else (digitsValue ds : Int)
    if -2 ^ 31 ≤ v ∧ v ≤ 2 ^ 31 - 1 then pure v else throw Fault.outOfRange

/-! ## The dispatch table and `process` -/

/-- A value stored through `double* out`: a `double` that the model computes,
or the value returned by `pow` or `tgamma` of `<cmath>` on given arguments,
which the model does not compute. -/
inductive Val where
  | lit (d : Dbl)
  | pow (base exponent : Dbl)
  | tgamma (x : Dbl)
  deriving DecidableEq, Repr

/-- `std::modulus<int>` on two `int`s: the remainder of the division truncated
toward zero; undefined behaviour for a zero divisor and for `INT_MIN % -1`. -/
def modulus (x y : Int) : Except Fault Int :=
  if y = 0 then throw Fault.intDivByZero
  else if x = -2 ^ 31 ∧ y = -1 then throw Fault.intOverflow
  else pure (Int.tmod x y)

/-- `command.at(operation)(a, b)`.  The entry for the percent sign holds
`std::modulus<int>` behind a `double(double, double)` signature: both arguments
are converted to `int` and the `int` result back to `double`.  `map::at` throws
`std::out_of_range` for a key that is not in the table. -/
def command (operation : List Char) (a b : Dbl) : Except Fault Val :=
  if operation = ['+'] then pure (.lit (Dbl.add a b))
  else if operation = ['-'] then pure (.lit (Dbl.sub a b))
  else if operation = ['*'] then pure (.lit (Dbl.mul a b))
  else if operation = ['/'] then pure (.lit (Dbl.div a b))
  else if operation = ['%'] then do
    let x ← Dbl.toInt a
    let y ← Dbl.toInt b
    let r ← modulus x y
    pure (.lit (Dbl.ofInt r))
  else if operation = ['^'] then pure (.pow a b)
  else if operation = ['$'] then pure (.pow a (Dbl.div (Dbl.ofInt 1) b))
  else if operation = ['!'] then pure (.tgamma a)
  else throw Fault.outOfRange

/-- `checkIfDividedByZero`. -/
def checkIfDividedByZero (input : List Char) (distance : Nat) (secondNum : Dbl) :
    Except Fault Bool := do
  let c ← cAt input distance
  if c = '/' && Dbl.feq secondNum (Dbl.ofInt 0) then pure true else pure false

/-- `checkSqrtOfNegativeNumber`. -/
def checkSqrtOfNegativeNumber (input : List Char) (distance : Nat) (firstNum : Dbl) :
    Except Fault Bool := do
  let c ← cAt input distance
  if c = '$' && Dbl.flt firstNum (Dbl.ofInt 0) then pure true else pure false

/-- `checkIfModuloOfNonIntegerValue`.  The second comparison is evaluated only
when the first finds no difference. -/
def checkIfModuloOfNonIntegerValue (input : List Char) (distance : Nat)
    (pair : List Char × List Char) : Except Fault Bool := do
  let c ← cAt input distance
  if c = '%' then
    let i1 ← stoi pair.1
    let d1 ← stod pair.1
    if !Dbl.feq (Dbl.ofInt i1) d1 then pure true
    else
      let i2 ← stoi pair.2
      let d2 ← stod pair.2
      if !Dbl.feq (Dbl.ofInt i2) d2 then pure true else pure false
  else pure false

/-- `process(input, out)`: the error code returned and the final value of
`*out`, where `out` is the value of `*out` before the call.  The character
`input[distance]`, which the source reads at each use, is read once as `op`. -/
def process (input : List Char) (out : Val) : Except Fault (ErrorCode × Val) :=
  if !checkCharacters input then pure (ErrorCode.BadCharacter, out)
  else do
    let input := removeSpaces input
    let distance ← findOperation input
    let pairOfNumbers ← separateNums input distance
    let op ← cAt input distance
    if op = '!' then
      if !pairOfNumbers.2.isEmpty then pure (ErrorCode.BadFormat, out)
      else do
        let firstOk ← checkNumber pairOfNumbers.1
        if !firstOk then pure (ErrorCode.BadFormat, out)
        else do
          let firstNum ← stod pairOfNumbers.1
          let secondNum := Dbl.ofInt 0
          let operation := [op]
          if Dbl.fle firstNum (Dbl.ofInt 0) then pure (ErrorCode.OK, Val.lit (Dbl.ofInt 1))
          else do
            let r ← command operation (Dbl.add firstNum (Dbl.ofInt 1)) secondNum
            pure (ErrorCode.OK, r)
    else do
      let firstOk ← checkNumber pairOfNumbers.1
      let badFormat ←
        if !firstOk then pure true
        else do
          let secondOk ← checkNumber pairOfNumbers.2
          pure (!secondOk)
      if badFormat then pure (ErrorCode.BadFormat, out)
      else do
        let firstNum ← stod pairOfNumbers.1
        let secondNum ← stod pairOfNumbers.2
        let dividedByZero ← checkIfDividedByZero input distance secondNum
        if dividedByZero then pure (ErrorCode.DivideBy0, out)
        else do
          let sqrtOfNegative ← checkSqrtOfNegativeNumber input distance firstNum
          if sqrtOfNegative then pure (ErrorCode.SqrtOfNegativeNumber, out)
          else do
            let moduloOfNonInteger ← checkIfModuloOfNonIntegerValue input distance pairOfNumbers
            if moduloOfNonInteger then pure (ErrorCode.ModuleOfNonIntegerValue, out)
            else do
              let operation := [op]
              let r ← command operation firstNum secondNum
              pure (ErrorCode.OK, r)

/-! ## The specification's vocabulary -/

/-- Every character of the string is a decimal digit. -/
def AllDigits (s : List Char) : Prop := ∀ c ∈ s, isdigit c = true

/-- One or more digits, optionally followed by a single point and one or more
digits: the language `[0-9]+(\.[0-9]+)?`. -/
def UnsignedLiteral (s : List Char) : Prop :=
  (s ≠ [] ∧ AllDigits s) ∨
  ∃ ip fp, ip ≠ [] ∧ AllDigits ip ∧ fp ≠ [] ∧ AllDigits fp ∧ s = ip ++ '.' :: fp

/-- A well-formed signed decimal literal: an optional leading minus, then an
unsigned literal; the language `-?[0-9]+(\.[0-9]+)?`. -/
def WellFormedLiteral (s : List Char) : Prop :=
  UnsignedLiteral s ∨ ∃ u, UnsignedLiteral u ∧ s = '-' :: u

/-- The conditions `checkNumber` puts on the part of a literal that follows
the optional minus. -/
def unsignedOk (u : List Char) : Bool :=
  isdigit (u.headD (Char.ofNat 0)) && checkNumberLoop u 0 && !decide (u.getLast? = some '.')

/-- The value `checkNumber` returns, without the accesses to the string. -/
def checkNumberValue : List Char → Bool
  | [] => false
  | c :: cs => if c = '-' then unsignedOk cs else unsignedOk (c :: cs)

/-! ## `process` without its string accesses -/

/-- The index `findOperation` returns. -/
def findOperationValue : List Char → Nat
  | [] => 0
  | c :: cs => if c = '-' then 1 + findIf isOperation cs else findIf isOperation (c :: cs)

/-- The non-integer test of `checkIfModuloOfNonIntegerValue` on the two operands. -/
def nonIntegerOperand (L R : List Char) : Except Fault Bool := do
  let i1 ← stoi L
  let d1 ← stod L
  if !Dbl.feq (Dbl.ofInt i1) d1 then pure true
  else
    let i2 ← stoi R
    let d2 ← stod R
    if !Dbl.feq (Dbl.ofInt i2) d2 then pure true else pure false

/-- What `process` does with two operands that passed `checkNumber` around the
operator `op`. -/
def binaryOutcome (op : Char) (L R : List Char) (out : Val) : Except Fault (ErrorCode × Val) := do
  let firstNum ← stod L
  let secondNum ← stod R
  if op = '/' && Dbl.feq secondNum (Dbl.ofInt 0) then pure (ErrorCode.DivideBy0, out)
  else if op = '$' && Dbl.flt firstNum (Dbl.ofInt 0) then pure (ErrorCode.SqrtOfNegativeNumber, out)
  else do
    let moduloOfNonInteger ← (if op = '%' then nonIntegerOperand L R else pure false)
    if moduloOfNonInteger then pure (ErrorCode.ModuleOfNonIntegerValue, out)
    else do
      let r ← command [op] firstNum secondNum
      pure (ErrorCode.OK, r)

/-- What `process` does with an operand that passed `checkNumber` in front of a
final exclamation mark. -/
def unaryOutcome (L : List Char) : Except Fault (ErrorCode × Val) := do
  let firstNum ← stod L
  if Dbl.fle firstNum (Dbl.ofInt 0) then pure (ErrorCode.OK, Val.lit (Dbl.ofInt 1))
  else pure (ErrorCode.OK, Val.tgamma (Dbl.add firstNum (Dbl.ofInt 1)))

/-- What `process` does with an input of allowed characters once its spaces
are removed: `s` is the input without spaces. -/
def cleanedOutcome (s : List Char) (out : Val) : Except Fault (ErrorCode × Val) :=
  let d := findOperationValue s
  let L := s.take d
  let R := s.drop (d + 1)
  let op := s.getD d (Char.ofNat 0)
  if op = '!' then
    if R ≠ [] then pure (ErrorCode.BadFormat, out)
    else if checkNumberValue L = false then pure (ErrorCode.BadFormat, out)
    else unaryOutcome L
  else if checkNumberValue L = false ∨ checkNumberValue R = false then
    pure (ErrorCode.BadFormat, out)
  else binaryOutcome op L R out

/-- The set of characters the specification allows: digits, point, space and
the eight operator characters. -/
def specAllowedChars : List Char :=
  ['0', '1', '2', '3', '4', '5', '6', '7', '8', '9', '.', ' ',
   '+', '-', '*', '/', '!', '$', '^', '%']

/-! ## Values of literals -/

/-- A literal without its leading minus, if it has one. -/
def unsignedPart (s : List Char) : List Char :=
  if s.head? = some '-' then s.drop 1 else s

/-- The digits of a literal before its point. -/
def integerDigits (s : List Char) : List Char :=
  (unsignedPart s).takeWhile fun c => c != '.'

/-- The digits of a literal after its point. -/
def fractionDigits (s : List Char) : List Char :=
  ((unsignedPart s).dropWhile fun c => c != '.').drop 1

/-- The numeric value of a signed decimal literal: the sign times the sum of
the integer part and the fractional part. -/
def literalValue (s : List Char) : ℚ :=
  let magnitude : ℚ :=
    (digitsValue (integerDigits s) : ℚ)
      + (digitsValue (fractionDigits s) : ℚ) / 10 ^ (fractionDigits s).length
  if s.head? = some '-' then -magnitude else magnitude

/-- Truncation of a rational to an integer, toward zero. -/
def truncate (q : ℚ) : Int := if 0 ≤ q then ⌊q⌋ else ⌈q⌉

/-- The rational that a finite `double` is (`0` for infinities and NaN). -/
def Dbl.toRat : Dbl → ℚ
  | .fin neg m e => (if neg then -1 else 1) * (m : ℚ) * 2 ^ e
  | _ => 0

/-- The literal with a minus when `neg`, the digits `ip` before the point and,
unless `fp` is empty, a point and the digits `fp`. -/
def literal (neg : Bool) (ip fp : List Char) : List Char :=
  (if neg then ['-'] else []) ++ (ip ++ if fp.isEmpty then [] else '.' :: fp)

/-- A `double` is finite. -/
def Dbl.isFinite : Dbl → Bool
  | .fin _ _ _ => true
  | _ => false

/-- The values on which `std::stod` throws `std::out_of_range`, by the magnitude
`w` of the value in units of `2^-1074`: `w` is `2^2098 - 2^2044` or more (the
magnitude is `2^1024 - 2^970` or more), or `w` is below `2^52 - 1/4` (the
magnitude is below `2^-1022 - 2^-1076`), is no integer and is not, from `2^51`
on, an integer plus `1/4`. -/
def StodRangeError (v : ℚ) : Prop :=
  2 ^ 2098 - 2 ^ 2044 ≤ |v| * 2 ^ 1074 ∨
    (|v| * 2 ^ 1074 < 2 ^ 52 - 1 / 4 ∧ (∀ k : ℕ, |v| * 2 ^ 1074 ≠ (k : ℚ)) ∧
      ¬ (2 ^ 51 ≤ |v| * 2 ^ 1074 ∧ ∃ k : ℕ, |v| * 2 ^ 1074 = (k : ℚ) + 1 / 4))

/-- The results of the C library's `tgamma` at the integers 1 to 13, as glibc
2.36 (x86-64) computes them: the factorials of 0 to 11 exactly, and at 13 the
`double` next below the factorial of 12. -/
def tgammaTable : List (Dbl × Dbl) :=
  [(Dbl.ofInt 1, Dbl.ofInt 1), (Dbl.ofInt 2, Dbl.ofInt 1), (Dbl.ofInt 3, Dbl.ofInt 2),
   (Dbl.ofInt 4, Dbl.ofInt 6), (Dbl.ofInt 5, Dbl.ofInt 24), (Dbl.ofInt 6, Dbl.ofInt 120),
   (Dbl.ofInt 7, Dbl.ofInt 720), (Dbl.ofInt 8, Dbl.ofInt 5040), (Dbl.ofInt 9, Dbl.ofInt 40320),
   (Dbl.ofInt 10, Dbl.ofInt 362880), (Dbl.ofInt 11, Dbl.ofInt 3628800),
   (Dbl.ofInt 12, Dbl.ofInt 39916800),
   (Dbl.ofInt 13, Dbl.fin false 8036313307545599 (-24))]

/-- The result of `tgamma` where `tgammaTable` records it; the model leaves it
open at every other argument. -/
def tgammaKnown (x : Dbl) : Option Dbl :=
  (tgammaTable.find? fun p => decide (p.1 = x)).map fun p => p.2

/-- The `double` that a stored value is, where the model computes it: a value
computed by the arithmetic of the model, or a recorded result of `tgamma`. -/
def Val.known : Val → Option Dbl
  | .lit d => some d
  | .tgamma x => tgammaKnown x
  | .pow _ _ => none

/-! ## Strings: basic facts -/

theorem cAt_of_lt {s : List Char} {i : Nat} (h : i < s.length) : cAt s i = .ok s[i] := by
  simp [cAt, List.getElem?_eq_getElem h, pure, Except.pure]

theorem cAt_length (s : List Char) : cAt s s.length = .ok (Char.ofNat 0) := by
  simp [cAt, pure, Except.pure]

theorem cAt_nil_zero : cAt [] 0 = .ok (Char.ofNat 0) := cAt_length []

theorem cAt_cons_zero (c : Char) (s : List Char) : cAt (c :: s) 0 = .ok c := by
  simp [cAt, pure, Except.pure]

theorem cAt_cons_succ (c : Char) (s : List Char) (i : Nat) : cAt (c :: s) (i + 1) = cAt s i := by
  simp [cAt]

theorem not_isdigit_minus : isdigit '-' = false := by decide
theorem not_isdigit_dot : isdigit '.' = false := by decide
theorem not_isdigit_nul : isdigit (Char.ofNat 0) = false := by decide

theorem ne_of_isdigit {c d : Char} (h : isdigit c = true) (hd : isdigit d = false) : c ≠ d := by
  intro hc; rw [hc, hd] at h; cases h

/-! ## `checkNumber` accepts exactly the well-formed literals -/

theorem checkNumberLoop_dot_zero (cs : List Char) :
    checkNumberLoop ('.' :: cs) 0 = checkNumberLoop cs 1 := by
  simp [checkNumberLoop]

theorem checkNumberLoop_dot_one (cs : List Char) :
    checkNumberLoop ('.' :: cs) 1 = false := by
  simp [checkNumberLoop]

theorem checkNumberLoop_digit {c : Char} (hd : isdigit c = true) (cs : List Char) (k : Nat) :
    checkNumberLoop (c :: cs) k = checkNumberLoop cs k := by
  have hc : c ≠ '.' := ne_of_isdigit hd not_isdigit_dot
  simp [checkNumberLoop, hc, hd]

theorem checkNumberLoop_other {c : Char} (hc : c ≠ '.') (hd : isdigit c = false)
    (cs : List Char) (k : Nat) : checkNumberLoop (c :: cs) k = false := by
  simp [checkNumberLoop, hc, hd]

theorem allDigits_nil : AllDigits [] := by
  intro c hc; cases hc

theorem allDigits_cons {c : Char} {cs : List Char} :
    AllDigits (c :: cs) ↔ isdigit c = true ∧ AllDigits cs := by
  simp [AllDigits]

theorem allDigits_append {a b : List Char} :
    AllDigits (a ++ b) ↔ AllDigits a ∧ AllDigits b := by
  simp only [AllDigits, List.mem_append]
  constructor
  · intro h; exact ⟨fun c hc => h c (Or.inl hc), fun c hc => h c (Or.inr hc)⟩
  · rintro ⟨h1, h2⟩ c (hc | hc)
    · exact h1 c hc
    · exact h2 c hc

theorem checkNumberLoop_one_iff (cs : List Char) :
    checkNumberLoop cs 1 = true ↔ AllDigits cs := by
  induction cs with
  | nil => simp [checkNumberLoop, allDigits_nil]
  | cons c cs ih =>
    rw [allDigits_cons]
    by_cases hc : c = '.'
    · subst hc
      simp [checkNumberLoop_dot_one, not_isdigit_dot]
    · cases hd : isdigit c
      · simp [checkNumberLoop_other hc hd]
      · simp [checkNumberLoop_digit hd, ih]

theorem checkNumberLoop_zero_iff (cs : List Char) :
    checkNumberLoop cs 0 = true ↔
      AllDigits cs ∨ ∃ a b, AllDigits a ∧ AllDigits b ∧ cs = a ++ '.' :: b := by
  induction cs with
  | nil => simp [checkNumberLoop, allDigits_nil]
  | cons c cs ih =>
    by_cases hc : c = '.'
    · subst hc
      rw [checkNumberLoop_dot_zero, checkNumberLoop_one_iff]
      constructor
      · intro h
        exact Or.inr ⟨[], cs, allDigits_nil, h, rfl⟩
      · rintro (h | ⟨a, b, ha, hb, hab⟩)
        · have := (allDigits_cons.1 h).1
          rw [not_isdigit_dot] at this; cases this
        · cases a with
          | nil =>
            simp only [List.nil_append, List.cons.injEq, true_and] at hab
            rw [hab]; exact hb
          | cons x a =>
            simp only [List.cons_append, List.cons.injEq] at hab
            have := (allDigits_cons.1 ha).1
            rw [← hab.1, not_isdigit_dot] at this; cases this
    · cases hd : isdigit c
      · rw [checkNumberLoop_other hc hd]
        simp only [Bool.false_eq_true, false_iff, not_or, not_exists, not_and]
        constructor
        · intro h
          have := (allDigits_cons.1 h).1
          rw [hd] at this; cases this
        · intro a b ha _ hab
          cases a with
          | nil =>
            simp only [List.nil_append, List.cons.injEq] at hab
            exact hc hab.1
          | cons x a =>
            simp only [List.cons_append, List.cons.injEq] at hab
            have := (allDigits_cons.1 ha).1
            rw [← hab.1, hd] at this; cases this
      · rw [checkNumberLoop_digit hd, ih]
        constructor
        · rintro (h | ⟨a, b, ha, hb, hab⟩)
          · exact Or.inl (allDigits_cons.2 ⟨hd, h⟩)
          · exact Or.inr ⟨c :: a, b, allDigits_cons.2 ⟨hd, ha⟩, hb, by rw [hab]; rfl⟩
        · rintro (h | ⟨a, b, ha, hb, hab⟩)
          · exact Or.inl (allDigits_cons.1 h).2
          · cases a with
            | nil =>
              simp only [List.nil_append, List.cons.injEq] at hab
              exact absurd hab.1 hc
            | cons x a =>
              simp only [List.cons_append, List.cons.injEq] at hab
              exact Or.inr ⟨a, b, (allDigits_cons.1 ha).2, hb, hab.2⟩

theorem getLast?_append_cons (a : List Char) (c : Char) (b : List Char) :
    (a ++ c :: b).getLast? = (c :: b).getLast? := by
  induction a with
  | nil => rfl
  | cons x a ih =>
    cases a with
    | nil => simp [List.getLast?_cons_cons]
    | cons y a => rw [List.cons_append, List.cons_append, List.getLast?_cons_cons, ← ih]; rfl

theorem getLast?_mem {s : List Char} {c : Char} (h : s.getLast? = some c) : c ∈ s :=
  List.mem_of_getLast?_eq_some h

theorem unsignedOk_iff (u : List Char) : unsignedOk u = true ↔ UnsignedLiteral u := by
  unfold unsignedOk UnsignedLiteral
  simp only [Bool.and_eq_true, Bool.not_eq_true', decide_eq_false_iff_not]
  constructor
  · rintro ⟨⟨hh, hl⟩, hlast⟩
    cases u with
    | nil => simp [not_isdigit_nul] at hh
    | cons c cs =>
      simp only [List.headD_cons] at hh
      rcases (checkNumberLoop_zero_iff _).1 hl with h | ⟨a, b, ha, hb, hab⟩
      · exact Or.inl ⟨by simp, h⟩
      · right
        refine ⟨a, b, ?_, ha, ?_, hb, hab⟩
        · rintro rfl
          simp only [List.nil_append, List.cons.injEq] at hab
          rw [hab.1, not_isdigit_dot] at hh; cases hh
        · rintro rfl
          apply hlast
          rw [hab, getLast?_append_cons]; rfl
  · rintro (⟨hne, hd⟩ | ⟨ip, fp, hip, hdi, hfp, hdf, rfl⟩)
    · cases u with
      | nil => exact absurd rfl hne
      | cons c cs =>
        refine ⟨⟨(allDigits_cons.1 hd).1, (checkNumberLoop_zero_iff _).2 (Or.inl hd)⟩, ?_⟩
        intro hlast
        have := hd _ (getLast?_mem hlast)
        rw [not_isdigit_dot] at this; cases this
    · cases ip with
      | nil => exact absurd rfl hip
      | cons c cs =>
        refine ⟨⟨(allDigits_cons.1 hdi).1,
          (checkNumberLoop_zero_iff _).2 (Or.inr ⟨c :: cs, fp, hdi, hdf, rfl⟩)⟩, ?_⟩
        intro hlast
        rw [getLast?_append_cons] at hlast
        cases fp with
        | nil => exact absurd rfl hfp
        | cons f fs =>
          rw [List.getLast?_cons_cons] at hlast
          have := hdf _ (getLast?_mem hlast)
          rw [not_isdigit_dot] at this; cases this

theorem back_cons (c : Char) (cs : List Char) :
    back (c :: cs) = .ok ((c :: cs).getLast (by simp)) := by
  simp [back, List.getLast?_eq_getLast, pure, Except.pure]

theorem checkNumber_eq (s : List Char) : checkNumber s = .ok (checkNumberValue s) := by
  cases s with
  | nil => rfl
  | cons c cs =>
    by_cases hc : c = '-'
    · subst hc
      cases cs with
      | nil => rfl
      | cons d ds =>
        simp only [checkNumber, checkFirstChar, cAt_cons_zero, cAt_cons_succ, back, bind, Except.bind,
          pure, Except.pure, checkNumberValue, unsignedOk, List.headD_cons, List.isEmpty_cons,
          List.drop_succ_cons, List.drop_zero, List.getLast?_cons_cons, if_true, not_isdigit_minus]
        by_cases hd : d = '.'
        · subst hd; simp [not_isdigit_dot]
        · cases hdd : isdigit d
          · simp [hd]
          · cases hl : checkNumberLoop (d :: ds) 0
            · simp [hd]
            · cases hlast : (d :: ds).getLast? with
              | none => simp at hlast
              | some l =>
                by_cases hl2 : l = '.' <;> simp [hd, hl2]
    · cases hdd : isdigit c
      · simp [checkNumber, checkFirstChar, cAt_cons_zero, bind, Except.bind, pure, Except.pure,
          checkNumberValue, unsignedOk, hc, hdd]
      · have hc2 : c ≠ '.' := ne_of_isdigit hdd not_isdigit_dot
        simp only [checkNumber, checkFirstChar, cAt_cons_zero, back, bind, Except.bind,
          pure, Except.pure, checkNumberValue, unsignedOk, List.headD_cons, List.isEmpty_cons,
          List.drop_succ_cons, List.drop_zero, hc, hdd, checkNumberLoop_digit hdd]
        cases hl : checkNumberLoop cs 0
        · simp
        · cases hlast : (c :: cs).getLast? with
          | none => simp at hlast
          | some l =>
            by_cases hl2 : l = '.' <;> simp [hl2]

theorem checkNumberValue_iff (s : List Char) :
    checkNumberValue s = true ↔ WellFormedLiteral s := by
  unfold WellFormedLiteral
  cases s with
  | nil =>
    simp only [checkNumberValue, Bool.false_eq_true, false_iff, not_or, not_exists, not_and]
    refine ⟨?_, fun u _ h => by cases h⟩
    rw [← unsignedOk_iff]; decide
  | cons c cs =>
    simp only [checkNumberValue]
    by_cases hc : c = '-'
    · subst hc
      simp only [if_true, unsignedOk_iff]
      constructor
      · intro h; exact Or.inr ⟨cs, h, rfl⟩
      · rintro (h | ⟨u, hu, hs⟩)
        · rw [← unsignedOk_iff] at h
          simp [unsignedOk, not_isdigit_minus] at h
        · simp only [List.cons.injEq, true_and] at hs
          rw [hs]; exact hu
    · simp only [hc, if_false, unsignedOk_iff]
      constructor
      · intro h; exact Or.inl h
      · rintro (h | ⟨u, _, hs⟩)
        · exact h
        · simp only [List.cons.injEq] at hs
          exact absurd hs.1 hc

theorem findIf_le (p : Char → Bool) (s : List Char) : findIf p s ≤ s.length := by
  induction s with
  | nil => simp [findIf]
  | cons c cs ih =>
    simp only [findIf, List.length_cons]
    split
    · omega
    · omega

theorem findOperationValue_le (s : List Char) : findOperationValue s ≤ s.length := by
  cases s with
  | nil => simp [findOperationValue]
  | cons c cs =>
    simp only [findOperationValue]
    split
    · have := findIf_le isOperation cs
      simp only [List.length_cons]; omega
    · exact findIf_le isOperation (c :: cs)

theorem findOperation_eq (s : List Char) : findOperation s = .ok (findOperationValue s) := by
  cases s with
  | nil => rfl
  | cons c cs =>
    by_cases hc : c = '-'
    · simp [findOperation, cAt_cons_zero, findOperationValue, hc, bind, Except.bind, pure,
        Except.pure]
    · simp [findOperation, cAt_cons_zero, findOperationValue, hc, bind, Except.bind, pure,
        Except.pure]

theorem separateNums_eq {s : List Char} {d : Nat} (h : d ≤ s.length) :
    separateNums s d = .ok (s.take d, s.drop (d + 1)) := by
  have h1 : ¬ d > s.length := by omega
  have h2 : d + min (s.length - d) (s.length - d) = s.length := by
    rw [Nat.min_self]; omega
  simp only [separateNums, erase, h1, if_false, bind, Except.bind, pure, Except.pure, h2,
    List.drop_length, List.append_nil, gt_iff_lt, Nat.not_lt_zero, List.take_zero, List.nil_append,
    Nat.zero_add, Nat.sub_zero]
  congr 2
  by_cases h3 : d + 1 ≤ s.length
  · rw [Nat.min_eq_left h3]
  · have h4 : s.length ≤ d + 1 := by omega
    rw [Nat.min_eq_right h4, List.drop_length, List.drop_eq_nil_of_le h4]

theorem cAt_of_le {s : List Char} {i : Nat} (h : i ≤ s.length) :
    cAt s i = .ok (s.getD i (Char.ofNat 0)) := by
  rcases Nat.lt_or_eq_of_le h with h | h
  · rw [cAt_of_lt h]; simp [List.getD_eq_getElem?_getD, List.getElem?_eq_getElem h]
  · subst h; rw [cAt_length]; simp [List.getD_eq_getElem?_getD]

theorem checkIfDividedByZero_eq {s : List Char} {d : Nat} (h : d ≤ s.length) (x : Dbl) :
    checkIfDividedByZero s d x
      = .ok (decide (s.getD d (Char.ofNat 0) = '/') && Dbl.feq x (Dbl.ofInt 0)) := by
  simp only [checkIfDividedByZero, cAt_of_le h, bind, Except.bind, pure, Except.pure]
  split <;> simp_all

theorem checkSqrtOfNegativeNumber_eq {s : List Char} {d : Nat} (h : d ≤ s.length) (x : Dbl) :
    checkSqrtOfNegativeNumber s d x
      = .ok (decide (s.getD d (Char.ofNat 0) = '$') && Dbl.flt x (Dbl.ofInt 0)) := by
  simp only [checkSqrtOfNegativeNumber, cAt_of_le h, bind, Except.bind, pure, Except.pure]
  split <;> simp_all

theorem checkIfModuloOfNonIntegerValue_eq {s : List Char} {d : Nat} (h : d ≤ s.length)
    (pair : List Char × List Char) :
    checkIfModuloOfNonIntegerValue s d pair
      = if s.getD d (Char.ofNat 0) = '%' then nonIntegerOperand pair.1 pair.2 else pure false := by
  simp only [checkIfModuloOfNonIntegerValue, cAt_of_le h, bind, Except.bind, nonIntegerOperand]

theorem command_excl (a b : Dbl) : command ['!'] a b = .ok (Val.tgamma a) := by
  simp [command, pure, Except.pure]

theorem process_eq (input : List Char) (out : Val) :
    process input out =
      if checkCharacters input = false then .ok (ErrorCode.BadCharacter, out)
      else cleanedOutcome (removeSpaces input) out := by
  unfold process
  cases hcc : checkCharacters input
  · rfl
  · have hd := findOperationValue_le (removeSpaces input)
    simp only [Bool.not_true, Bool.false_eq_true, if_false, findOperation_eq, separateNums_eq hd,
      cAt_of_le hd, checkNumber_eq, checkIfDividedByZero_eq hd, checkSqrtOfNegativeNumber_eq hd,
      checkIfModuloOfNonIntegerValue_eq hd, bind, Except.bind, pure, Except.pure, cleanedOutcome]
    generalize (removeSpaces input).getD (findOperationValue (removeSpaces input)) (Char.ofNat 0) = op
    generalize List.take (findOperationValue (removeSpaces input)) (removeSpaces input) = L
    generalize List.drop (findOperationValue (removeSpaces input) + 1) (removeSpaces input) = R
    by_cases hop : op = '!'
    · subst hop
      simp only [if_true]
      cases R with
      | cons x xs => simp
      | nil =>
        simp only [List.isEmpty_nil, Bool.not_true, Bool.false_eq_true, if_false, ne_eq,
          not_true_eq_false]
        cases hL : checkNumberValue L
        · simp
        · simp only [Bool.not_true, Bool.false_eq_true, if_false, unaryOutcome, bind, Except.bind,
            pure, Except.pure, command_excl]
          cases hs : stod L with
          | error e => rfl
          | ok a => rfl
    · simp only [hop, if_false]
      cases hL : checkNumberValue L
      · simp
      · cases hR : checkNumberValue R
        · simp
        · simp only [Bool.not_true, Bool.false_eq_true, if_false, or_self, binaryOutcome, bind,
            Except.bind, pure, Except.pure]
          cases hs : stod L with
          | error e => rfl
          | ok a =>
            cases hs2 : stod R with
            | error e => rfl
            | ok b =>
              simp only []
              by_cases h1 : op = '/' <;> by_cases h2 : op = '$' <;> by_cases h3 : op = '%' <;>
                simp [h1, h2, h3]

theorem unaryOutcome_code {L : List Char} {c : ErrorCode} {v : Val}
    (h : unaryOutcome L = .ok (c, v)) : c = ErrorCode.OK := by
  unfold unaryOutcome at h
  cases hs : stod L with
  | error e => rw [hs] at h; cases h
  | ok a =>
    rw [hs] at h
    simp only [bind, Except.bind, pure, Except.pure] at h
    split at h <;> (cases h; rfl)

theorem binaryOutcome_code {op : Char} {L R : List Char} {out : Val} {c : ErrorCode} {v : Val}
    (h : binaryOutcome op L R out = .ok (c, v)) :
    c = ErrorCode.OK ∨
      (v = out ∧ (c = ErrorCode.DivideBy0 ∨ c = ErrorCode.SqrtOfNegativeNumber ∨
        c = ErrorCode.ModuleOfNonIntegerValue)) := by
  unfold binaryOutcome at h
  cases hs : stod L with
  | error e => rw [hs] at h; cases h
  | ok a =>
    cases hs2 : stod R with
    | error e => rw [hs, hs2] at h; cases h
    | ok b =>
      rw [hs, hs2] at h
      simp only [bind, Except.bind, pure, Except.pure] at h
      repeat' (first | (cases h; simp) | (cases h) | split at h)

theorem cleanedOutcome_code {s : List Char} {out : Val} {c : ErrorCode} {v : Val}
    (h : cleanedOutcome s out = .ok (c, v)) :
    c = ErrorCode.OK ∨
      (v = out ∧ (c = ErrorCode.BadFormat ∨ c = ErrorCode.DivideBy0 ∨
        c = ErrorCode.SqrtOfNegativeNumber ∨ c = ErrorCode.ModuleOfNonIntegerValue)) := by
  unfold cleanedOutcome at h
  simp only [pure, Except.pure] at h
  split at h
  · split at h
    · cases h; simp
    · split at h
      · cases h; simp
      · exact Or.inl (unaryOutcome_code h)
  · split at h
    · cases h; simp
    · rcases binaryOutcome_code h with h | ⟨h1, h2⟩
      · exact Or.inl h
      · exact Or.inr ⟨h1, Or.inr h2⟩

theorem checkCharacters_iff (input : List Char) :
    checkCharacters input = true ↔ ∀ c ∈ input, c ∈ allowedChars := by
  simp [checkCharacters, List.all_eq_true, List.any_eq_true]

theorem mem_allowedChars_iff (c : Char) :
    c ∈ allowedChars ↔ c ∈ specAllowedChars ∨ c = ',' := by
  have hp : allowedChars.Perm (',' :: specAllowedChars) := by decide
  rw [hp.mem_iff, List.mem_cons]
  exact or_comm

/-- C2 (as amended): `checkCharacters` returns `true` exactly when every
character is one the specification allows or a comma, and `process` returns
`BadCharacter` (leaving `*out` as it was) exactly when some character is
neither. -/
theorem process_badCharacter_iff (input : List Char) (out : Val) :
    (checkCharacters input = true ↔ ∀ c ∈ input, c ∈ specAllowedChars ∨ c = ',') ∧
    ((∃ v, process input out = .ok (ErrorCode.BadCharacter, v)) ↔
      ∃ c ∈ input, c ∉ specAllowedChars ∧ c ≠ ',') ∧
    (∀ v, process input out = .ok (ErrorCode.BadCharacter, v) → v = out) := by
  have h1 : checkCharacters input = true ↔ ∀ c ∈ input, c ∈ specAllowedChars ∨ c = ',' := by
    rw [checkCharacters_iff]
    exact forall_congr' fun c => imp_congr_right fun _ => mem_allowedChars_iff c
  have h2 : ∀ v, process input out = .ok (ErrorCode.BadCharacter, v) →
      checkCharacters input = false ∧ v = out := by
    intro v hv
    rw [process_eq] at hv
    cases hcc : checkCharacters input
    · rw [hcc] at hv
      simp only [if_true] at hv
      cases hv
      exact ⟨rfl, rfl⟩
    · rw [hcc] at hv
      simp only [Bool.true_eq_false, if_false] at hv
      rcases cleanedOutcome_code hv with h | ⟨_, h | h | h | h⟩ <;> cases h
  refine ⟨h1, ⟨?_, ?_⟩, fun v hv => (h2 v hv).2⟩
  · rintro ⟨v, hv⟩
    have hcc := (h2 v hv).1
    by_contra hne
    have : checkCharacters input = true := by
      rw [h1]
      intro c hc
      by_contra hcon
      exact hne ⟨c, hc, fun h => hcon (Or.inl h), fun h => hcon (Or.inr h)⟩
    rw [hcc] at this; cases this
  · rintro ⟨c, hc, hc1, hc2⟩
    have hcc : checkCharacters input = false := by
      cases h : checkCharacters input
      · rfl
      · rcases h1.1 h c hc with h | h
        · exact absurd h hc1
        · exact absurd h hc2
    exact ⟨out, by rw [process_eq, hcc]; rfl⟩

/-- C2 (counterexample): a comma is outside the specification's set, yet
`checkCharacters` accepts it and `process` answers `BadFormat`. -/
theorem process_comma_not_badCharacter :
    ',' ∉ specAllowedChars ∧ checkCharacters [','] = true ∧
      process [','] (Val.lit Dbl.nan) = .ok (ErrorCode.BadFormat, Val.lit Dbl.nan) := by
  decide

/-- C3: `checkNumber` returns, and returns `true` exactly on the well-formed
signed decimal literals `-?[0-9]+(\.[0-9]+)?`; the empty string, "-", ".5",
"-.5", "5.", "..2" and "1.2.3" are rejected and "-0.5" is accepted. -/
theorem checkNumber_iff_wellFormed (s : List Char) :
    (checkNumber s = .ok true ↔ WellFormedLiteral s) ∧
    (checkNumber s = .ok false ↔ ¬ WellFormedLiteral s) ∧
    checkNumber [] = .ok false ∧
    checkNumber ['-'] = .ok false ∧
    checkNumber ['.', '5'] = .ok false ∧
    checkNumber ['-', '.', '5'] = .ok false ∧
    checkNumber ['5', '.'] = .ok false ∧
    checkNumber ['.', '.', '2'] = .ok false ∧
    checkNumber ['1', '.', '2', '.', '3'] = .ok false ∧
    checkNumber ['-', '0', '.', '5'] = .ok true := by
  refine ⟨?_, ?_, by decide, by decide, by decide, by decide, by decide, by decide, by decide,
    by decide⟩
  · rw [checkNumber_eq, ← checkNumberValue_iff]
    constructor
    · intro h; injection h
    · intro h; rw [h]
  · rw [checkNumber_eq, ← checkNumberValue_iff]
    constructor
    · intro h; injection h with h; rw [h]; simp
    · intro h
      cases hv : checkNumberValue s
      · rfl
      · exact absurd hv h

/-- C5: inputs that are equal once their spaces are removed give the same
result: the same error code and the same value of `*out`. -/
theorem process_whitespace_insensitive (s t : List Char) (out : Val)
    (h : removeSpaces s = removeSpaces t) : process s out = process t out := by
  have hcc : ∀ u : List Char, checkCharacters u = checkCharacters (removeSpaces u) := by
    intro u
    induction u with
    | nil => rfl
    | cons c cs ih =>
      by_cases hc : c = ' '
      · subst hc
        have : removeSpaces (' ' :: cs) = removeSpaces cs := by simp [removeSpaces]
        rw [this, ← ih]
        simp [checkCharacters, allowedChars]
      · have : removeSpaces (c :: cs) = c :: removeSpaces cs := by simp [removeSpaces, hc]
        rw [this]
        simp only [checkCharacters, List.all_cons] at ih ⊢
        rw [ih]
  rw [process_eq, process_eq, hcc s, hcc t, h]

/-- C5 (witness): "2+3" and "2 + 3" give the same result. -/
theorem process_whitespace_insensitive_witness :
    removeSpaces ['2', '+', '3'] = removeSpaces ['2', ' ', '+', ' ', '3'] ∧
      process ['2', '+', '3'] (Val.lit Dbl.nan) = process ['2', ' ', '+', ' ', '3'] (Val.lit Dbl.nan) :=
  ⟨by decide, process_whitespace_insensitive _ _ _ (by decide)⟩

theorem isdigit_range {c : Char} (h : isdigit c = true) : 48 ≤ c.toNat ∧ c.toNat ≤ 57 := by
  simp only [isdigit, Char.isDigit, ge_iff_le, Bool.and_eq_true, decide_eq_true_eq] at h
  exact ⟨h.1, h.2⟩

theorem isspace_of_isdigit {c : Char} (h : isdigit c = true) : isspace c = false := by
  have hr := isdigit_range h
  have h1 : c ≠ ' ' := by
    rintro rfl
    revert hr; decide
  simp only [isspace, h1, decide_False, Bool.false_or, Bool.and_eq_false_imp, decide_eq_true_eq,
    decide_eq_false_iff_not]
  omega

theorem not_isdigit_plus : isdigit '+' = false := by decide

theorem wellFormed_iff_literal (s : List Char) :
    WellFormedLiteral s ↔
      ∃ neg ip fp, ip ≠ [] ∧ AllDigits ip ∧ AllDigits fp ∧ s = literal neg ip fp := by
  have hu : ∀ u, UnsignedLiteral u ↔
      ∃ ip fp, ip ≠ [] ∧ AllDigits ip ∧ AllDigits fp ∧ u = literal false ip fp := by
    intro u
    constructor
    · rintro (⟨h1, h2⟩ | ⟨ip, fp, h1, h2, h3, h4, rfl⟩)
      · exact ⟨u, [], h1, h2, allDigits_nil, by simp [literal]⟩
      · refine ⟨ip, fp, h1, h2, h4, ?_⟩
        cases fp with
        | nil => exact absurd rfl h3
        | cons f fs => simp [literal]
    · rintro ⟨ip, fp, h1, h2, h3, rfl⟩
      cases fp with
      | nil => exact Or.inl ⟨by simpa [literal] using h1, by simpa [literal] using h2⟩
      | cons f fs => exact Or.inr ⟨ip, f :: fs, h1, h2, by simp, h3, by simp [literal]⟩
  unfold WellFormedLiteral
  constructor
  · rintro (h | ⟨u, h, rfl⟩)
    · obtain ⟨ip, fp, h⟩ := (hu s).1 h
      exact ⟨false, ip, fp, h⟩
    · obtain ⟨ip, fp, h1, h2, h3, rfl⟩ := (hu u).1 h
      exact ⟨true, ip, fp, h1, h2, h3, by simp [literal]⟩
  · rintro ⟨neg, ip, fp, h1, h2, h3, rfl⟩
    cases neg
    · exact Or.inl ((hu _).2 ⟨ip, fp, h1, h2, h3, rfl⟩)
    · exact Or.inr ⟨literal false ip fp, (hu _).2 ⟨ip, fp, h1, h2, h3, rfl⟩, by simp [literal]⟩

theorem takeWhile_isdigit_append {a : List Char} (ha : AllDigits a) (b : List Char) :
    (a ++ b).takeWhile isdigit = a ++ b.takeWhile isdigit :=
  List.takeWhile_append_of_pos ha

theorem dropWhile_isdigit_append {a : List Char} (ha : AllDigits a) (b : List Char) :
    (a ++ b).dropWhile isdigit = b.dropWhile isdigit :=
  List.dropWhile_append_of_pos ha

theorem takeWhile_isdigit_self {a : List Char} (ha : AllDigits a) :
    a.takeWhile isdigit = a := by
  have := takeWhile_isdigit_append ha []
  simpa using this

theorem dropWhile_isdigit_self {a : List Char} (ha : AllDigits a) :
    a.dropWhile isdigit = [] := by
  have := dropWhile_isdigit_append ha []
  simpa using this

theorem allDigits_ne_dot {a : List Char} (ha : AllDigits a) :
    ∀ c ∈ a, (c != '.') = true := by
  intro c hc
  simpa using ne_of_isdigit (ha c hc) not_isdigit_dot

/-- The integer part, the fraction digits and the sign that `strtod` reads in a
literal, with nothing left unread. -/
theorem strtodDecimal_literal (neg : Bool) {ip fp : List Char} (h1 : ip ≠ [])
    (h2 : AllDigits ip) (h3 : AllDigits fp) :
    strtodDecimal (literal neg ip fp)
      = some ⟨neg, digitsValue (ip ++ fp), fp.length, []⟩ := by
  obtain ⟨d, ds, rfl⟩ := List.exists_cons_of_ne_nil h1
  have hd := (allDigits_cons.1 h2).1
  have hsp : isspace d = false := isspace_of_isdigit hd
  have hm : d ≠ '-' := ne_of_isdigit hd not_isdigit_minus
  have hp : d ≠ '+' := ne_of_isdigit hd not_isdigit_plus
  have hsign : takeSign ((literal neg (d :: ds) fp).dropWhile isspace)
      = (neg, (d :: ds) ++ if fp.isEmpty then [] else '.' :: fp) := by
    cases neg
    · simp [literal, List.dropWhile_cons, hsp, takeSign, hm, hp]
    · have : isspace '-' = false := by decide
      simp [literal, List.dropWhile_cons, this, takeSign]
  unfold strtodDecimal
  rw [hsign]
  simp only []
  rw [takeWhile_isdigit_append h2, dropWhile_isdigit_append h2]
  cases fp with
  | nil => simp
  | cons f fs =>
    have hnd : isdigit '.' = false := not_isdigit_dot
    simp [List.dropWhile_cons, List.takeWhile_cons, hnd, takeWhile_isdigit_self h3,
      dropWhile_isdigit_self h3]

theorem stoi_literal (neg : Bool) {ip fp : List Char} (h1 : ip ≠ [])
    (h2 : AllDigits ip) (_h3 : AllDigits fp) :
    stoi (literal neg ip fp) =
      if -2 ^ 31 ≤ (if neg then -(digitsValue ip : Int) else (digitsValue ip : Int)) ∧
          (if neg then -(digitsValue ip : Int) else (digitsValue ip : Int)) ≤ 2 ^ 31 - 1
      then .ok (if neg then -(digitsValue ip : Int) else (digitsValue ip : Int))
      else .error Fault.outOfRange := by
  obtain ⟨d, ds, rfl⟩ := List.exists_cons_of_ne_nil h1
  have hd := (allDigits_cons.1 h2).1
  have hsp : isspace d = false := isspace_of_isdigit hd
  have hm : d ≠ '-' := ne_of_isdigit hd not_isdigit_minus
  have hp : d ≠ '+' := ne_of_isdigit hd not_isdigit_plus
  have hsign : takeSign ((literal neg (d :: ds) fp).dropWhile isspace)
      = (neg, (d :: ds) ++ if fp.isEmpty then [] else '.' :: fp) := by
    cases neg
    · simp [literal, List.dropWhile_cons, hsp, takeSign, hm, hp]
    · have : isspace '-' = false := by decide
      simp [literal, List.dropWhile_cons, this, takeSign]
  have htw : ((d :: ds) ++ if fp.isEmpty then [] else '.' :: fp).takeWhile isdigit = d :: ds := by
    rw [takeWhile_isdigit_append h2]
    cases fp with
    | nil => simp
    | cons f fs => simp [List.takeWhile_cons, not_isdigit_dot]
  unfold stoi
  rw [hsign]
  simp only [htw, List.isEmpty_cons, Bool.false_eq_true, if_false]
  rfl

theorem digitsValue_append (a b : List Char) :
    digitsValue (a ++ b) = digitsValue a * 10 ^ b.length + digitsValue b := by
  have h : ∀ (b : List Char) (x : Nat),
      b.foldl (fun acc c => 10 * acc + (c.toNat - 48)) x
        = x * 10 ^ b.length + b.foldl (fun acc c => 10 * acc + (c.toNat - 48)) 0 := by
    intro b
    induction b with
    | nil => intro x; simp
    | cons c cs ih =>
      intro x
      simp only [List.foldl_cons, List.length_cons]
      rw [ih (10 * x + (c.toNat - 48)), ih (10 * 0 + (c.toNat - 48))]
      ring
  unfold digitsValue
  rw [List.foldl_append, h b]

theorem digitsValue_lt {a : List Char} (ha : AllDigits a) : digitsValue a < 10 ^ a.length := by
  induction a using List.reverseRecOn with
  | nil => simp [digitsValue]
  | append_singleton a c ih =>
    have h1 := (allDigits_append.1 ha).1
    have h2 := isdigit_range ((allDigits_append.1 ha).2 c (by simp))
    have := ih h1
    rw [digitsValue_append]
    simp only [digitsValue, List.length_append, List.length_singleton, List.foldl_cons,
      List.foldl_nil, pow_succ, pow_zero] at *
    omega

theorem head?_literal (neg : Bool) {ip fp : List Char} (h1 : ip ≠ []) (h2 : AllDigits ip) :
    (literal neg ip fp).head? = some '-' ↔ neg = true := by
  obtain ⟨d, ds, rfl⟩ := List.exists_cons_of_ne_nil h1
  have hm : d ≠ '-' := ne_of_isdigit (allDigits_cons.1 h2).1 not_isdigit_minus
  cases neg
  · simp [literal, hm]
  · simp [literal]

theorem unsignedPart_literal (neg : Bool) {ip fp : List Char} (h1 : ip ≠ [])
    (h2 : AllDigits ip) :
    unsignedPart (literal neg ip fp) = literal false ip fp := by
  unfold unsignedPart
  cases neg
  · rw [if_neg]
    rw [head?_literal false h1 h2]; simp
  · rw [if_pos ((head?_literal true h1 h2).2 rfl)]
    simp [literal]

theorem integerDigits_literal (neg : Bool) {ip fp : List Char} (h1 : ip ≠ [])
    (h2 : AllDigits ip) : integerDigits (literal neg ip fp) = ip := by
  unfold integerDigits
  rw [unsignedPart_literal neg h1 h2]
  simp only [literal, Bool.false_eq_true, if_false, List.nil_append]
  rw [List.takeWhile_append_of_pos (allDigits_ne_dot h2)]
  cases fp with
  | nil => simp
  | cons f fs => simp [List.takeWhile_cons]

theorem fractionDigits_literal (neg : Bool) {ip fp : List Char} (h1 : ip ≠ [])
    (h2 : AllDigits ip) : fractionDigits (literal neg ip fp) = fp := by
  unfold fractionDigits
  rw [unsignedPart_literal neg h1 h2]
  simp only [literal, Bool.false_eq_true, if_false, List.nil_append]
  rw [List.dropWhile_append_of_pos (allDigits_ne_dot h2)]
  cases fp with
  | nil => simp
  | cons f fs => simp [List.dropWhile_cons]

theorem literalValue_literal (neg : Bool) {ip fp : List Char} (h1 : ip ≠ [])
    (h2 : AllDigits ip) :
    literalValue (literal neg ip fp)
      = (if neg then -1 else 1) * ((digitsValue (ip ++ fp) : ℚ) / 10 ^ fp.length) := by
  unfold literalValue
  rw [integerDigits_literal neg h1 h2, fractionDigits_literal neg h1 h2, digitsValue_append]
  have h10 : (10 : ℚ) ^ fp.length ≠ 0 := by positivity
  cases neg
  · rw [if_neg (by rw [head?_literal false h1 h2]; simp)]
    simp only [Bool.false_eq_true, if_false]
    push_cast
    field_simp
  · rw [if_pos ((head?_literal true h1 h2).2 rfl)]
    simp only [if_true]
    push_cast
    field_simp

/-! ## Doubles as rationals -/

theorem oddPart_spec (fuel m : Nat) (e : Int) :
    ((oddPart fuel m e).1 : ℚ) * 2 ^ (oddPart fuel m e).2 = (m : ℚ) * 2 ^ e ∧
      ((oddPart fuel m e).1 = 0 ↔ m = 0) := by
  induction fuel generalizing m e with
  | zero => simp [oddPart]
  | succ fuel ih =>
    unfold oddPart
    by_cases hm : m % 2 = 0
    · rw [if_pos hm]
      obtain ⟨h1, h2⟩ := ih (m / 2) (e + 1)
      refine ⟨?_, ?_⟩
      · rw [h1]
        have hm2 : m = 2 * (m / 2) := by omega
        have : (2 : ℚ) ^ (e + 1) = 2 ^ e * 2 := by
          rw [zpow_add₀ (by norm_num : (2 : ℚ) ≠ 0)]; norm_num
        rw [this]
        conv_rhs => rw [hm2]
        push_cast
        ring
      · rw [h2]; omega
    · rw [if_neg hm]
      simp

theorem mk_eq_fin (neg : Bool) (m : Nat) (e : Int) :
    ∃ m1 e1, Dbl.mk neg m e = Dbl.fin neg m1 e1 ∧ (m1 = 0 ↔ m = 0) ∧
      (m1 : ℚ) * 2 ^ e1 = (m : ℚ) * 2 ^ e := by
  unfold Dbl.mk
  by_cases hm : m = 0
  · rw [if_pos hm]
    exact ⟨0, 0, rfl, by simp [hm], by simp [hm]⟩
  · rw [if_neg hm]
    exact ⟨_, _, rfl, (oddPart_spec m m e).2, (oddPart_spec m m e).1⟩

theorem toRat_mk (neg : Bool) (m : Nat) (e : Int) :
    (Dbl.mk neg m e).toRat = (if neg then -1 else 1) * (m : ℚ) * 2 ^ e := by
  obtain ⟨m1, e1, h1, _, h3⟩ := mk_eq_fin neg m e
  rw [h1, Dbl.toRat, mul_assoc, h3, mul_assoc]

theorem ofInt_zero : Dbl.ofInt 0 = Dbl.fin false 0 0 := by decide

theorem toRat_ofInt (i : Int) : (Dbl.ofInt i).toRat = (i : ℚ) := by
  unfold Dbl.ofInt
  rw [toRat_mk]
  simp only [zpow_zero, mul_one, decide_eq_true_eq]
  have h2 : ((i.natAbs : ℕ) : ℚ) = |(i : ℚ)| := by rw [Nat.cast_natAbs, Int.cast_abs]
  rw [h2]
  by_cases hi : i < 0
  · rw [if_pos hi, abs_of_neg (by exact_mod_cast hi)]; ring
  · rw [if_neg hi, abs_of_nonneg (by exact_mod_cast not_lt.1 hi)]; ring

theorem scaledInt_cast (neg : Bool) (m : Nat) {e k : Int} (h : k ≤ e) :
    ((Dbl.scaledInt neg m e k : Int) : ℚ) = (Dbl.fin neg m e).toRat * 2 ^ (-k) := by
  have h2 : ((2 : ℚ) ^ (e - k).toNat) = 2 ^ e * 2 ^ (-k) := by
    rw [← zpow_natCast, Int.toNat_of_nonneg (by omega), ← zpow_add₀ (by norm_num : (2 : ℚ) ≠ 0)]
    congr 1
  unfold Dbl.scaledInt Dbl.toRat
  push_cast
  rw [h2]
  cases neg <;> simp <;> ring

theorem feq_fin_iff (n1 : Bool) (m1 : Nat) (e1 : Int) (n2 : Bool) (m2 : Nat) (e2 : Int) :
    Dbl.feq (.fin n1 m1 e1) (.fin n2 m2 e2) = true ↔
      (Dbl.fin n1 m1 e1).toRat = (Dbl.fin n2 m2 e2).toRat := by
  have hpos : (0 : ℚ) < 2 ^ (-(min e1 e2)) := by positivity
  simp only [Dbl.feq, decide_eq_true_eq]
  rw [← @Int.cast_inj ℚ, scaledInt_cast n1 m1 (min_le_left e1 e2),
    scaledInt_cast n2 m2 (min_le_right e1 e2)]
  constructor
  · intro h; exact mul_right_cancel₀ (ne_of_gt hpos) h
  · intro h; rw [h]

theorem flt_fin_iff (n1 : Bool) (m1 : Nat) (e1 : Int) (n2 : Bool) (m2 : Nat) (e2 : Int) :
    Dbl.flt (.fin n1 m1 e1) (.fin n2 m2 e2) = true ↔
      (Dbl.fin n1 m1 e1).toRat < (Dbl.fin n2 m2 e2).toRat := by
  have hpos : (0 : ℚ) < 2 ^ (-(min e1 e2)) := by positivity
  simp only [Dbl.flt, decide_eq_true_eq]
  rw [← @Int.cast_lt ℚ, scaledInt_cast n1 m1 (min_le_left e1 e2),
    scaledInt_cast n2 m2 (min_le_right e1 e2)]
  exact mul_lt_mul_right hpos

theorem fle_fin_iff (n1 : Bool) (m1 : Nat) (e1 : Int) (n2 : Bool) (m2 : Nat) (e2 : Int) :
    Dbl.fle (.fin n1 m1 e1) (.fin n2 m2 e2) = true ↔
      (Dbl.fin n1 m1 e1).toRat ≤ (Dbl.fin n2 m2 e2).toRat := by
  unfold Dbl.fle
  rw [Bool.or_eq_true, flt_fin_iff, feq_fin_iff]
  exact le_iff_lt_or_eq.symm

theorem isFinite_mk (neg : Bool) (m : Nat) (e : Int) : (Dbl.mk neg m e).isFinite = true := by
  obtain ⟨m1, e1, h1, _, _⟩ := mk_eq_fin neg m e
  rw [h1]; rfl

theorem isFinite_ofInt (i : Int) : (Dbl.ofInt i).isFinite = true := isFinite_mk _ _ _

theorem feq_iff {a b : Dbl} (ha : a.isFinite = true) (hb : b.isFinite = true) :
    Dbl.feq a b = true ↔ a.toRat = b.toRat := by
  cases a <;> cases b <;> simp [Dbl.isFinite] at ha hb
  exact feq_fin_iff _ _ _ _ _ _

theorem flt_iff {a b : Dbl} (ha : a.isFinite = true) (hb : b.isFinite = true) :
    Dbl.flt a b = true ↔ a.toRat < b.toRat := by
  cases a <;> cases b <;> simp [Dbl.isFinite] at ha hb
  exact flt_fin_iff _ _ _ _ _ _

theorem fle_iff {a b : Dbl} (ha : a.isFinite = true) (hb : b.isFinite = true) :
    Dbl.fle a b = true ↔ a.toRat ≤ b.toRat := by
  cases a <;> cases b <;> simp [Dbl.isFinite] at ha hb
  exact fle_fin_iff _ _ _ _ _ _

theorem truncatedMagnitude_cast {m : Nat} {e : Int} {q : ℚ} (hq : (m : ℚ) * 2 ^ e = |q|)
    (hint : ∃ i : Int, q = (i : ℚ)) :
    ((if 0 ≤ e then m * 2 ^ e.toNat else m / 2 ^ (-e).toNat : Nat) : ℚ) = |q| := by
  by_cases he : 0 ≤ e
  · rw [if_pos he, ← hq]
    push_cast
    rw [← zpow_natCast, Int.toNat_of_nonneg he]
  · rw [if_neg he]
    obtain ⟨i, rfl⟩ := hint
    have h2 : (2 : ℚ) ^ e = 1 / 2 ^ (-e).toNat := by
      rw [← zpow_natCast, Int.toNat_of_nonneg (by omega), zpow_neg]; simp
    have hpos : (0 : ℚ) < 2 ^ (-e).toNat := by positivity
    have h3 : (m : ℚ) = (i.natAbs : ℚ) * 2 ^ (-e).toNat := by
      rw [h2] at hq
      field_simp at hq
      rw [hq, Nat.cast_natAbs, Int.cast_abs]
    have hm : m = i.natAbs * 2 ^ (-e).toNat := by exact_mod_cast h3
    rw [hm, Nat.mul_div_cancel _ (by positivity), Nat.cast_natAbs, Int.cast_abs]

theorem toInt_of_toRat {a : Dbl} (ha : a.isFinite = true) {i : Int} (h : a.toRat = (i : ℚ))
    (hlo : -2 ^ 31 ≤ i) (hhi : i ≤ 2 ^ 31 - 1) : Dbl.toInt a = .ok i := by
  cases a with
  | inf n => simp [Dbl.isFinite] at ha
  | nan => simp [Dbl.isFinite] at ha
  | fin neg m e =>
    have hq : (m : ℚ) * 2 ^ e = |(i : ℚ)| := by
      unfold Dbl.toRat at h
      rw [← h]
      cases neg <;> simp [abs_mul, abs_of_nonneg, zpow_nonneg]
    have hval := truncatedMagnitude_cast hq ⟨i, rfl⟩
    simp only [Dbl.toInt]
    generalize (if 0 ≤ e then m * 2 ^ e.toNat else m / 2 ^ (-e).toNat : Nat) = t at hval
    have key : (if neg then -(t : Int) else (t : Int)) = i := by
      have hm0 : (0 : ℚ) ≤ (m : ℚ) * 2 ^ e := by positivity
      unfold Dbl.toRat at h
      cases neg
      · simp only [Bool.false_eq_true, if_false, one_mul] at h ⊢
        have : (0 : ℚ) ≤ (i : ℚ) := by rw [← h]; exact hm0
        rw [abs_of_nonneg this] at hval
        exact_mod_cast hval
      · simp only [if_true] at h ⊢
        have : (i : ℚ) ≤ 0 := by rw [← h]; linarith
        rw [abs_of_nonpos this] at hval
        have : ((-(t : Int) : Int) : ℚ) = (i : ℚ) := by push_cast; rw [hval]; ring
        exact_mod_cast this
    rw [key, if_pos ⟨hlo, hhi⟩]
    rfl

/-! ## Rounding -/

theorem ilog2Fuel_spec (fuel n : Nat) (hn : 0 < n) (hf : n ≤ fuel) :
    2 ^ ilog2Fuel fuel n ≤ n ∧ n < 2 ^ (ilog2Fuel fuel n + 1) := by
  induction fuel generalizing n with
  | zero => omega
  | succ fuel ih =>
    unfold ilog2Fuel
    by_cases h2 : n < 2
    · rw [if_pos h2]
      have : n = 1 := by omega
      subst this
      simp
    · rw [if_neg h2]
      obtain ⟨h3, h4⟩ := ih (n / 2) (by omega) (by omega)
      constructor
      · rw [pow_succ]; omega
      · rw [pow_succ]; omega

theorem ilog2_spec {n : Nat} (hn : 0 < n) : 2 ^ ilog2 n ≤ n ∧ n < 2 ^ (ilog2 n + 1) :=
  ilog2Fuel_spec n n hn (le_refl n)

theorem ilog2_zero : ilog2 0 = 0 := rfl

theorem mul_pow_lt_pow {i a b c : Nat} (hi : i < 2 ^ a) (h : a + b ≤ c) :
    i * 2 ^ b < 2 ^ c :=
  calc i * 2 ^ b < 2 ^ a * 2 ^ b := Nat.mul_lt_mul_of_pos_right hi (by positivity)
    _ = 2 ^ (a + b) := (pow_add 2 a b).symm
    _ ≤ 2 ^ c := Nat.pow_le_pow_right (by norm_num) h

theorem ilog2_lt_of_lt_pow {n k : Nat} (hn : 0 < n) (h : n < 2 ^ k) : ilog2 n < k := by
  by_contra hc
  have h1 := (ilog2_spec hn).1
  have h2 : 2 ^ k ≤ 2 ^ ilog2 n := Nat.pow_le_pow_right (by norm_num) (not_lt.1 hc)
  exact absurd (lt_of_le_of_lt (le_trans h2 h1) h) (lt_irrefl _)

theorem roundNearestEven_zero {d : Nat} (hd : 0 < d) :
    (roundNearestEven 0 d).mant = 0 ∧ (roundNearestEven 0 d).inexact = false ∧
      (roundNearestEven 0 d).overflow = false := by
  have hP : 0 < 2 ^ 2098 := by positivity
  have hne : ¬ (0 = d) := by omega
  simp only [roundNearestEven, Rounded.overflow, Nat.zero_mul, Nat.zero_div, Nat.zero_mod,
    ilog2_zero, Nat.zero_sub, pow_zero, Nat.mul_one, Nat.mul_zero, gt_iff_lt, Nat.not_lt_zero,
    decide_False, hne, Bool.false_and, Bool.or_self, Bool.false_eq_true, if_false, ne_eq,
    not_true_eq_false, decide_eq_false_iff_not, not_le, true_and]
  exact hP

/-- A rounding to zero of a rational that is not zero is an inexact, tiny one. -/
theorem roundNearestEven_mant_zero {n d : Nat} (hn : 0 < n) (hd : 0 < d)
    (h : (roundNearestEven n d).mant = 0) :
    (roundNearestEven n d).tiny = true ∧ (roundNearestEven n d).inexact = true := by
  simp only [roundNearestEven] at h ⊢
  generalize hA : n * 2 ^ 1074 / d = A at h ⊢
  generalize hs : ilog2 A - 52 = s at h ⊢
  have hfl : n * 2 ^ 1074 / (d * 2 ^ s) = 0 := by
    split at h
    · exact absurd h (Nat.succ_ne_zero _)
    · exact h
  have hD : 0 < d * 2 ^ s := by positivity
  have hlt : n * 2 ^ 1074 < d * 2 ^ s := (Nat.div_eq_zero_iff hD).1 hfl
  have hN : 0 < n * 2 ^ 1074 := by positivity
  constructor
  · rw [decide_eq_true_eq]
    by_contra hcon
    have hA52 : 2 ^ 52 ≤ A := not_lt.1 hcon
    have hApos : 0 < A := lt_of_lt_of_le (by positivity) hA52
    have hlog := (ilog2_spec hApos).1
    have hl52 : 52 ≤ ilog2 A := by
      by_contra hc
      have h1 : ilog2 A + 1 ≤ 52 := by omega
      have h2 := (ilog2_spec hApos).2
      have h3 : 2 ^ (ilog2 A + 1) ≤ 2 ^ 52 := Nat.pow_le_pow_right (by norm_num) h1
      omega
    have hsle : 2 ^ s ≤ A := by
      refine le_trans (Nat.pow_le_pow_right (by norm_num) ?_) hlog
      omega
    have : d * 2 ^ s ≤ n * 2 ^ 1074 := by
      calc d * 2 ^ s ≤ d * A := Nat.mul_le_mul_left d hsle
        _ = d * (n * 2 ^ 1074 / d) := by rw [hA]
        _ ≤ n * 2 ^ 1074 := Nat.mul_div_le _ _
    omega
  · rw [decide_eq_true_eq, Nat.mod_eq_of_lt hlt]
    omega

/-- An integer below `2^53` is rounded to itself. -/
theorem roundNearestEven_int {i d : Nat} (hi : 0 < i) (hi2 : i < 2 ^ 53) (hd : 0 < d) :
    (roundNearestEven (i * d) d).mant * 2 ^ (roundNearestEven (i * d) d).shift = i * 2 ^ 1074 ∧
    (roundNearestEven (i * d) d).shift ≤ 1074 ∧
    (roundNearestEven (i * d) d).inexact = false ∧
    (roundNearestEven (i * d) d).overflow = false := by
  have hA : i * d * 2 ^ 1074 / d = i * 2 ^ 1074 := by
    rw [mul_comm i d, mul_assoc, Nat.mul_div_cancel_left _ hd]
  have hApos : 0 < i * 2 ^ 1074 := by positivity
  have hs : ilog2 (i * 2 ^ 1074) - 52 ≤ 1074 := by
    have h2 : i * 2 ^ 1074 < 2 ^ (53 + 1074) := mul_pow_lt_pow hi2 (le_refl _)
    have h3 : ilog2 (i * 2 ^ 1074) < 53 + 1074 := ilog2_lt_of_lt_pow hApos h2
    omega
  simp only [roundNearestEven, Rounded.overflow, hA]
  generalize ilog2 (i * 2 ^ 1074) - 52 = s at hs ⊢
  have hsplit : (2 : Nat) ^ 1074 = 2 ^ (1074 - s) * 2 ^ s := by
    rw [← pow_add]; congr 1; omega
  have hN : i * d * 2 ^ 1074 = (i * 2 ^ (1074 - s)) * (d * 2 ^ s) := by
    rw [hsplit]; ring
  have hD : 0 < d * 2 ^ s := by positivity
  have hfl : i * d * 2 ^ 1074 / (d * 2 ^ s) = i * 2 ^ (1074 - s) := by
    rw [hN, Nat.mul_div_cancel _ hD]
  have hrem : i * d * 2 ^ 1074 % (d * 2 ^ s) = 0 := by
    rw [hN, Nat.mul_mod_left]
  rw [hfl, hrem]
  have hnup : ¬ (0 = d * 2 ^ s) := by omega
  simp only [Nat.mul_zero, gt_iff_lt, Nat.not_lt_zero, decide_False, hnup, Bool.false_and,
    Bool.or_self, Bool.false_eq_true, if_false, ne_eq, not_true_eq_false, decide_eq_false_iff_not,
    not_le, true_and]
  refine ⟨?_, hs, ?_⟩
  · rw [mul_assoc, ← hsplit]
  · rw [mul_assoc, ← hsplit]
    exact mul_pow_lt_pow hi2 (by norm_num)

/-! ## `stod` rounds to the nearest `double` -/

/-- Among the multiples of `D`, the one chosen by rounding `fl * D + rem` to the
nearest (ties to even) is at least as close as any other. -/
theorem nearest_multiple {fl rem D : Nat} (hrem : rem < D) (m : Nat) :
    |(((if (decide (2 * rem > D) || (decide (2 * rem = D) && fl % 2 == 1)) = true
        then fl + 1 else fl : Nat) : Int) * D - ((fl * D + rem : Nat) : Int))|
      ≤ |((m : Int) * D - ((fl * D + rem : Nat) : Int))| := by
  have hcomp : (rem : Int) ≤ |((m : Int) * D - ((fl * D + rem : Nat) : Int))| ∨
      ((D : Int) - rem) ≤ |((m : Int) * D - ((fl * D + rem : Nat) : Int))| := by
    by_cases hm : m ≤ fl
    · left
      have h1 : (m : Int) * D ≤ (fl : Int) * D := by
        exact_mod_cast Nat.mul_le_mul_right D hm
      rw [abs_sub_comm, abs_of_nonneg (by push_cast; linarith)]
      push_cast; linarith
    · right
      have h1 : ((fl : Int) + 1) * D ≤ (m : Int) * D := by
        have : (fl + 1) * D ≤ m * D := Nat.mul_le_mul_right D (by omega)
        exact_mod_cast this
      have hr : (rem : Int) < D := by exact_mod_cast hrem
      rw [abs_of_nonneg (by push_cast; nlinarith)]
      push_cast; nlinarith
  have hrI : (rem : Int) < D := by exact_mod_cast hrem
  have hr0 : (0 : Int) ≤ rem := Int.natCast_nonneg _
  by_cases hup : (decide (2 * rem > D) || (decide (2 * rem = D) && fl % 2 == 1)) = true
  · rw [if_pos hup]
    have h2 : D ≤ 2 * rem := by
      simp only [Bool.or_eq_true, decide_eq_true_eq, Bool.and_eq_true] at hup
      rcases hup with h | ⟨h, _⟩ <;> omega
    have h2I : (D : Int) ≤ 2 * rem := by exact_mod_cast h2
    have hval : |(((fl + 1 : Nat) : Int) * D - ((fl * D + rem : Nat) : Int))| = (D : Int) - rem := by
      rw [abs_of_nonneg (by push_cast; nlinarith)]
      push_cast; ring
    rw [hval]
    rcases hcomp with h | h
    · linarith
    · exact h
  · rw [if_neg hup]
    have h2 : 2 * rem ≤ D := by
      simp only [Bool.or_eq_true, decide_eq_true_eq, Bool.and_eq_true, not_or, not_and] at hup
      omega
    have h2I : 2 * (rem : Int) ≤ D := by exact_mod_cast h2
    have hval : |((fl : Int) * D - ((fl * D + rem : Nat) : Int))| = (rem : Int) := by
      rw [abs_sub_comm, abs_of_nonneg (by push_cast; linarith)]
      push_cast; ring
    rw [hval]
    rcases hcomp with h | h
    · exact h
    · linarith

/-- The value `roundNearestEven` returns is at least as close to `n / d` as any
`M * 2^(q - 1074)` with `M` below `2^53`: stated with both sides multiplied by
`d * 2^1074`. -/
theorem roundNearestEven_nearest {n d : Nat} (hd : 0 < d) {M : Nat} (hM : M < 2 ^ 53) (q : Nat) :
    |(((roundNearestEven n d).mant * 2 ^ (roundNearestEven n d).shift * d : Nat) : Int)
        - ((n * 2 ^ 1074 : Nat) : Int)|
      ≤ |((M * 2 ^ q * d : Nat) : Int) - ((n * 2 ^ 1074 : Nat) : Int)| := by
  simp only [roundNearestEven]
  generalize n * 2 ^ 1074 = N
  have hAspec : ∀ A, 0 < ilog2 A - 52 → 2 ^ 52 * 2 ^ (ilog2 A - 52) ≤ A := by
    intro A hs
    have hApos : 0 < A := by
      by_contra h
      have : A = 0 := by omega
      rw [this, ilog2_zero] at hs
      omega
    have h1 := (ilog2_spec hApos).1
    rw [← pow_add]
    have : 52 + (ilog2 A - 52) = ilog2 A := by omega
    rw [this]; exact h1
  have hA := hAspec (N / d)
  generalize ilog2 (N / d) - 52 = s at hA ⊢
  have hD : 0 < d * 2 ^ s := by positivity
  have hN : N = N / (d * 2 ^ s) * (d * 2 ^ s) + N % (d * 2 ^ s) := by
    rw [Nat.mul_comm]; exact (Nat.div_add_mod N (d * 2 ^ s)).symm
  have hrem : N % (d * 2 ^ s) < d * 2 ^ s := Nat.mod_lt _ hD
  have key := fun m => @nearest_multiple (N / (d * 2 ^ s)) (N % (d * 2 ^ s)) (d * 2 ^ s) hrem m
  rw [← hN] at key
  have hshape : ∀ x : Nat, x * 2 ^ s * d = x * (d * 2 ^ s) := by intro x; ring
  rw [hshape]
  by_cases hq : s ≤ q
  · have hx : M * 2 ^ q * d = (M * 2 ^ (q - s)) * (d * 2 ^ s) := by
      have : (2 : Nat) ^ q = 2 ^ (q - s) * 2 ^ s := by rw [← pow_add]; congr 1; omega
      rw [this]; ring
    rw [hx]
    have := key (M * 2 ^ (q - s))
    push_cast at this ⊢
    exact this
  · have hs : 0 < s := by omega
    have hfl : 2 ^ 52 ≤ N / (d * 2 ^ s) := by
      rw [← Nat.div_div_eq_div_mul]
      rw [Nat.le_div_iff_mul_le (by positivity)]
      exact hA hs
    have h52 : 2 ^ 52 * (d * 2 ^ s) ≤ N :=
      le_trans (Nat.mul_le_mul_right _ hfl) (Nat.div_mul_le_self N (d * 2 ^ s))
    have hxlt : M * 2 ^ q * d < 2 ^ 52 * (d * 2 ^ s) := by
      have h1 : M * 2 ^ q < 2 ^ 52 * 2 ^ s := by
        have h2 : (2 : Nat) ^ s = 2 ^ (s - 1 - q) * 2 ^ q * 2 := by
          rw [← pow_add, ← pow_succ]; congr 1; omega
        rw [h2]
        have h3 : 1 ≤ 2 ^ (s - 1 - q) := Nat.one_le_two_pow
        have h4 : 0 < 2 ^ q := by positivity
        calc M * 2 ^ q < 2 ^ 53 * 2 ^ q := Nat.mul_lt_mul_of_pos_right hM h4
          _ = 2 ^ 52 * (1 * 2 ^ q * 2) := by rw [pow_succ]; ring
          _ ≤ 2 ^ 52 * (2 ^ (s - 1 - q) * 2 ^ q * 2) := by
            apply Nat.mul_le_mul_left
            apply Nat.mul_le_mul_right
            exact Nat.mul_le_mul_right _ h3
      calc M * 2 ^ q * d < 2 ^ 52 * 2 ^ s * d := Nat.mul_lt_mul_of_pos_right h1 hd
        _ = 2 ^ 52 * (d * 2 ^ s) := by ring
    have hk := key (2 ^ 52)
    have h52I : ((2 ^ 52 * (d * 2 ^ s) : Nat) : Int) ≤ (N : Int) := by exact_mod_cast h52
    have hxI : ((M * 2 ^ q * d : Nat) : Int) < ((2 ^ 52 * (d * 2 ^ s) : Nat) : Int) := by
      exact_mod_cast hxlt
    have hfar : |((2 ^ 52 : Nat) : Int) * ((d * 2 ^ s : Nat) : Int) - (N : Int)|
        ≤ |((M * 2 ^ q * d : Nat) : Int) - (N : Int)| := by
      rw [abs_sub_comm, abs_of_nonneg (by push_cast at h52I ⊢; linarith), abs_sub_comm,
        abs_of_nonneg (by push_cast at h52I hxI ⊢; linarith)]
      push_cast at h52I hxI ⊢
      linarith
    push_cast at hk hfar ⊢
    exact le_trans hk hfar

theorem two_zpow_sub (S : Nat) : (2 : ℚ) ^ ((S : Int) - 1074) = 2 ^ S / 2 ^ 1074 := by
  rw [zpow_sub₀ (by norm_num : (2 : ℚ) ≠ 0), zpow_natCast, zpow_ofNat]

theorem distance_over_denominator {x y t P : ℚ} (ht : 0 < t) (hP : 0 < P) :
    |x / P - y / t| = |x * t - y * P| / (t * P) := by
  have hc : (0 : ℚ) < t * P := mul_pos ht hP
  rw [← abs_of_pos hc, ← abs_div]
  congr 1
  field_simp
  ring

/-- The distance from `m * 2^(S - 1074)` to `n / t`, over the common
denominator. -/
theorem scaled_distance (m S n t : Nat) (ht : 0 < t) :
    |(m : ℚ) * 2 ^ ((S : Int) - 1074) - (n : ℚ) / t|
      = (((|((m * 2 ^ S * t : Nat) : Int) - ((n * 2 ^ 1074 : Nat) : Int)| : Int) : ℚ))
        / (t * 2 ^ 1074) := by
  have hp : (0 : ℚ) < 2 ^ 1074 := pow_pos (by norm_num) _
  have htq : (0 : ℚ) < t := by exact_mod_cast ht
  have e2 : (2 : ℚ) = ((2 : ℕ) : ℚ) := by norm_num
  have hcast : ((((m * 2 ^ S * t : Nat) : Int) - ((n * 2 ^ 1074 : Nat) : Int) : Int) : ℚ)
      = (m : ℚ) * 2 ^ S * t - (n : ℚ) * 2 ^ 1074 := by
    rw [Int.cast_sub, Int.cast_natCast, Int.cast_natCast, Nat.cast_mul, Nat.cast_mul, Nat.cast_mul,
      Nat.cast_pow, Nat.cast_pow, ← e2]
  rw [Int.cast_abs, hcast, two_zpow_sub, ← mul_div_assoc]
  exact distance_over_denominator htq hp

theorem nearest_signed (sg neg : Bool) {R V X : ℚ} (hX : 0 ≤ X)
    (h1 : |R - V| ≤ |X - V|) (h0 : |R - V| ≤ V) :
    |(if sg then -1 else 1) * R - (if sg then -1 else 1) * V|
      ≤ |(if neg then -1 else 1) * X - (if sg then -1 else 1) * V| := by
  have hopp : |R - V| ≤ |X + V| :=
    le_trans h0 (le_trans (by linarith) (le_abs_self _))
  cases sg <;> cases neg
  · simpa using h1
  · have h : |R - V| ≤ |-X - V| := by
      rw [show -X - V = -(X + V) by ring, abs_neg]; exact hopp
    simpa using h
  · have h : |-R - -V| ≤ |X - -V| := by
      rw [show -R - -V = -(R - V) by ring, abs_neg, show X - -V = X + V by ring]; exact hopp
    simpa using h
  · have h : |-R - -V| ≤ |-X - -V| := by
      rw [show -R - -V = -(R - V) by ring, abs_neg, show -X - -V = -(X - V) by ring, abs_neg]
      exact h1
    simpa using h

theorem nearest_of_scaled (sg neg : Bool) (m S n t : Nat) (ht : 0 < t)
    (hnear : ∀ M : Nat, M < 2 ^ 53 → ∀ q : Nat,
      |((m * 2 ^ S * t : Nat) : Int) - ((n * 2 ^ 1074 : Nat) : Int)|
        ≤ |((M * 2 ^ q * t : Nat) : Int) - ((n * 2 ^ 1074 : Nat) : Int)|)
    {M : Nat} (hM : M < 2 ^ 53) (q : Nat) :
    |(Dbl.mk sg m ((S : Int) - 1074)).toRat - (if sg then -1 else 1) * ((n : ℚ) / t)|
      ≤ |(Dbl.fin neg M ((q : Int) - 1074)).toRat - (if sg then -1 else 1) * ((n : ℚ) / t)| := by
  have hc : (0 : ℚ) < (t : ℚ) * 2 ^ 1074 :=
    mul_pos (by exact_mod_cast ht) (pow_pos (by norm_num) _)
  have hmag : ∀ M' : Nat, M' < 2 ^ 53 → ∀ q' : Nat,
      |(m : ℚ) * 2 ^ ((S : Int) - 1074) - (n : ℚ) / t|
        ≤ |(M' : ℚ) * 2 ^ ((q' : Int) - 1074) - (n : ℚ) / t| := by
    intro M' hM' q'
    rw [scaled_distance m S n t ht, scaled_distance M' q' n t ht]
    apply div_le_div_of_nonneg_right _ (le_of_lt hc)
    exact Int.cast_le.2 (hnear M' hM' q')
  have hv0 : (0 : ℚ) ≤ (n : ℚ) / t := by positivity
  have hx0 : (0 : ℚ) ≤ (M : ℚ) * 2 ^ ((q : Int) - 1074) := by positivity
  have hzero : |(m : ℚ) * 2 ^ ((S : Int) - 1074) - (n : ℚ) / t| ≤ (n : ℚ) / t := by
    have := hmag 0 (by positivity) 0
    simpa [abs_of_nonneg hv0] using this
  rw [toRat_mk, Dbl.toRat, mul_assoc, mul_assoc]
  exact nearest_signed sg neg hx0 (hmag M hM q) hzero

/-! ## Expressions built from literals -/

theorem isdigit_cases {c : Char} (h : isdigit c = true) :
    c = '0' ∨ c = '1' ∨ c = '2' ∨ c = '3' ∨ c = '4' ∨ c = '5' ∨ c = '6' ∨ c = '7' ∨
      c = '8' ∨ c = '9' := by
  obtain ⟨h1, h2⟩ := isdigit_range h
  have hc : c = Char.ofNat c.toNat := (Char.ofNat_toNat c).symm
  generalize c.toNat = n at h1 h2 hc
  subst hc
  interval_cases n <;> decide

theorem isOperation_of_isdigit {c : Char} (h : isdigit c = true) : isOperation c = false := by
  rcases isdigit_cases h with h | h | h | h | h | h | h | h | h | h <;> subst h <;> decide

theorem mem_allowedChars_of_isdigit {c : Char} (h : isdigit c = true) : c ∈ allowedChars := by
  rcases isdigit_cases h with h | h | h | h | h | h | h | h | h | h <;> subst h <;> decide

theorem ne_space_of_isdigit {c : Char} (h : isdigit c = true) : c ≠ ' ' := by
  rcases isdigit_cases h with h | h | h | h | h | h | h | h | h | h <;> subst h <;> decide

/-- The characters of an unsigned literal are digits or the point. -/
theorem mem_literal_false {ip fp : List Char} (h2 : AllDigits ip) (h3 : AllDigits fp)
    {c : Char} (hc : c ∈ literal false ip fp) : isdigit c = true ∨ c = '.' := by
  simp only [literal, Bool.false_eq_true, if_false, List.nil_append, List.mem_append] at hc
  rcases hc with hc | hc
  · exact Or.inl (h2 c hc)
  · cases fp with
    | nil => simp at hc
    | cons f fs =>
      simp only [List.isEmpty_cons, Bool.false_eq_true, if_false, List.mem_cons] at hc
      rcases hc with hc | hc | hc
      · exact Or.inr hc
      · exact Or.inl (h3 c (by simp [hc]))
      · exact Or.inl (h3 c (by simp [hc]))

theorem literal_true (ip fp : List Char) : literal true ip fp = '-' :: literal false ip fp := by
  simp [literal]

theorem literal_false_ne_nil {ip : List Char} (h1 : ip ≠ []) (fp : List Char) :
    literal false ip fp ≠ [] := by
  simp [literal, h1]

theorem head_literal_false {ip : List Char} (h1 : ip ≠ []) (h2 : AllDigits ip)
    (fp rest : List Char) :
    ∃ d t, isdigit d = true ∧ literal false ip fp ++ rest = d :: t := by
  obtain ⟨d, ds, rfl⟩ := List.exists_cons_of_ne_nil h1
  refine ⟨d, ds ++ ((if fp.isEmpty then [] else '.' :: fp) ++ rest), (allDigits_cons.1 h2).1, ?_⟩
  simp [literal]

theorem findIf_append {p : Char → Bool} {a : List Char} (ha : ∀ c ∈ a, p c = false)
    {x : Char} (hx : p x = true) (b : List Char) : findIf p (a ++ x :: b) = a.length := by
  induction a with
  | nil => simp [findIf, hx]
  | cons c cs ih =>
    have hc : p c = false := ha c (by simp)
    have ih2 := ih (fun y hy => ha y (List.mem_cons_of_mem _ hy))
    rw [List.cons_append, findIf, if_neg (by simp [hc]), ih2, List.length_cons]

theorem isOperation_literal_false {ip fp : List Char} (h2 : AllDigits ip) (h3 : AllDigits fp) :
    ∀ c ∈ literal false ip fp, isOperation c = false := by
  intro c hc
  rcases mem_literal_false h2 h3 hc with h | h
  · exact isOperation_of_isdigit h
  · subst h; decide

/-- The operator that follows a literal is the one `findOperation` finds. -/
theorem findOperationValue_literal (neg : Bool) {ip fp : List Char} (h1 : ip ≠ [])
    (h2 : AllDigits ip) (h3 : AllDigits fp) {op : Char} (hop : isOperation op = true)
    (rest : List Char) :
    findOperationValue (literal neg ip fp ++ op :: rest) = (literal neg ip fp).length := by
  cases neg
  · obtain ⟨d, t, hd, ht⟩ := head_literal_false h1 h2 fp (op :: rest)
    have hm : d ≠ '-' := ne_of_isdigit hd not_isdigit_minus
    have : findOperationValue (literal false ip fp ++ op :: rest)
        = findIf isOperation (literal false ip fp ++ op :: rest) := by
      rw [ht]; simp [findOperationValue, hm]
    rw [this, findIf_append (isOperation_literal_false h2 h3) hop]
  · rw [literal_true]
    simp only [List.cons_append, findOperationValue, if_true, List.length_cons]
    rw [findIf_append (isOperation_literal_false h2 h3) hop]
    omega

theorem mem_allowedChars_literal (neg : Bool) {ip fp : List Char} (h2 : AllDigits ip)
    (h3 : AllDigits fp) : ∀ c ∈ literal neg ip fp, c ∈ allowedChars ∧ c ≠ ' ' := by
  have hf : ∀ c ∈ literal false ip fp, c ∈ allowedChars ∧ c ≠ ' ' := by
    intro c hc
    rcases mem_literal_false h2 h3 hc with h | h
    · exact ⟨mem_allowedChars_of_isdigit h, ne_space_of_isdigit h⟩
    · subst h; decide
  cases neg
  · exact hf
  · rw [literal_true]
    intro c hc
    rcases List.mem_cons.1 hc with h | h
    · subst h; decide
    · exact hf c h

theorem removeSpaces_eq_self {s : List Char} (h : ∀ c ∈ s, c ≠ ' ') : removeSpaces s = s := by
  unfold removeSpaces
  rw [List.filter_eq_self]
  intro c hc
  simpa using h c hc

theorem isOperation_iff (c : Char) :
    isOperation c = true ↔ c = '+' ∨ c = '-' ∨ c = '*' ∨ c = '/' ∨ c = '%' ∨ c = '$' ∨
      c = '^' ∨ c = '!' := by
  simp [isOperation, operations]

theorem isOperation_allowed {c : Char} (h : isOperation c = true) :
    c ∈ allowedChars ∧ c ≠ ' ' := by
  rcases (isOperation_iff c).1 h with h | h | h | h | h | h | h | h <;> subst h <;> decide

theorem drop_length_succ_append (a : List Char) (x : Char) (b : List Char) :
    List.drop (a.length + 1) (a ++ x :: b) = b := by
  induction a with
  | nil => rfl
  | cons c cs ih => simp [ih]

/-- `process` on a literal, an operator other than the exclamation mark and a
literal. -/
theorem process_binary {A B : List Char} (hA : WellFormedLiteral A) (hB : WellFormedLiteral B)
    {op : Char} (hop : isOperation op = true) (hne : op ≠ '!') (out : Val) :
    process (A ++ op :: B) out = binaryOutcome op A B out := by
  obtain ⟨na, ia, fa, a1, a2, a3, rfl⟩ := (wellFormed_iff_literal A).1 hA
  obtain ⟨nb, ib, fb, b1, b2, b3, rfl⟩ := (wellFormed_iff_literal B).1 hB
  have hmem : ∀ c ∈ literal na ia fa ++ op :: literal nb ib fb, c ∈ allowedChars ∧ c ≠ ' ' := by
    intro c hc
    rcases List.mem_append.1 hc with h | h
    · exact mem_allowedChars_literal na a2 a3 c h
    · rcases List.mem_cons.1 h with h | h
      · subst h; exact isOperation_allowed hop
      · exact mem_allowedChars_literal nb b2 b3 c h
  have hcc : checkCharacters (literal na ia fa ++ op :: literal nb ib fb) = true :=
    (checkCharacters_iff _).2 fun c hc => (hmem c hc).1
  have hrs := removeSpaces_eq_self fun c hc => (hmem c hc).2
  have hfo := findOperationValue_literal na a1 a2 a3 hop (literal nb ib fb)
  have hdrop := drop_length_succ_append (literal na ia fa) op (literal nb ib fb)
  rw [process_eq, hcc, hrs]
  simp only [Bool.true_eq_false, if_false, cleanedOutcome, hfo, List.take_left',
    List.getD_eq_getElem?_getD, List.getElem?_append_right (le_refl _), Nat.sub_self,
    List.getElem?_cons_zero, Option.getD_some, hne, hdrop,
    (checkNumberValue_iff _).2 hA, (checkNumberValue_iff _).2 hB, Bool.true_eq_false, or_self]

/-- `process` on a literal followed by an exclamation mark. -/
theorem process_unary {L : List Char} (hL : WellFormedLiteral L) (out : Val) :
    process (L ++ ['!']) out = unaryOutcome L := by
  obtain ⟨na, ia, fa, a1, a2, a3, rfl⟩ := (wellFormed_iff_literal L).1 hL
  have hop : isOperation '!' = true := by decide
  have hmem : ∀ c ∈ literal na ia fa ++ ['!'], c ∈ allowedChars ∧ c ≠ ' ' := by
    intro c hc
    rcases List.mem_append.1 hc with h | h
    · exact mem_allowedChars_literal na a2 a3 c h
    · rcases List.mem_cons.1 h with h | h
      · subst h; exact isOperation_allowed hop
      · simp at h
  have hcc : checkCharacters (literal na ia fa ++ ['!']) = true :=
    (checkCharacters_iff _).2 fun c hc => (hmem c hc).1
  have hrs := removeSpaces_eq_self fun c hc => (hmem c hc).2
  have hfo := findOperationValue_literal na a1 a2 a3 hop []
  have hdrop := drop_length_succ_append (literal na ia fa) '!' []
  rw [process_eq, hcc, hrs]
  simp only [Bool.true_eq_false, if_false, cleanedOutcome, hfo, List.take_left',
    List.getD_eq_getElem?_getD, List.getElem?_append_right (le_refl _), Nat.sub_self,
    List.getElem?_cons_zero, Option.getD_some, hdrop, if_true, ne_eq, not_true_eq_false,
    (checkNumberValue_iff _).2 hL, Bool.true_eq_false]

/-! ## The rounding of `strtod` -/

theorem four_mul_pow_1074 : (2 : Nat) ^ 1076 = 4 * 2 ^ 1074 := by
  rw [show (4 : Nat) = 2 ^ 2 by norm_num, ← pow_add]

theorem two_pow_le_two_pow {a b : Nat} (h : a ≤ b) : (2 : Nat) ^ a ≤ 2 ^ b :=
  Nat.pow_le_pow_right (by norm_num) h

theorem ilog2_sub_of_lt {A : Nat} (h : A < 2 ^ 52) : ilog2 A - 52 = 0 := by
  by_cases hA : A = 0
  · rw [hA, ilog2_zero]
  · have := ilog2_lt_of_lt_pow (Nat.pos_of_ne_zero hA) h
    omega

theorem roundNearestEven_tiny_shift {n d : Nat} (h : (roundNearestEven n d).tiny = true) :
    (roundNearestEven n d).shift = 0 := by
  simp only [roundNearestEven, decide_eq_true_eq] at h ⊢
  exact ilog2_sub_of_lt h

/-- An exact rounding returns the rational itself. -/
theorem roundNearestEven_exact {n d : Nat} (hd : 0 < d)
    (h : (roundNearestEven n d).inexact = false) :
    (roundNearestEven n d).mant * 2 ^ (roundNearestEven n d).shift * d = n * 2 ^ 1074 := by
  simp only [roundNearestEven] at h ⊢
  generalize n * 2 ^ 1074 = N at h ⊢
  generalize ilog2 (N / d) - 52 = s at h ⊢
  have hD : 0 < d * 2 ^ s := by positivity
  have hne : ¬ (0 = d * 2 ^ s) := by omega
  replace h : N % (d * 2 ^ s) = 0 := not_not.1 (of_decide_eq_false h)
  rw [h]
  simp only [Nat.mul_zero, gt_iff_lt, Nat.not_lt_zero, decide_False, hne, Bool.false_and,
    Bool.or_self, Bool.false_eq_true, if_false]
  have hN := Nat.div_add_mod N (d * 2 ^ s)
  rw [h, Nat.add_zero] at hN
  calc N / (d * 2 ^ s) * 2 ^ s * d = d * 2 ^ s * (N / (d * 2 ^ s)) := by ring
    _ = N := hN

theorem strtodDropsBit_zero (d : Nat) : strtodDropsBit 0 d = false := by
  unfold strtodDropsBit strtodQuarters
  rw [Nat.zero_mul, Nat.zero_div]
  exact decide_eq_false (fun h => absurd h.1 (by norm_num))

theorem strtodQuarters_mul (i : Nat) {d : Nat} (hd : 0 < d) :
    strtodQuarters (i * d) d = i * 2 ^ 1076 := by
  unfold strtodQuarters
  rw [Nat.mul_right_comm, Nat.mul_div_cancel _ hd]

theorem strtodDropsBit_mul {i d : Nat} (hi : 0 < i) (hd : 0 < d) :
    strtodDropsBit (i * d) d = false := by
  unfold strtodDropsBit
  rw [strtodQuarters_mul i hd, decide_eq_false_iff_not]
  intro h
  have h1 : (2 : Nat) ^ 54 ≤ 2 ^ 1076 := two_pow_le_two_pow (by norm_num)
  have h2 : 2 ^ 1076 ≤ i * 2 ^ 1076 := Nat.le_mul_of_pos_left _ hi
  have h3 := h.2.1
  have h4 : i * 2 ^ 1076 < 2 ^ 54 := lt_of_lt_of_le h3 (Nat.sub_le _ _)
  exact absurd (lt_of_le_of_lt (le_trans h1 h2) h4) (lt_irrefl _)

/-- A rational that is rounded to zero is below `2^-1074`. -/
theorem roundNearestEven_mant_zero_quarters {n d : Nat} (hn : 0 < n) (hd : 0 < d)
    (h : (roundNearestEven n d).mant = 0) : strtodQuarters n d < 4 := by
  obtain ⟨ht, _⟩ := roundNearestEven_mant_zero hn hd h
  have hs := roundNearestEven_tiny_shift ht
  simp only [roundNearestEven] at h hs
  rw [hs, pow_zero, Nat.mul_one] at h
  have hfl : n * 2 ^ 1074 / d = 0 := by
    split at h
    · exact absurd h (Nat.succ_ne_zero _)
    · exact h
  have hlt : n * 2 ^ 1074 < d := (Nat.div_eq_zero_iff hd).1 hfl
  unfold strtodQuarters
  rw [Nat.div_lt_iff_lt_mul hd, four_mul_pow_1074]
  calc n * (4 * 2 ^ 1074) = 4 * (n * 2 ^ 1074) := by ring
    _ < 4 * d := Nat.mul_lt_mul_of_pos_left hlt (by norm_num)

theorem strtodDropsBit_iff (n d : Nat) :
    strtodDropsBit n d = true ↔
      2 ^ 53 ≤ strtodQuarters n d ∧ strtodQuarters n d < 2 ^ 54 - 1 ∧
        strtodQuarters n d % 2 = 1 := by
  unfold strtodDropsBit
  exact decide_eq_true_iff

/-- When glibc drops the bit of weight `2^-1076` and reports no `ERANGE`, the
magnitude is a multiple of `2^-1074` plus `2^-1076`. -/
theorem dropsBit_exact {n t : Nat} (ht : 0 < t) (hdrop : strtodDropsBit n t = true)
    (hex : (roundNearestEven (n * 2 ^ 1076 - t) (t * 2 ^ 1076)).inexact = false) :
    (4 * ((roundNearestEven (n * 2 ^ 1076 - t) (t * 2 ^ 1076)).mant
        * 2 ^ (roundNearestEven (n * 2 ^ 1076 - t) (t * 2 ^ 1076)).shift) + 1) * t
      = n * 2 ^ 1076 ∧
    (roundNearestEven (n * 2 ^ 1076 - t) (t * 2 ^ 1076)).mant ≠ 0 := by
  have hpos : 0 < t * 2 ^ 1076 := by positivity
  have hx := roundNearestEven_exact hpos hex
  obtain ⟨hq1, _, _⟩ := (strtodDropsBit_iff n t).1 hdrop
  unfold strtodQuarters at hq1
  generalize (roundNearestEven (n * 2 ^ 1076 - t) (t * 2 ^ 1076)).mant = m at hx ⊢
  generalize (roundNearestEven (n * 2 ^ 1076 - t) (t * 2 ^ 1076)).shift = S at hx ⊢
  have hK : m = 0 → m * 2 ^ S = 0 := fun h => by rw [h, Nat.zero_mul]
  generalize m * 2 ^ S = K at hx hK ⊢
  have hP : 0 < 2 ^ 1074 := by positivity
  rw [four_mul_pow_1074] at hx hq1 ⊢
  generalize 2 ^ 1074 = P at hx hq1 hP ⊢
  have h53 : 1 ≤ 2 ^ 53 := Nat.one_le_two_pow
  have hq2 : 1 ≤ n * (4 * P) / t := le_trans h53 hq1
  have hle : t ≤ n * (4 * P) := by
    have := (Nat.le_div_iff_mul_le ht).1 hq2
    simpa using this
  have hx2 : (K * t * 4) * P = (n * (4 * P) - t) * P := by
    rw [← hx]; ring
  have hx3 : K * t * 4 = n * (4 * P) - t := Nat.eq_of_mul_eq_mul_right hP hx2
  have hmain : (4 * K + 1) * t = n * (4 * P) := by
    have : (4 * K + 1) * t = K * t * 4 + t := by ring
    rw [this, hx3]
    omega
  refine ⟨hmain, ?_⟩
  intro hm
  rw [hK hm, Nat.mul_zero, Nat.zero_add, Nat.one_mul] at hmain
  rw [← hmain, Nat.div_self ht] at hq1
  exact absurd hq1 (by norm_num)

theorem stod_literal (neg : Bool) {ip fp : List Char} (h1 : ip ≠ [])
    (h2 : AllDigits ip) (h3 : AllDigits fp) :
    stod (literal neg ip fp) =
      if strtodDropsBit (digitsValue (ip ++ fp)) (10 ^ fp.length) = true then
        if (roundNearestEven (digitsValue (ip ++ fp) * 2 ^ 1076 - 10 ^ fp.length)
            (10 ^ fp.length * 2 ^ 1076)).inexact = true
        then .error Fault.outOfRange
        else .ok (Dbl.mk neg
          (roundNearestEven (digitsValue (ip ++ fp) * 2 ^ 1076 - 10 ^ fp.length)
            (10 ^ fp.length * 2 ^ 1076)).mant
          ((roundNearestEven (digitsValue (ip ++ fp) * 2 ^ 1076 - 10 ^ fp.length)
            (10 ^ fp.length * 2 ^ 1076)).shift - 1074))
      else if ((roundNearestEven (digitsValue (ip ++ fp)) (10 ^ fp.length)).overflow ||
          ((roundNearestEven (digitsValue (ip ++ fp)) (10 ^ fp.length)).tiny &&
            (roundNearestEven (digitsValue (ip ++ fp)) (10 ^ fp.length)).inexact &&
            decide (strtodQuarters (digitsValue (ip ++ fp)) (10 ^ fp.length) ≠ 2 ^ 54 - 1))) = true
      then .error Fault.outOfRange
      else .ok (Dbl.mk neg (roundNearestEven (digitsValue (ip ++ fp)) (10 ^ fp.length)).mant
        ((roundNearestEven (digitsValue (ip ++ fp)) (10 ^ fp.length)).shift - 1074)) := by
  unfold stod
  rw [strtodDecimal_literal neg h1 h2 h3]
  rfl

/-- On a literal whose digits do not put it in the case of the dropped bit,
`stod` rounds to nearest and reports the range errors of glibc. -/
theorem stod_literal_standard (neg : Bool) {ip fp : List Char} (h1 : ip ≠ [])
    (h2 : AllDigits ip) (h3 : AllDigits fp)
    (hdrop : strtodDropsBit (digitsValue (ip ++ fp)) (10 ^ fp.length) = false) :
    stod (literal neg ip fp) =
      if ((roundNearestEven (digitsValue (ip ++ fp)) (10 ^ fp.length)).overflow ||
          ((roundNearestEven (digitsValue (ip ++ fp)) (10 ^ fp.length)).tiny &&
            (roundNearestEven (digitsValue (ip ++ fp)) (10 ^ fp.length)).inexact &&
            decide (strtodQuarters (digitsValue (ip ++ fp)) (10 ^ fp.length) ≠ 2 ^ 54 - 1))) = true
      then .error Fault.outOfRange
      else .ok (Dbl.mk neg (roundNearestEven (digitsValue (ip ++ fp)) (10 ^ fp.length)).mant
        ((roundNearestEven (digitsValue (ip ++ fp)) (10 ^ fp.length)).shift - 1074)) := by
  rw [stod_literal neg h1 h2 h3, hdrop, if_neg (by decide)]

theorem abs_le_of_quarter {a b t z : Int} (ha : 4 * a = -t) (hb : 4 * b = z * t) (hz : z ≠ 0) :
    |a| ≤ |b| := by
  have h1 : |4 * a| ≤ |4 * b| := by
    rw [ha, hb, abs_neg, abs_mul]
    have hz1 : 1 ≤ |z| := Int.one_le_abs hz
    calc |t| = 1 * |t| := (one_mul _).symm
      _ ≤ |z| * |t| := mul_le_mul_of_nonneg_right hz1 (abs_nonneg t)
  rw [abs_mul, abs_mul] at h1
  have h4 : |(4 : Int)| = 4 := by norm_num
  rw [h4] at h1
  omega

/-- What `stod` returns for a literal: a finite value with the sign of the
literal, zero only for a literal of zeros, and at least as close to the
literal's value as any `M * 2^(q - 1074)` with `M` below `2^53` (the distances
are multiplied by the denominator and by `2^1074`). -/
theorem stod_literal_ok (neg : Bool) {ip fp : List Char} (h1 : ip ≠ [])
    (h2 : AllDigits ip) (h3 : AllDigits fp) {d : Dbl}
    (hd : stod (literal neg ip fp) = .ok d) :
    ∃ m S : Nat, d = Dbl.mk neg m ((S : Int) - 1074) ∧
      (m = 0 ↔ digitsValue (ip ++ fp) = 0) ∧
      ∀ M : Nat, M < 2 ^ 53 → ∀ q : Nat,
        |((m * 2 ^ S * 10 ^ fp.length : Nat) : Int)
            - ((digitsValue (ip ++ fp) * 2 ^ 1074 : Nat) : Int)|
          ≤ |((M * 2 ^ q * 10 ^ fp.length : Nat) : Int)
            - ((digitsValue (ip ++ fp) * 2 ^ 1074 : Nat) : Int)| := by
  rw [stod_literal neg h1 h2 h3] at hd
  have ht : 0 < 10 ^ fp.length := by positivity
  generalize digitsValue (ip ++ fp) = n at hd ⊢
  generalize 10 ^ fp.length = t at hd ht ⊢
  by_cases hdrop : strtodDropsBit n t = true
  · rw [if_pos hdrop] at hd
    by_cases hex : (roundNearestEven (n * 2 ^ 1076 - t) (t * 2 ^ 1076)).inexact = true
    · rw [if_pos hex] at hd; cases hd
    · rw [if_neg hex] at hd
      have hex2 : (roundNearestEven (n * 2 ^ 1076 - t) (t * 2 ^ 1076)).inexact = false :=
        Bool.eq_false_iff.2 hex
      obtain ⟨hmain, hm⟩ := dropsBit_exact ht hdrop hex2
      refine ⟨_, _, (Except.ok.inj hd).symm, ?_, ?_⟩
      · constructor
        · intro h; exact absurd h hm
        · intro h
          rw [h, Nat.zero_mul] at hmain
          have : t = 0 := by
            rcases Nat.mul_eq_zero.1 hmain with h0 | h0
            · omega
            · exact h0
          omega
      · intro M _ q
        generalize (roundNearestEven (n * 2 ^ 1076 - t) (t * 2 ^ 1076)).mant = m at hmain
        generalize (roundNearestEven (n * 2 ^ 1076 - t) (t * 2 ^ 1076)).shift = S at hmain
        rw [four_mul_pow_1074] at hmain
        generalize 2 ^ 1074 = P at hmain ⊢
        generalize m * 2 ^ S = K at hmain ⊢
        generalize M * 2 ^ q = X
        have hI : (4 * (K : Int) + 1) * t = n * (4 * P) := by exact_mod_cast hmain
        apply abs_le_of_quarter (t := (t : Int)) (z := 4 * (X : Int) - 4 * K - 1)
        · push_cast; linarith
        · push_cast; linarith
        · omega
  · rw [if_neg hdrop] at hd
    by_cases hc : ((roundNearestEven n t).overflow || ((roundNearestEven n t).tiny &&
        (roundNearestEven n t).inexact && decide (strtodQuarters n t ≠ 2 ^ 54 - 1))) = true
    · rw [if_pos hc] at hd; cases hd
    · rw [if_neg hc] at hd
      refine ⟨_, _, (Except.ok.inj hd).symm, ?_, ?_⟩
      · constructor
        · intro hm
          by_contra hne
          have hn : 0 < n := Nat.pos_of_ne_zero hne
          obtain ⟨htiny, hin⟩ := roundNearestEven_mant_zero hn ht hm
          have hq := roundNearestEven_mant_zero_quarters hn ht hm
          apply hc
          have hq2 : strtodQuarters n t ≠ 2 ^ 54 - 1 := by
            intro h
            rw [h] at hq
            exact absurd hq (by norm_num)
          rw [htiny, hin, decide_eq_true hq2]
          simp
        · rintro rfl
          exact (roundNearestEven_zero ht).1
      · intro M hM q
        exact roundNearestEven_nearest ht hM q

/-! ## When `strtod` reports a range error -/

/-- The shape of a rounding: below `2^52` units of `2^-1074` the shift is zero,
from there on the quotient kept has 53 bits. -/
theorem roundNearestEven_shape (N d : Nat) :
    (N / d < 2 ^ 52 ∧ ilog2 (N / d) - 52 = 0) ∨
    (2 ^ 52 ≤ N / d ∧ 2 ^ 52 * 2 ^ (ilog2 (N / d) - 52) ≤ N / d ∧
      N / d < 2 ^ 53 * 2 ^ (ilog2 (N / d) - 52)) := by
  by_cases h : N / d < 2 ^ 52
  · exact Or.inl ⟨h, ilog2_sub_of_lt h⟩
  · right
    have h52 : 2 ^ 52 ≤ N / d := not_lt.1 h
    have hpos : 0 < N / d := lt_of_lt_of_le (by positivity) h52
    obtain ⟨hlo, hhi⟩ := ilog2_spec hpos
    have hl : 52 ≤ ilog2 (N / d) := by
      by_contra hc
      have h1 : ilog2 (N / d) + 1 ≤ 52 := by omega
      have h3 : 2 ^ (ilog2 (N / d) + 1) ≤ 2 ^ 52 := two_pow_le_two_pow h1
      omega
    refine ⟨h52, ?_, ?_⟩
    · rw [← pow_add]
      have : 52 + (ilog2 (N / d) - 52) = ilog2 (N / d) := by omega
      rw [this]; exact hlo
    · rw [← pow_add]
      have : 53 + (ilog2 (N / d) - 52) = ilog2 (N / d) + 1 := by omega
      rw [this]; exact hhi

theorem div_mul_pow_bounds {N d s : Nat} (hlo : 2 ^ 52 * 2 ^ s ≤ N / d)
    (hhi : N / d < 2 ^ 53 * 2 ^ s) :
    2 ^ 52 ≤ N / (d * 2 ^ s) ∧ N / (d * 2 ^ s) < 2 ^ 53 := by
  have hs : 0 < 2 ^ s := by positivity
  rw [← Nat.div_div_eq_div_mul]
  constructor
  · rw [Nat.le_div_iff_mul_le hs]; exact hlo
  · rw [Nat.div_lt_iff_lt_mul hs]; exact hhi

theorem two_pow_cases_2045 (s : Nat) :
    (s ≤ 2044 ∧ 2 ^ s ≤ 2 ^ 2044) ∨ (s = 2045 ∧ 2 ^ s = 2 * 2 ^ 2044) ∨
      (2046 ≤ s ∧ 4 * 2 ^ 2044 ≤ 2 ^ s) := by
  rcases Nat.lt_trichotomy s 2045 with h | h | h
  · exact Or.inl ⟨by omega, two_pow_le_two_pow (by omega)⟩
  · refine Or.inr (Or.inl ⟨h, ?_⟩)
    rw [h, show (2045 : Nat) = 2044 + 1 by norm_num, pow_succ, Nat.mul_comm]
  · refine Or.inr (Or.inr ⟨by omega, ?_⟩)
    have h1 : (2 : Nat) ^ 2046 ≤ 2 ^ s := two_pow_le_two_pow (by omega)
    have h2 : (2 : Nat) ^ 2046 = 4 * 2 ^ 2044 := by
      rw [show (4 : Nat) = 2 ^ 2 by norm_num, ← pow_add]
    rw [← h2]; exact h1

/-- The rounded value is `2^1024` or more exactly when the rational is
`2^1024 - 2^970` or more (in units of `2^-1074`: `2^2098 - 2^2044`). -/
theorem overflow_iff {n d : Nat} (hd : 0 < d) :
    (roundNearestEven n d).overflow = true ↔ (2 ^ 2098 - 2 ^ 2044) * d ≤ n * 2 ^ 1074 := by
  unfold Rounded.overflow
  rw [decide_eq_true_iff]
  simp only [roundNearestEven]
  generalize n * 2 ^ 1074 = N
  have hX98 : (2 : Nat) ^ 2098 = 2 ^ 54 * 2 ^ 2044 := by rw [← pow_add]
  have hX52 : (2 : Nat) ^ 52 ≤ 2 ^ 2044 := two_pow_le_two_pow (by norm_num)
  have hcases := two_pow_cases_2045 (ilog2 (N / d) - 52)
  have hshape := roundNearestEven_shape N d
  rw [hX98]
  generalize (2 : Nat) ^ 2044 = X at hX52 hcases ⊢
  generalize ilog2 (N / d) - 52 = s at hcases hshape ⊢
  have hT : (2 ^ 54 * X - X) * d = (2 ^ 54 - 1) * (X * d) := by
    have : 2 ^ 54 * X - X = (2 ^ 54 - 1) * X := by omega
    rw [this, Nat.mul_assoc]
  rw [hT]
  have hD : 0 < d * 2 ^ s := by positivity
  have hdiv := Nat.div_add_mod N (d * 2 ^ s)
  have hrem : N % (d * 2 ^ s) < d * 2 ^ s := Nat.mod_lt _ hD
  have hNlt : N < d * (N / d + 1) := Nat.lt_mul_div_succ N hd
  have hNge : d * (N / d) ≤ N := Nat.mul_div_le N d
  have hXd : X * d ≤ (2 ^ 54 - 1) * (X * d) := Nat.le_mul_of_pos_left _ (by norm_num)
  have hfl : (N / d < 2 ^ 52 ∧ s = 0) ∨
      (2 ^ 52 ≤ N / (d * 2 ^ s) ∧ N / (d * 2 ^ s) < 2 ^ 53 ∧ 2 ^ 52 * 2 ^ s ≤ N / d ∧
        N / d < 2 ^ 53 * 2 ^ s) := by
    rcases hshape with ⟨h1, h2⟩ | ⟨_, h2, h3⟩
    · exact Or.inl ⟨h1, h2⟩
    · exact Or.inr ⟨(div_mul_pow_bounds h2 h3).1, (div_mul_pow_bounds h2 h3).2, h2, h3⟩
  generalize N / (d * 2 ^ s) = fl at hdiv hfl ⊢
  generalize N % (d * 2 ^ s) = rem at hdiv hrem ⊢
  have hmant : ∀ mant, mant = (if (decide (2 * rem > d * 2 ^ s) ||
        decide (2 * rem = d * 2 ^ s) && fl % 2 == 1) = true then fl + 1 else fl) →
      (mant = fl + 1 ∧ (2 * rem > d * 2 ^ s ∨ (2 * rem = d * 2 ^ s ∧ fl % 2 = 1))) ∨
      (mant = fl ∧ (2 * rem < d * 2 ^ s ∨ (2 * rem = d * 2 ^ s ∧ fl % 2 = 0))) := by
    intro mant hm
    by_cases hc : (decide (2 * rem > d * 2 ^ s) ||
        decide (2 * rem = d * 2 ^ s) && fl % 2 == 1) = true
    · rw [if_pos hc] at hm
      simp only [Bool.or_eq_true, Bool.and_eq_true, decide_eq_true_eq, beq_iff_eq] at hc
      exact Or.inl ⟨hm, hc⟩
    · rw [if_neg hc] at hm
      simp only [Bool.or_eq_true, Bool.and_eq_true, decide_eq_true_eq, beq_iff_eq, not_or,
        not_and] at hc
      refine Or.inr ⟨hm, ?_⟩
      omega
  generalize hme : (if (decide (2 * rem > d * 2 ^ s) ||
        decide (2 * rem = d * 2 ^ s) && fl % 2 == 1) = true then fl + 1 else fl) = mant
  have hm := hmant mant hme.symm
  clear hmant hme
  have hXpos : 0 < X := lt_of_lt_of_le (by norm_num) hX52
  have hmle : mant ≤ fl + 1 := by rcases hm with ⟨h, _⟩ | ⟨h, _⟩ <;> omega
  have hmge : fl ≤ mant := by rcases hm with ⟨h, _⟩ | ⟨h, _⟩ <;> omega
  generalize hA : N / d = A at hNlt hNge hfl
  rcases hfl with ⟨hA52, hs0⟩ | ⟨hfl1, hfl2, hA1, hA2⟩
  · -- below the normal range: neither side holds
    subst hs0
    rw [pow_zero, Nat.mul_one] at hdiv hrem ⊢
    have h1 : N < d * 2 ^ 52 :=
      lt_of_lt_of_le hNlt (Nat.mul_le_mul_left d (by omega))
    have h2 : d * 2 ^ 52 ≤ X * d := by
      rw [Nat.mul_comm d]; exact Nat.mul_le_mul_right d hX52
    have h3 : d * fl < d * 2 ^ 52 := by omega
    have h4 : fl < 2 ^ 52 := Nat.lt_of_mul_lt_mul_left h3
    constructor
    · intro h; omega
    · intro h; omega
  · generalize 2 ^ s = p at hcases hdiv hrem hm hA1 hA2 ⊢
    rcases hcases with ⟨_, hp⟩ | ⟨_, hp⟩ | ⟨_, hp⟩
    · -- the rounded value stays below `2^1023`
      have h1 : mant * p ≤ 2 ^ 53 * X := Nat.mul_le_mul (by omega) hp
      have h2 : N < d * (2 ^ 53 * X) :=
        lt_of_lt_of_le hNlt (Nat.mul_le_mul_left d
          (le_trans (by omega) (Nat.mul_le_mul_left (2 ^ 53) hp)))
      have h3 : d * (2 ^ 53 * X) = 2 ^ 53 * (X * d) := by ring
      constructor
      · intro h; omega
      · intro h; omega
    · -- the last binade
      subst hp
      have hD2 : d * (2 * X) = 2 * (X * d) := by ring
      rw [hD2] at hdiv hrem hm
      have hY : 0 < X * d := Nat.mul_pos hXpos hd
      generalize X * d = Y at hdiv hrem hm hXd hY ⊢
      by_cases hf : fl = 2 ^ 53 - 1
      · subst hf
        have hN2 : N = (2 ^ 54 - 2) * Y + rem := by
          rw [← hdiv]; ring
        constructor
        · intro h
          have hmant : mant = 2 ^ 53 := by
            by_contra hne
            have h5 : mant ≤ 2 ^ 53 - 1 := by omega
            have h6 : mant * (2 * X) ≤ (2 ^ 53 - 1) * (2 * X) := Nat.mul_le_mul_right _ h5
            omega
          rcases hm with ⟨_, h7⟩ | ⟨h7, _⟩
          · omega
          · omega
        · intro h
          have hup : mant = 2 ^ 53 := by
            rcases hm with ⟨h7, _⟩ | ⟨_, h7⟩
            · omega
            · omega
          rw [hup]
          omega
      · have hf2 : fl ≤ 2 ^ 53 - 2 := by omega
        have h5 : mant * (2 * X) ≤ (2 ^ 53 - 1) * (2 * X) :=
          Nat.mul_le_mul_right _ (by omega)
        have h6 : 2 * Y * fl ≤ 2 * Y * (2 ^ 53 - 2) := Nat.mul_le_mul_left _ hf2
        constructor
        · intro h; omega
        · intro h; omega
    · -- the rational is `2^1024` or more
      have h1 : 2 ^ 52 * (4 * X) ≤ mant * p := Nat.mul_le_mul (by omega) hp
      have h2 : d * (2 ^ 52 * (4 * X)) ≤ N :=
        le_trans (Nat.mul_le_mul_left d
          (le_trans (Nat.mul_le_mul_left (2 ^ 52) hp) hA1)) hNge
      have h3 : d * (2 ^ 52 * (4 * X)) = 2 ^ 54 * (X * d) := by ring
      have h4 : (2 ^ 54 - 1) * (X * d) ≤ 2 ^ 54 * (X * d) :=
        Nat.mul_le_mul_right _ (by norm_num)
      constructor
      · intro _; omega
      · intro _; omega

theorem tiny_iff {n d : Nat} (hd : 0 < d) :
    (roundNearestEven n d).tiny = true ↔ n * 2 ^ 1074 < 2 ^ 52 * d := by
  simp only [roundNearestEven]
  rw [decide_eq_true_iff, Nat.div_lt_iff_lt_mul hd]

theorem inexact_of_tiny {n d : Nat} (h : (roundNearestEven n d).tiny = true) :
    (roundNearestEven n d).inexact = true ↔ ¬ d ∣ n * 2 ^ 1074 := by
  have hs := roundNearestEven_tiny_shift h
  simp only [roundNearestEven] at hs ⊢
  rw [hs, pow_zero, Nat.mul_one, decide_eq_true_iff, Nat.dvd_iff_mod_eq_zero]

theorem strtodQuarters_lt_iff {n d : Nat} (hd : 0 < d) (c : Nat) :
    strtodQuarters n d < c ↔ n * 2 ^ 1076 < c * d := by
  unfold strtodQuarters
  exact Nat.div_lt_iff_lt_mul hd

theorem strtodQuarters_le_iff {n d : Nat} (hd : 0 < d) (c : Nat) :
    c ≤ strtodQuarters n d ↔ c * d ≤ n * 2 ^ 1076 := by
  unfold strtodQuarters
  exact Nat.le_div_iff_mul_le hd

theorem strtodQuarters_of_eq {n d k : Nat} (hd : 0 < d) (h : n * 2 ^ 1076 = k * d) :
    strtodQuarters n d = k := by
  unfold strtodQuarters
  rw [h, Nat.mul_div_cancel _ hd]

/-- A magnitude that is a multiple of `2^-1074` plus `2^-1076`, below `2^-1022`:
without the bit of weight `2^-1076` it is rounded exactly. -/
theorem dropsBit_inexact_false {n t k : Nat} (ht : 0 < t) (hk : k < 2 ^ 52)
    (h : n * 2 ^ 1076 = (4 * k + 1) * t) :
    (roundNearestEven (n * 2 ^ 1076 - t) (t * 2 ^ 1076)).inexact = false := by
  have hN : (n * 2 ^ 1076 - t) * 2 ^ 1074 = k * (t * 2 ^ 1076) := by
    rw [h, four_mul_pow_1074]
    have : (4 * k + 1) * t - t = 4 * k * t := by
      rw [Nat.add_mul, Nat.one_mul, Nat.add_sub_cancel]
    rw [this]; ring
  have hpos : 0 < t * 2 ^ 1076 := by positivity
  simp only [roundNearestEven]
  rw [hN, Nat.mul_div_cancel _ hpos, ilog2_sub_of_lt hk, pow_zero, Nat.mul_one,
    Nat.mul_mod_left]
  rfl

theorem ite_error_iff {α : Type} {c : Prop} [Decidable c] {x : α} {e : Fault} :
    (if c then (Except.error e : Except Fault α) else .ok x) = .error e ↔ c := by
  by_cases h : c
  · rw [if_pos h]; exact ⟨fun _ => h, fun _ => rfl⟩
  · rw [if_neg h]
    constructor
    · intro h2; cases h2
    · intro h2; exact absurd h2 h

theorem two_pow_52_le_threshold : 2 ^ 52 ≤ 2 ^ 2098 - 2 ^ 2044 := by
  have hX98 : (2 : Nat) ^ 2098 = 2 ^ 54 * 2 ^ 2044 := by rw [← pow_add]
  have hX52 : (2 : Nat) ^ 52 ≤ 2 ^ 2044 := two_pow_le_two_pow (by norm_num)
  rw [hX98]
  generalize (2 : Nat) ^ 2044 = X at hX52 ⊢
  omega

/-- The literals on which `stod` throws `std::out_of_range`, by their digits
`n` and denominator `t`: the magnitude `n / t` is `2^1024 - 2^970` or more, or it
is below `2^-1022 - 2^-1076`, no multiple of `2^-1074` and not, from `2^-1023`
on, a multiple of `2^-1074` plus `2^-1076`. -/
theorem stod_literal_error_iff (neg : Bool) {ip fp : List Char} (h1 : ip ≠ [])
    (h2 : AllDigits ip) (h3 : AllDigits fp) :
    stod (literal neg ip fp) = .error Fault.outOfRange ↔
      ((2 ^ 2098 - 2 ^ 2044) * 10 ^ fp.length ≤ digitsValue (ip ++ fp) * 2 ^ 1074 ∨
        (digitsValue (ip ++ fp) * 2 ^ 1076 < (2 ^ 54 - 1) * 10 ^ fp.length ∧
          ¬ (10 ^ fp.length ∣ digitsValue (ip ++ fp) * 2 ^ 1074) ∧
          ¬ (2 ^ 53 * 10 ^ fp.length ≤ digitsValue (ip ++ fp) * 2 ^ 1076 ∧
            ∃ k, digitsValue (ip ++ fp) * 2 ^ 1076 = (4 * k + 1) * 10 ^ fp.length))) := by
  rw [stod_literal neg h1 h2 h3]
  have ht : 0 < 10 ^ fp.length := by positivity
  generalize digitsValue (ip ++ fp) = n
  generalize 10 ^ fp.length = t at ht ⊢
  have hlt54 := strtodQuarters_lt_iff (n := n) ht (2 ^ 54 - 1)
  have hle53 := strtodQuarters_le_iff (n := n) ht (2 ^ 53)
  have h52T := two_pow_52_le_threshold
  have hov := overflow_iff (n := n) ht
  have htiny := tiny_iff (n := n) ht
  by_cases hdrop : strtodDropsBit n t = true
  · rw [if_pos hdrop, ite_error_iff]
    obtain ⟨hq1, hq2, hq3⟩ := (strtodDropsBit_iff n t).1 hdrop
    have hU1 := hlt54.1 hq2
    have hU3 := hle53.1 hq1
    have hnotO : ¬ ((2 ^ 2098 - 2 ^ 2044) * t ≤ n * 2 ^ 1074) := by
      intro hO
      have h1 : 2 ^ 52 * t ≤ n * 2 ^ 1074 := le_trans (Nat.mul_le_mul_right t h52T) hO
      rw [four_mul_pow_1074] at hU1
      generalize n * 2 ^ 1074 = N at h1 hU1
      have : n * (4 * 2 ^ 1074) = 4 * (n * 2 ^ 1074) := by ring
      omega
    constructor
    · intro hin
      refine Or.inr ⟨hU1, ?_, ?_⟩
      · rintro ⟨c, hc⟩
        have hq : strtodQuarters n t = 4 * c := by
          apply strtodQuarters_of_eq ht
          rw [four_mul_pow_1074]
          calc n * (4 * 2 ^ 1074) = 4 * (n * 2 ^ 1074) := by ring
            _ = 4 * c * t := by rw [hc]; ring
        omega
      · rintro ⟨_, k, hk⟩
        have hq : strtodQuarters n t = 4 * k + 1 := strtodQuarters_of_eq ht hk
        have hk52 : k < 2 ^ 52 := by omega
        rw [dropsBit_inexact_false ht hk52 hk] at hin
        exact Bool.noConfusion hin
    · rintro (hO | ⟨_, _, hn⟩)
      · exact absurd hO hnotO
      · by_contra hin
        obtain ⟨hmain, _⟩ := dropsBit_exact ht hdrop (Bool.eq_false_iff.2 hin)
        exact hn ⟨hU3, _, hmain.symm⟩
  · rw [if_neg hdrop, ite_error_iff, Bool.or_eq_true, Bool.and_eq_true, Bool.and_eq_true,
      decide_eq_true_iff, hov]
    apply or_congr Iff.rfl
    constructor
    · rintro ⟨⟨htn, hin⟩, hq⟩
      have hT := htiny.1 htn
      have hq54 : strtodQuarters n t < 2 ^ 54 - 1 := by
        have h54 : strtodQuarters n t < 2 ^ 54 := by
          rw [strtodQuarters_lt_iff ht, four_mul_pow_1074]
          calc n * (4 * 2 ^ 1074) = 4 * (n * 2 ^ 1074) := by ring
            _ < 4 * (2 ^ 52 * t) := Nat.mul_lt_mul_of_pos_left hT (by norm_num)
            _ = 2 ^ 54 * t := by ring
        omega
      refine ⟨hlt54.1 hq54, (inexact_of_tiny htn).1 hin, ?_⟩
      rintro ⟨hU3, k, hk⟩
      have hqk : strtodQuarters n t = 4 * k + 1 := strtodQuarters_of_eq ht hk
      apply hdrop
      rw [strtodDropsBit_iff]
      exact ⟨hle53.2 hU3, hq54, by omega⟩
    · rintro ⟨hU1, hU2, _⟩
      have htn : (roundNearestEven n t).tiny = true := by
        rw [htiny]
        rw [four_mul_pow_1074] at hU1
        have e : n * (4 * 2 ^ 1074) = 4 * (n * 2 ^ 1074) := by ring
        rw [e] at hU1
        generalize n * 2 ^ 1074 = N at hU1 ⊢
        omega
      refine ⟨⟨htn, (inexact_of_tiny htn).2 hU2⟩, ?_⟩
      have := hlt54.2 hU1
      omega

theorem abs_literalValue_literal (neg : Bool) {ip : List Char} (fp : List Char)
    (h1 : ip ≠ []) (h2 : AllDigits ip) :
    |literalValue (literal neg ip fp)|
      = ((digitsValue (ip ++ fp) : ℕ) : ℚ) / ((10 ^ fp.length : ℕ) : ℚ) := by
  rw [literalValue_literal neg h1 h2]
  have hnn : (0 : ℚ) ≤ ((digitsValue (ip ++ fp) : ℕ) : ℚ) / 10 ^ fp.length := by positivity
  have hcast : ((10 ^ fp.length : ℕ) : ℚ) = (10 : ℚ) ^ fp.length := by push_cast; rfl
  rw [hcast]
  cases neg
  · simp only [Bool.false_eq_true, if_false, one_mul]
    exact abs_of_nonneg hnn
  · simp only [if_true, neg_mul, one_mul, abs_neg]
    exact abs_of_nonneg hnn

/-- The conditions of `StodRangeError` on a quotient of naturals, without
fractions. -/
theorem stodRangeError_div (n t : Nat) (ht : 0 < t) :
    StodRangeError ((n : ℚ) / (t : ℚ)) ↔
      ((2 ^ 2098 - 2 ^ 2044) * t ≤ n * 2 ^ 1074 ∨
        (n * 2 ^ 1076 < (2 ^ 54 - 1) * t ∧ ¬ (t ∣ n * 2 ^ 1074) ∧
          ¬ (2 ^ 53 * t ≤ n * 2 ^ 1076 ∧ ∃ k, n * 2 ^ 1076 = (4 * k + 1) * t))) := by
  have htq : (0 : ℚ) < (t : ℚ) := by exact_mod_cast ht
  have hnn : (0 : ℚ) ≤ (n : ℚ) / (t : ℚ) := by positivity
  unfold StodRangeError
  rw [abs_of_nonneg hnn, four_mul_pow_1074]
  have hle : (2 : Nat) ^ 2044 ≤ 2 ^ 2098 := two_pow_le_two_pow (by norm_num)
  have e2 : (2 : ℚ) = ((2 : ℕ) : ℚ) := by norm_num
  have hT : ((2 ^ 2098 - 2 ^ 2044 : ℕ) : ℚ) = (2 : ℚ) ^ 2098 - 2 ^ 2044 := by
    rw [Nat.cast_sub hle, Nat.cast_pow, Nat.cast_pow, ← e2]
  have hP : ((2 ^ 1074 : ℕ) : ℚ) = (2 : ℚ) ^ 1074 := by
    rw [Nat.cast_pow, ← e2]
  rw [← hT, ← hP]
  generalize (2 ^ 2098 - 2 ^ 2044 : ℕ) = T
  have hPpos : 0 < 2 ^ 1074 := by positivity
  generalize (2 ^ 1074 : ℕ) = P at hPpos ⊢
  have hw : (n : ℚ) / (t : ℚ) * (P : ℚ) = ((n * P : ℕ) : ℚ) / (t : ℚ) := by
    push_cast; ring
  have hN4 : n * (4 * P) = 4 * (n * P) := by ring
  rw [hw, hN4]
  generalize n * P = N
  have hO : (T : ℚ) ≤ (N : ℚ) / (t : ℚ) ↔ T * t ≤ N := by
    rw [le_div_iff₀ htq]
    exact_mod_cast Iff.rfl
  have hU1 : (N : ℚ) / (t : ℚ) < 2 ^ 52 - 1 / 4 ↔ 4 * N < (2 ^ 54 - 1) * t := by
    rw [div_lt_iff₀ htq]
    have hc : (4 * N < (2 ^ 54 - 1) * t) ↔ (4 * (N : ℚ) < (2 ^ 54 - 1) * (t : ℚ)) := by
      have h54 : ((2 ^ 54 - 1 : ℕ) : ℚ) = (2 : ℚ) ^ 54 - 1 := by norm_num
      rw [← h54]
      exact_mod_cast Iff.rfl
    rw [hc]
    constructor <;> intro h <;> linarith
  have hU2 : (∀ k : ℕ, (N : ℚ) / (t : ℚ) ≠ (k : ℚ)) ↔ ¬ (t ∣ N) := by
    constructor
    · rintro h ⟨c, hc⟩
      apply h c
      rw [hc, Nat.cast_mul]
      field_simp
    · intro h k hk
      apply h
      rw [div_eq_iff (ne_of_gt htq)] at hk
      exact ⟨k, by rw [Nat.mul_comm]; exact_mod_cast hk⟩
  have hU3 : (2 : ℚ) ^ 51 ≤ (N : ℚ) / (t : ℚ) ↔ 2 ^ 53 * t ≤ 4 * N := by
    rw [le_div_iff₀ htq]
    have hc : (2 ^ 53 * t ≤ 4 * N) ↔ ((2 : ℚ) ^ 53 * (t : ℚ) ≤ 4 * (N : ℚ)) := by
      exact_mod_cast Iff.rfl
    rw [hc]
    constructor <;> intro h <;> linarith
  have hU4 : (∃ k : ℕ, (N : ℚ) / (t : ℚ) = (k : ℚ) + 1 / 4) ↔
      ∃ k, 4 * N = (4 * k + 1) * t := by
    constructor
    · rintro ⟨k, hk⟩
      refine ⟨k, ?_⟩
      rw [div_eq_iff (ne_of_gt htq)] at hk
      have : 4 * (N : ℚ) = (4 * (k : ℚ) + 1) * (t : ℚ) := by rw [hk]; ring
      exact_mod_cast this
    · rintro ⟨k, hk⟩
      refine ⟨k, ?_⟩
      rw [div_eq_iff (ne_of_gt htq)]
      have : 4 * (N : ℚ) = (4 * (k : ℚ) + 1) * (t : ℚ) := by exact_mod_cast hk
      linarith
  exact or_congr hO (and_congr hU1 (and_congr hU2 (not_congr (and_congr hU3 hU4))))

/-- If `stod` throws on a literal accepted by `checkNumber`, the value is
`2^1024 - 2^970` or more in magnitude, or it is below `2^-1022 - 2^-1076`, no
multiple of `2^-1074` and not, from `2^-1023` on, a multiple of `2^-1074` plus
`2^-1076`; and conversely. -/
theorem stod_error_iff {s : List Char} (hs : WellFormedLiteral s) :
    stod s = .error Fault.outOfRange ↔ StodRangeError (literalValue s) := by
  obtain ⟨neg, ip, fp, h1, h2, h3, rfl⟩ := (wellFormed_iff_literal s).1 hs
  have ht : 0 < 10 ^ fp.length := by positivity
  have habs := abs_literalValue_literal neg fp h1 h2
  rw [stod_literal_error_iff neg h1 h2 h3, ← stodRangeError_div _ _ ht]
  unfold StodRangeError
  rw [habs, abs_of_nonneg (by positivity)]

/-! ## `stod` and `stoi` on literals -/

theorem literalValue_eq_zero_iff (neg : Bool) {ip fp : List Char} (h1 : ip ≠ [])
    (h2 : AllDigits ip) :
    literalValue (literal neg ip fp) = 0 ↔ digitsValue (ip ++ fp) = 0 := by
  rw [literalValue_literal neg h1 h2]
  have h10 : (10 : ℚ) ^ fp.length ≠ 0 := by positivity
  cases neg <;> simp [h10]

theorem literalValue_neg_iff (neg : Bool) {ip fp : List Char} (h1 : ip ≠ [])
    (h2 : AllDigits ip) :
    literalValue (literal neg ip fp) < 0 ↔ neg = true ∧ digitsValue (ip ++ fp) ≠ 0 := by
  rw [literalValue_literal neg h1 h2]
  have h10 : (0 : ℚ) < 10 ^ fp.length := by positivity
  have hnn : (0 : ℚ) ≤ (digitsValue (ip ++ fp) : ℚ) / 10 ^ fp.length := by positivity
  cases neg
  · simp only [Bool.false_eq_true, if_false, one_mul, false_and, iff_false, not_lt]
    exact hnn
  · simp only [if_true, neg_mul, one_mul, Left.neg_neg_iff, true_and]
    rw [div_pos_iff_of_pos_right h10, Nat.cast_pos, Nat.pos_iff_ne_zero]

/-- The `double` that `stod` returns for a literal is finite, is a zero exactly
when the literal's value is zero, and is negative exactly when the value is. -/
theorem stod_sign {s : List Char} (hs : WellFormedLiteral s) {d : Dbl} (hd : stod s = .ok d) :
    d.isFinite = true ∧ (d.toRat = 0 ↔ literalValue s = 0) ∧
      (d.toRat < 0 ↔ literalValue s < 0) := by
  obtain ⟨neg, ip, fp, h1, h2, h3, rfl⟩ := (wellFormed_iff_literal s).1 hs
  obtain ⟨m, S, rfl, hm, _⟩ := stod_literal_ok neg h1 h2 h3 hd
  rw [literalValue_eq_zero_iff neg h1 h2, literalValue_neg_iff neg h1 h2]
  have h2pos : (0 : ℚ) < 2 ^ ((S : Int) - 1074) := by positivity
  refine ⟨isFinite_mk _ _ _, ?_, ?_⟩
  · rw [toRat_mk, ← hm]
    cases neg <;> simp [ne_of_gt h2pos]
  · rw [toRat_mk]
    have hmn : (0 : ℚ) ≤ (m : ℚ) := Nat.cast_nonneg _
    cases neg
    · simp only [Bool.false_eq_true, if_false, one_mul, false_and, iff_false, not_lt]
      exact mul_nonneg hmn (le_of_lt h2pos)
    · simp only [if_true, neg_mul, one_mul, Left.neg_neg_iff, true_and]
      rw [mul_pos_iff_of_pos_right h2pos, Nat.cast_pos, Nat.pos_iff_ne_zero, ne_eq, ne_eq, hm]

theorem feq_zero_iff {d : Dbl} (hd : d.isFinite = true) :
    Dbl.feq d (Dbl.ofInt 0) = true ↔ d.toRat = 0 := by
  rw [feq_iff hd (isFinite_ofInt 0), toRat_ofInt]; simp

theorem flt_zero_iff {d : Dbl} (hd : d.isFinite = true) :
    Dbl.flt d (Dbl.ofInt 0) = true ↔ d.toRat < 0 := by
  rw [flt_iff hd (isFinite_ofInt 0), toRat_ofInt]; simp

theorem fle_zero_iff {d : Dbl} (hd : d.isFinite = true) :
    Dbl.fle d (Dbl.ofInt 0) = true ↔ d.toRat ≤ 0 := by
  rw [fle_iff hd (isFinite_ofInt 0), toRat_ofInt]; simp

/-- A literal whose value is zero is converted without a range error. -/
theorem stod_of_value_zero {s : List Char} (hs : WellFormedLiteral s)
    (hv : literalValue s = 0) : ∃ d, stod s = .ok d := by
  obtain ⟨neg, ip, fp, h1, h2, h3, rfl⟩ := (wellFormed_iff_literal s).1 hs
  rw [literalValue_eq_zero_iff neg h1 h2] at hv
  have hdrop : strtodDropsBit (digitsValue (ip ++ fp)) (10 ^ fp.length) = false := by
    rw [hv]; exact strtodDropsBit_zero _
  rw [stod_literal_standard neg h1 h2 h3 hdrop, hv]
  have h10 : 0 < 10 ^ fp.length := by positivity
  obtain ⟨_, hi, ho⟩ := roundNearestEven_zero h10
  rw [hi, ho]
  simp only [Bool.false_or, Bool.and_false, Bool.false_and, Bool.false_eq_true, if_false]
  exact ⟨_, rfl⟩

/-- The integer `stoi` returns for a literal is the truncation of its value. -/
theorem stoi_eq_truncate {s : List Char} (hs : WellFormedLiteral s) {i : Int}
    (hi : stoi s = .ok i) : i = truncate (literalValue s) := by
  obtain ⟨neg, ip, fp, h1, h2, h3, rfl⟩ := (wellFormed_iff_literal s).1 hs
  rw [stoi_literal neg h1 h2 h3] at hi
  rw [literalValue_literal neg h1 h2, digitsValue_append]
  have hlt := digitsValue_lt h3
  have h10 : (0 : ℚ) < 10 ^ fp.length := by positivity
  have hfrac0 : (0 : ℚ) ≤ (digitsValue fp : ℚ) / 10 ^ fp.length := by positivity
  have hfrac1 : (digitsValue fp : ℚ) / 10 ^ fp.length < 1 := by
    rw [div_lt_one h10]; exact_mod_cast hlt
  have hval : ((digitsValue ip * 10 ^ fp.length + digitsValue fp : ℕ) : ℚ) / 10 ^ fp.length
      = (digitsValue ip : ℚ) + (digitsValue fp : ℚ) / 10 ^ fp.length := by
    push_cast; field_simp
  rw [hval]
  generalize (digitsValue fp : ℚ) / 10 ^ fp.length = f at hfrac0 hfrac1
  have hip0 : (0 : ℚ) ≤ (digitsValue ip : ℚ) := Nat.cast_nonneg _
  have hfloor : ⌊(digitsValue ip : ℚ) + f⌋ = (digitsValue ip : Int) := by
    rw [Int.floor_eq_iff]; push_cast; constructor <;> linarith
  unfold truncate
  cases neg
  · simp only [Bool.false_eq_true, if_false, one_mul] at hi ⊢
    split at hi
    · injection hi with hi
      rw [if_pos (by positivity), hfloor, hi]
    · cases hi
  · simp only [if_true, neg_mul, one_mul] at hi ⊢
    split at hi
    · injection hi with hi
      subst hi
      by_cases hz : (digitsValue ip : ℚ) + f = 0
      · have h0 : (digitsValue ip : ℚ) = 0 := by linarith
        have h0n : digitsValue ip = 0 := by exact_mod_cast h0
        rw [hz, h0n]; simp
      · have hpos : (0 : ℚ) < (digitsValue ip : ℚ) + f :=
          lt_of_le_of_ne (by linarith) (Ne.symm hz)
        rw [if_neg (by linarith), Int.ceil_neg, hfloor]
    · cases hi

/-- A literal whose value is an integer within `int` is converted by `stoi` to
that integer and by `stod` to the `double` equal to it. -/
theorem stoi_stod_of_integral {s : List Char} (hs : WellFormedLiteral s) {i : Int}
    (hv : literalValue s = (i : ℚ)) (hlo : -2 ^ 31 ≤ i) (hhi : i ≤ 2 ^ 31 - 1) :
    stoi s = .ok i ∧ ∃ d, stod s = .ok d ∧ d.isFinite = true ∧ d.toRat = (i : ℚ) := by
  obtain ⟨neg, ip, fp, h1, h2, h3, rfl⟩ := (wellFormed_iff_literal s).1 hs
  rw [literalValue_literal neg h1 h2] at hv
  have h10 : 0 < 10 ^ fp.length := by positivity
  have h10q : (0 : ℚ) < 10 ^ fp.length := by positivity
  have hlt := digitsValue_lt h3
  -- the digits after the point are all zero
  have hn : digitsValue (ip ++ fp) = i.natAbs * 10 ^ fp.length := by
    have habs : ((digitsValue (ip ++ fp) : ℕ) : ℚ) / 10 ^ fp.length = |(i : ℚ)| := by
      rw [← hv]
      have hnn : (0 : ℚ) ≤ ((digitsValue (ip ++ fp) : ℕ) : ℚ) / 10 ^ fp.length := by positivity
      cases neg <;> simp [abs_of_nonneg hnn]
    rw [div_eq_iff (ne_of_gt h10q), ← Int.cast_abs, ← Nat.cast_natAbs] at habs
    exact_mod_cast habs
  have hipv : digitsValue ip = i.natAbs := by
    rw [digitsValue_append] at hn
    have h5 : (digitsValue ip * 10 ^ fp.length + digitsValue fp) / 10 ^ fp.length
        = digitsValue ip := by
      rw [Nat.add_comm, Nat.add_mul_div_right _ _ h10, Nat.div_eq_of_lt hlt, Nat.zero_add]
    rw [hn, Nat.mul_div_cancel _ h10] at h5
    exact h5.symm
  have hsgn : (if neg then -(i.natAbs : Int) else (i.natAbs : Int)) = i := by
    have hnn : (0 : ℚ) ≤ ((digitsValue (ip ++ fp) : ℕ) : ℚ) / 10 ^ fp.length := by positivity
    cases neg
    · simp only [Bool.false_eq_true, if_false, one_mul] at hv ⊢
      have : (0 : ℚ) ≤ (i : ℚ) := by rw [← hv]; exact hnn
      exact Int.natAbs_of_nonneg (by exact_mod_cast this)
    · simp only [if_true, neg_mul, one_mul] at hv ⊢
      have : (i : ℚ) ≤ 0 := by rw [← hv]; linarith
      have : i ≤ 0 := by exact_mod_cast this
      omega
  have hsgnq : (if neg then -1 else 1) * ((i.natAbs : ℕ) : ℚ) = (i : ℚ) := by
    rw [Nat.cast_natAbs, Int.cast_abs]
    cases neg
    · simp only [Bool.false_eq_true, if_false, one_mul] at hsgn ⊢
      have : 0 ≤ i := by omega
      exact abs_of_nonneg (by exact_mod_cast this)
    · simp only [if_true] at hsgn ⊢
      have : i ≤ 0 := by omega
      rw [abs_of_nonpos (by exact_mod_cast this)]; ring
  refine ⟨?_, ?_⟩
  · rw [stoi_literal neg h1 h2 h3, hipv, hsgn, if_pos ⟨hlo, hhi⟩]
  · have hdrop : strtodDropsBit (digitsValue (ip ++ fp)) (10 ^ fp.length) = false := by
      rw [hn]
      by_cases hz : i.natAbs = 0
      · rw [hz, Nat.zero_mul]; exact strtodDropsBit_zero _
      · exact strtodDropsBit_mul (Nat.pos_of_ne_zero hz) h10
    rw [stod_literal_standard neg h1 h2 h3 hdrop, hn]
    by_cases hz : i.natAbs = 0
    · obtain ⟨hm, hi, ho⟩ := roundNearestEven_zero h10
      rw [hz, Nat.zero_mul, hi, ho]
      simp only [Bool.false_or, Bool.and_false, Bool.false_and, Bool.false_eq_true, if_false]
      refine ⟨_, rfl, isFinite_mk _ _ _, ?_⟩
      rw [toRat_mk, hm, ← hsgnq, hz]
      simp
    · have hipos : 0 < i.natAbs := Nat.pos_of_ne_zero hz
      have hilt : i.natAbs < 2 ^ 53 := by omega
      obtain ⟨hm, hsh, hi, ho⟩ := roundNearestEven_int hipos hilt h10
      rw [hi, ho]
      simp only [Bool.false_or, Bool.and_false, Bool.false_and, Bool.false_eq_true, if_false]
      refine ⟨_, rfl, isFinite_mk _ _ _, ?_⟩
      have key : ((roundNearestEven (i.natAbs * 10 ^ fp.length) (10 ^ fp.length)).mant : ℚ)
          * 2 ^ (((roundNearestEven (i.natAbs * 10 ^ fp.length) (10 ^ fp.length)).shift : Int)
            - 1074) = ((i.natAbs : ℕ) : ℚ) := by
        generalize (roundNearestEven (i.natAbs * 10 ^ fp.length) (10 ^ fp.length)).mant = M at hm
        generalize (roundNearestEven (i.natAbs * 10 ^ fp.length) (10 ^ fp.length)).shift = S
          at hm hsh
        have hmq : (M : ℚ) * 2 ^ S = (i.natAbs : ℚ) * 2 ^ 1074 := by
          have e2 : (2 : ℚ) = ((2 : ℕ) : ℚ) := by norm_num
          rw [e2, ← Nat.cast_pow, ← Nat.cast_pow, ← Nat.cast_mul, ← Nat.cast_mul, hm]
        have h2 : (2 : ℚ) ^ ((S : Int) - 1074) = 2 ^ S / 2 ^ 1074 := by
          rw [zpow_sub₀ (by norm_num : (2 : ℚ) ≠ 0), zpow_natCast, zpow_ofNat]
        have hp : (2 : ℚ) ^ 1074 ≠ 0 := pow_ne_zero _ (by norm_num)
        rw [h2, ← mul_div_assoc, hmq, mul_div_assoc, div_self hp, mul_one]
      rw [toRat_mk, mul_assoc, key, hsgnq]

/-! ## The claims about binary expressions -/

theorem wellFormed_of_checkNumber {s : List Char} (h : checkNumber s = .ok true) :
    WellFormedLiteral s := by
  rw [checkNumber_eq] at h
  injection h with h
  exact (checkNumberValue_iff s).1 h

theorem binaryOutcome_of_stod {op : Char} {A B : List Char} {a b : Dbl} (out : Val)
    (ha : stod A = .ok a) (hb : stod B = .ok b) :
    binaryOutcome op A B out =
      if (decide (op = '/') && Dbl.feq b (Dbl.ofInt 0)) = true then
        .ok (ErrorCode.DivideBy0, out)
      else if (decide (op = '$') && Dbl.flt a (Dbl.ofInt 0)) = true then
        .ok (ErrorCode.SqrtOfNegativeNumber, out)
      else
        (if op = '%' then nonIntegerOperand A B else .ok false).bind fun m =>
          if m = true then .ok (ErrorCode.ModuleOfNonIntegerValue, out)
          else (command [op] a b).bind fun r => .ok (ErrorCode.OK, r) := by
  unfold binaryOutcome
  rw [ha, hb]
  rfl

/-- C1 (as amended): for operands accepted by `checkNumber` that `stod`
converts to `a` and `b`, and an operator among plus, minus, star, slash and
caret, where for the slash the value of the right operand is not zero,
`process` returns `OK` and stores the result of the operation on `a` and `b`. -/
theorem process_arithmetic_ok (A B : List Char) (op : Char) (a b : Dbl) (out : Val)
    (hA : checkNumber A = .ok true) (hB : checkNumber B = .ok true)
    (hop : op = '+' ∨ op = '-' ∨ op = '*' ∨ op = '/' ∨ op = '^')
    (ha : stod A = .ok a) (hb : stod B = .ok b)
    (hdiv : op = '/' → literalValue B ≠ 0) :
    process (A ++ op :: B) out = .ok (ErrorCode.OK,
      if op = '+' then Val.lit (Dbl.add a b)
      else if op = '-' then Val.lit (Dbl.sub a b)
      else if op = '*' then Val.lit (Dbl.mul a b)
      else if op = '/' then Val.lit (Dbl.div a b)
      else Val.pow a b) := by
  have hwA := wellFormed_of_checkNumber hA
  have hwB := wellFormed_of_checkNumber hB
  have hisop : isOperation op = true := by
    rcases hop with h | h | h | h | h <;> subst h <;> decide
  have hne : op ≠ '!' := by
    rcases hop with h | h | h | h | h <;> subst h <;> decide
  rw [process_binary hwA hwB hisop hne, binaryOutcome_of_stod out ha hb]
  have hfeq : op = '/' → Dbl.feq b (Dbl.ofInt 0) = false := by
    intro h
    obtain ⟨hf, hz, _⟩ := stod_sign hwB hb
    cases hq : Dbl.feq b (Dbl.ofInt 0)
    · rfl
    · exact absurd (hz.1 ((feq_zero_iff hf).1 hq)) (hdiv h)
  rcases hop with h | h | h | h | h <;> subst h
  · simp [command, Except.bind, pure, Except.pure]
  · simp [command, Except.bind, pure, Except.pure]
  · simp [command, Except.bind, pure, Except.pure]
  · simp [hfeq rfl, command, Except.bind, pure, Except.pure]
  · simp [command, Except.bind, pure, Except.pure]

theorem toRat_ne_one_third (d : Dbl) : d.toRat ≠ 1 / 3 := by
  cases d with
  | inf neg => simp [Dbl.toRat]
  | nan => simp [Dbl.toRat]
  | fin neg m e =>
    intro h
    unfold Dbl.toRat at h
    have hpos : (0 : ℚ) < 2 ^ e := by positivity
    have hm : (0 : ℚ) ≤ (m : ℚ) := Nat.cast_nonneg m
    cases neg
    · simp only [Bool.false_eq_true, if_false, one_mul] at h
      rcases Int.eq_nat_or_neg e with ⟨k, hk | hk⟩
      · subst hk
        rw [zpow_natCast] at h
        have h3 : ((3 * (m * 2 ^ k) : ℕ) : ℚ) = 1 := by
          push_cast; linarith
        have h4 : 3 * (m * 2 ^ k) = 1 := by exact_mod_cast h3
        omega
      · subst hk
        rw [zpow_neg, zpow_natCast] at h
        have hk2 : (0 : ℚ) < 2 ^ k := by positivity
        have h3 : ((3 * m : ℕ) : ℚ) = ((2 ^ k : ℕ) : ℚ) := by
          push_cast
          field_simp at h
          linarith
        have h4 : 3 * m = 2 ^ k := by exact_mod_cast h3
        have h5 : 3 ∣ 2 ^ k := ⟨m, h4.symm⟩
        have h6 : 3 ∣ 2 := Nat.Prime.dvd_of_dvd_pow Nat.prime_three h5
        omega
    · simp only [if_true, neg_mul, one_mul] at h
      have : (0 : ℚ) ≤ (m : ℚ) * 2 ^ e := mul_nonneg hm (le_of_lt hpos)
      linarith

/-- C1 (witness): "2+3" returns `OK` and stores the sum of 2 and 3, which is 5;
so does the sum of 0 and a literal just below `2^-1022`, which `stod` converts
to `2^-1022`. -/
theorem process_arithmetic_ok_witness :
    process ['2', '+', '3'] (Val.lit Dbl.nan)
        = .ok (ErrorCode.OK, Val.lit (Dbl.add (Dbl.ofInt 2) (Dbl.ofInt 3))) ∧
      Dbl.add (Dbl.ofInt 2) (Dbl.ofInt 3) = Dbl.ofInt 5 ∧
      process ((['0', '.'] ++ List.replicate 307 '0' ++
        ['2', '2', '2', '5', '0', '7', '3', '8', '5', '8', '5', '0', '7', '2', '0', '1', '3']) ++ '+' :: ['0']) (Val.lit Dbl.nan)
        = .ok (ErrorCode.OK, Val.lit (Dbl.add (Dbl.fin false 1 (-1022)) (Dbl.ofInt 0))) :=
  ⟨process_arithmetic_ok ['2'] ['3'] '+' (Dbl.ofInt 2) (Dbl.ofInt 3) (Val.lit Dbl.nan)
    (by decide) (by decide) (Or.inl rfl) (by decide!) (by decide!) (by decide), by decide!,
   process_arithmetic_ok (['0', '.'] ++ List.replicate 307 '0' ++
        ['2', '2', '2', '5', '0', '7', '3', '8', '5', '8', '5', '0', '7', '2', '0', '1', '3']) ['0'] '+' (Dbl.fin false 1 (-1022)) (Dbl.ofInt 0) (Val.lit Dbl.nan)
    (by decide!) (by decide) (Or.inl rfl) (by decide!) (by decide!) (by decide)⟩

/-- C1 (counterexample): "5/0" has two operands accepted by `checkNumber` and
the operator slash, and `process` returns `DivideBy0`, leaving `*out`; with a
left operand of 310 digits `process` does not return at all, `stod` throwing
`std::out_of_range`.  What is stored is a `double`, in general not the value of
the expression: for "0.1+0.2" it is not three tenths, and for the quotient "1/3"
and the power "3^-1" no `double` at all is one third. -/
theorem process_arithmetic_not_always_ok :
    checkNumber ['5'] = .ok true ∧ checkNumber ['0'] = .ok true ∧
    process ['5', '/', '0'] (Val.lit Dbl.nan) = .ok (ErrorCode.DivideBy0, Val.lit Dbl.nan) ∧
    checkNumber ('1' :: List.replicate 309 '0') = .ok true ∧
    process (('1' :: List.replicate 309 '0') ++ ['+', '0']) (Val.lit Dbl.nan)
      = .error Fault.outOfRange ∧
    (literalValue ['0', '.', '1'] + literalValue ['0', '.', '2'] = 3 / 10 ∧
      process ['0', '.', '1', '+', '0', '.', '2'] (Val.lit Dbl.nan)
        = .ok (ErrorCode.OK, Val.lit (Dbl.fin false 1351079888211149 (-52))) ∧
      (Dbl.fin false 1351079888211149 (-52)).toRat ≠ 3 / 10) ∧
    (literalValue ['1'] / literalValue ['3'] = 1 / 3 ∧
      process ['1', '/', '3'] (Val.lit Dbl.nan)
        = .ok (ErrorCode.OK, Val.lit (Dbl.fin false 6004799503160661 (-54))) ∧
      literalValue ['3'] ^ (literalValue ['-', '1']).num = 1 / 3 ∧
      process ['3', '^', '-', '1'] (Val.lit Dbl.nan)
        = .ok (ErrorCode.OK, Val.pow (Dbl.ofInt 3) (Dbl.ofInt (-1))) ∧
      ∀ d : Dbl, d.toRat ≠ 1 / 3) := by
  refine ⟨by decide, by decide, by decide!, by decide!, by decide!,
    ⟨by decide!, by decide!, by decide!⟩,
    ⟨by decide!, by decide!, by decide!, by decide!, toRat_ne_one_third⟩⟩

theorem binaryOutcome_of_stod_error {op : Char} {A B : List Char} {a : Dbl} {e : Fault}
    (out : Val) (ha : stod A = .ok a) (hb : stod B = .error e) :
    binaryOutcome op A B out = .error e := by
  unfold binaryOutcome
  rw [ha, hb]
  rfl

theorem binaryOutcome_of_stod_error_left {op : Char} {A B : List Char} {e : Fault}
    (out : Val) (ha : stod A = .error e) :
    binaryOutcome op A B out = .error e := by
  unfold binaryOutcome
  rw [ha]
  rfl

/-- C6 (as amended): for operands accepted by `checkNumber`, the left one
within the range of `stod`, `process` on `A/B` returns `DivideBy0` exactly when
the value of `B` is zero. -/
theorem process_divideBy0_iff (A B : List Char) (a : Dbl) (out : Val)
    (hA : checkNumber A = .ok true) (hB : checkNumber B = .ok true) (ha : stod A = .ok a) :
    (∃ v, process (A ++ '/' :: B) out = .ok (ErrorCode.DivideBy0, v)) ↔ literalValue B = 0 := by
  have hwA := wellFormed_of_checkNumber hA
  have hwB := wellFormed_of_checkNumber hB
  rw [process_binary hwA hwB (by decide) (by decide)]
  cases hb : stod B with
  | error e =>
    rw [binaryOutcome_of_stod_error out ha hb]
    constructor
    · rintro ⟨v, hv⟩; cases hv
    · intro hz
      obtain ⟨d, hd⟩ := stod_of_value_zero hwB hz
      rw [hd] at hb; cases hb
  | ok b =>
    obtain ⟨hf, hz, _⟩ := stod_sign hwB hb
    rw [binaryOutcome_of_stod out ha hb, ← hz, ← feq_zero_iff hf]
    cases hq : Dbl.feq b (Dbl.ofInt 0)
    · simp [command, Except.bind, pure, Except.pure]
    · simp

/-- C6 (witness): 5 divided by "0", "0.0", "-0" and "000" returns `DivideBy0`,
5 divided by "2" does not; a literal just below `2^-1022`, which `stod` converts
to `2^-1022`, divided by "0" returns `DivideBy0` too. -/
theorem process_divideBy0_iff_witness :
    (∃ v, process ['5', '/', '0'] (Val.lit Dbl.nan) = .ok (ErrorCode.DivideBy0, v)) ∧
    (∃ v, process ['5', '/', '0', '.', '0'] (Val.lit Dbl.nan) = .ok (ErrorCode.DivideBy0, v)) ∧
    (∃ v, process ['5', '/', '-', '0'] (Val.lit Dbl.nan) = .ok (ErrorCode.DivideBy0, v)) ∧
    (∃ v, process ['5', '/', '0', '0', '0'] (Val.lit Dbl.nan) = .ok (ErrorCode.DivideBy0, v)) ∧
    ¬ (∃ v, process ['5', '/', '2'] (Val.lit Dbl.nan) = .ok (ErrorCode.DivideBy0, v)) ∧
    (∃ v, process ((['0', '.'] ++ List.replicate 307 '0' ++
        ['2', '2', '2', '5', '0', '7', '3', '8', '5', '8', '5', '0', '7', '2', '0', '1', '3']) ++ '/' :: ['0']) (Val.lit Dbl.nan) = .ok (ErrorCode.DivideBy0, v)) :=
  ⟨(process_divideBy0_iff ['5'] ['0'] (Dbl.ofInt 5) _ (by decide) (by decide) (by decide!)).2
      (by decide!),
   (process_divideBy0_iff ['5'] ['0', '.', '0'] (Dbl.ofInt 5) _ (by decide) (by decide)
      (by decide!)).2 (by decide!),
   (process_divideBy0_iff ['5'] ['-', '0'] (Dbl.ofInt 5) _ (by decide) (by decide)
      (by decide!)).2 (by decide!),
   (process_divideBy0_iff ['5'] ['0', '0', '0'] (Dbl.ofInt 5) _ (by decide) (by decide)
      (by decide!)).2 (by decide!),
   fun h => absurd ((process_divideBy0_iff ['5'] ['2'] (Dbl.ofInt 5) _ (by decide) (by decide)
      (by decide!)).1 h) (by decide!),
   (process_divideBy0_iff (['0', '.'] ++ List.replicate 307 '0' ++
        ['2', '2', '2', '5', '0', '7', '3', '8', '5', '8', '5', '0', '7', '2', '0', '1', '3']) ['0'] (Dbl.fin false 1 (-1022)) (Val.lit Dbl.nan) (by decide!)
      (by decide) (by decide!)).2 (by decide!)⟩

/-- C6 (counterexample): with a left operand of 310 digits and the right
operand "0", whose value is zero, `process` does not return `DivideBy0`:
`stod` throws `std::out_of_range`. -/
theorem process_divideBy0_out_of_range :
    checkNumber ('1' :: List.replicate 309 '0') = .ok true ∧
    checkNumber ['0'] = .ok true ∧ literalValue ['0'] = 0 ∧
    process (('1' :: List.replicate 309 '0') ++ ['/', '0']) (Val.lit Dbl.nan)
      = .error Fault.outOfRange := by
  refine ⟨by decide!, by decide, by decide!, by decide!⟩

/-- C7 (as amended): for operands accepted by `checkNumber` and within the
range of `stod`, `process` on `A$B` returns `SqrtOfNegativeNumber` exactly when
the value of `A` is below zero, whatever `B` is. -/
theorem process_sqrtOfNegative_iff (A B : List Char) (a b : Dbl) (out : Val)
    (hA : checkNumber A = .ok true) (hB : checkNumber B = .ok true)
    (ha : stod A = .ok a) (hb : stod B = .ok b) :
    (∃ v, process (A ++ '$' :: B) out = .ok (ErrorCode.SqrtOfNegativeNumber, v)) ↔
      literalValue A < 0 := by
  have hwA := wellFormed_of_checkNumber hA
  have hwB := wellFormed_of_checkNumber hB
  rw [process_binary hwA hwB (by decide) (by decide)]
  obtain ⟨hf, _, hn⟩ := stod_sign hwA ha
  rw [binaryOutcome_of_stod out ha hb, ← hn, ← flt_zero_iff hf]
  cases hq : Dbl.flt a (Dbl.ofInt 0)
  · simp [command, Except.bind, pure, Except.pure]
  · simp

/-- C7 (witness): "-4$2" and "-8$3" return `SqrtOfNegativeNumber`, "4$2" does
not; a negative literal just above `-2^-1022`, which `stod` converts to
`-2^-1022`, returns `SqrtOfNegativeNumber` too. -/
theorem process_sqrtOfNegative_iff_witness :
    (∃ v, process ['-', '4', '$', '2'] (Val.lit Dbl.nan)
      = .ok (ErrorCode.SqrtOfNegativeNumber, v)) ∧
    (∃ v, process ['-', '8', '$', '3'] (Val.lit Dbl.nan)
      = .ok (ErrorCode.SqrtOfNegativeNumber, v)) ∧
    ¬ (∃ v, process ['4', '$', '2'] (Val.lit Dbl.nan)
      = .ok (ErrorCode.SqrtOfNegativeNumber, v)) ∧
    (∃ v, process (('-' :: (['0', '.'] ++ List.replicate 307 '0' ++
        ['2', '2', '2', '5', '0', '7', '3', '8', '5', '8', '5', '0', '7', '2', '0', '1', '3'])) ++ '$' :: ['2']) (Val.lit Dbl.nan)
      = .ok (ErrorCode.SqrtOfNegativeNumber, v)) :=
  ⟨(process_sqrtOfNegative_iff ['-', '4'] ['2'] (Dbl.ofInt (-4)) (Dbl.ofInt 2) _ (by decide)
      (by decide) (by decide!) (by decide!)).2 (by decide!),
   (process_sqrtOfNegative_iff ['-', '8'] ['3'] (Dbl.ofInt (-8)) (Dbl.ofInt 3) _ (by decide)
      (by decide) (by decide!) (by decide!)).2 (by decide!),
   fun h => absurd ((process_sqrtOfNegative_iff ['4'] ['2'] (Dbl.ofInt 4) (Dbl.ofInt 2) _
      (by decide) (by decide) (by decide!) (by decide!)).1 h) (by decide!),
   (process_sqrtOfNegative_iff ('-' :: (['0', '.'] ++ List.replicate 307 '0' ++
        ['2', '2', '2', '5', '0', '7', '3', '8', '5', '8', '5', '0', '7', '2', '0', '1', '3'])) ['2'] (Dbl.fin true 1 (-1022)) (Dbl.ofInt 2)
      (Val.lit Dbl.nan) (by decide!) (by decide) (by decide!) (by decide!)).2 (by decide!)⟩

/-- C7 (counterexample): the value of "-4" is below zero, and with a root
degree of 310 digits `process` does not return `SqrtOfNegativeNumber`: `stod`
throws `std::out_of_range`; so it does with a negative left operand of 310
digits. -/
theorem process_sqrtOfNegative_out_of_range :
    checkNumber ['-', '4'] = .ok true ∧ literalValue ['-', '4'] < 0 ∧
    checkNumber ('1' :: List.replicate 309 '0') = .ok true ∧
    process (['-', '4', '$'] ++ ('1' :: List.replicate 309 '0')) (Val.lit Dbl.nan)
      = .error Fault.outOfRange ∧
    checkNumber ('-' :: '1' :: List.replicate 309 '0') = .ok true ∧
    literalValue ('-' :: '1' :: List.replicate 309 '0') < 0 ∧
    process (('-' :: '1' :: List.replicate 309 '0') ++ ['$', '2']) (Val.lit Dbl.nan)
      = .error Fault.outOfRange := by
  refine ⟨by decide, by decide!, by decide!, by decide!, by decide!, by decide!, by decide!⟩

theorem nonIntegerOperand_of {A B : List Char} {a b : Dbl} {i j : Int}
    (ha : stod A = .ok a) (hb : stod B = .ok b) (hi : stoi A = .ok i) (hj : stoi B = .ok j) :
    nonIntegerOperand A B
      = .ok (!Dbl.feq (Dbl.ofInt i) a || !Dbl.feq (Dbl.ofInt j) b) := by
  unfold nonIntegerOperand
  rw [ha, hb, hi, hj]
  simp only [bind, Except.bind, pure, Except.pure]
  cases Dbl.feq (Dbl.ofInt i) a <;> cases Dbl.feq (Dbl.ofInt j) b <;> rfl

theorem feq_ofInt_iff {d : Dbl} (hd : d.isFinite = true) (i : Int) :
    Dbl.feq (Dbl.ofInt i) d = true ↔ d.toRat = (i : ℚ) := by
  rw [feq_iff (isFinite_ofInt i) hd, toRat_ofInt]
  exact eq_comm

/-- The non-integer test answers yes when `stoi` converts the first operand and
the `double` of that operand differs from it, or else `stoi` also converts the
second operand and the `double` of the second differs. -/
theorem nonIntegerOperand_true_iff {A B : List Char} {a b : Dbl}
    (ha : stod A = .ok a) (hb : stod B = .ok b) :
    nonIntegerOperand A B = .ok true ↔
      ∃ i, stoi A = .ok i ∧
        (Dbl.feq (Dbl.ofInt i) a = false ∨
          ∃ j, stoi B = .ok j ∧ Dbl.feq (Dbl.ofInt j) b = false) := by
  unfold nonIntegerOperand
  simp only [bind, Except.bind, pure, Except.pure, ha, hb]
  cases h1 : stoi A with
  | error e1 =>
    constructor
    · intro h; cases h
    · rintro ⟨i, hi, _⟩; cases hi
  | ok i =>
    simp only []
    cases hq1 : Dbl.feq (Dbl.ofInt i) a
    · simp only [Bool.not_false, if_true, true_iff]
      exact ⟨i, rfl, Or.inl hq1⟩
    · simp only [Bool.not_true, Bool.false_eq_true, if_false]
      cases h3 : stoi B with
      | error e3 =>
        constructor
        · intro h; cases h
        · rintro ⟨i2, hi2, h | ⟨j, hj, _⟩⟩
          · cases hi2; rw [hq1] at h; cases h
          · cases hj
      | ok j =>
        simp only []
        cases hq2 : Dbl.feq (Dbl.ofInt j) b
        · simp only [Bool.not_false, if_true, true_iff]
          exact ⟨i, rfl, Or.inr ⟨j, rfl, hq2⟩⟩
        · simp only [Bool.not_true, Bool.false_eq_true, if_false]
          constructor
          · intro h; cases h
          · rintro ⟨i2, hi2, h | ⟨j2, hj2, h⟩⟩
            · cases hi2; rw [hq1] at h; cases h
            · cases hj2; rw [hq2] at h; cases h

/-- On two operands that `stod` converts, the modulus expression returns
`ModuleOfNonIntegerValue` exactly when the non-integer test answers yes. -/
theorem binaryOutcome_mod_iff {A B : List Char} {a b : Dbl} (out : Val)
    (ha : stod A = .ok a) (hb : stod B = .ok b) :
    (∃ v, binaryOutcome '%' A B out = .ok (ErrorCode.ModuleOfNonIntegerValue, v)) ↔
      nonIntegerOperand A B = .ok true := by
  rw [binaryOutcome_of_stod out ha hb]
  simp only [Char.reduceEq, decide_False, Bool.false_and, Bool.false_eq_true, if_false, if_true]
  cases hn : nonIntegerOperand A B with
  | error e =>
    constructor
    · rintro ⟨v, hv⟩; cases hv
    · intro h; cases h
  | ok m =>
    cases m
    · constructor
      · rintro ⟨v, hv⟩
        simp only [Except.bind, Bool.false_eq_true, if_false] at hv
        cases hc : command ['%'] a b with
        | error e => rw [hc] at hv; cases hv
        | ok r => rw [hc] at hv; cases hv
      · intro h; cases h
    · constructor
      · intro _; rfl
      · intro _; exact ⟨out, rfl⟩

/-- C8 (as amended): for operands accepted by `checkNumber`, `process` on `A%B`
returns `ModuleOfNonIntegerValue` exactly when `stod` converts both operands,
`stoi` converts `A`, and the `double` of `A` differs from the truncation of the
value of `A`, or else `stoi` converts `B` too and the `double` of `B` differs
from the truncation of the value of `B`. -/
theorem process_moduleOfNonInteger_iff (A B : List Char) (out : Val)
    (hA : checkNumber A = .ok true) (hB : checkNumber B = .ok true) :
    (∃ v, process (A ++ '%' :: B) out = .ok (ErrorCode.ModuleOfNonIntegerValue, v)) ↔
      ∃ a b, stod A = .ok a ∧ stod B = .ok b ∧ (∃ i, stoi A = .ok i) ∧
        (a.toRat ≠ (truncate (literalValue A) : ℚ) ∨
          ((∃ j, stoi B = .ok j) ∧ b.toRat ≠ (truncate (literalValue B) : ℚ))) := by
  have hwA := wellFormed_of_checkNumber hA
  have hwB := wellFormed_of_checkNumber hB
  rw [process_binary hwA hwB (by decide) (by decide)]
  cases ha : stod A with
  | error e =>
    constructor
    · rintro ⟨v, hv⟩
      rw [binaryOutcome_of_stod_error_left out ha] at hv
      cases hv
    · rintro ⟨a, b, h, _⟩; cases h
  | ok a =>
    cases hb : stod B with
    | error e =>
      constructor
      · rintro ⟨v, hv⟩
        rw [binaryOutcome_of_stod_error out ha hb] at hv
        cases hv
      · rintro ⟨a2, b2, _, h, _⟩; cases h
    | ok b =>
      obtain ⟨hfa, _, _⟩ := stod_sign hwA ha
      obtain ⟨hfb, _, _⟩ := stod_sign hwB hb
      rw [binaryOutcome_mod_iff out ha hb, nonIntegerOperand_true_iff ha hb]
      have hne : ∀ {x : Dbl} {k : Int}, x.isFinite = true →
          (Dbl.feq (Dbl.ofInt k) x = false ↔ x.toRat ≠ (k : ℚ)) := by
        intro x k hx
        rw [ne_eq, ← feq_ofInt_iff hx k]
        cases Dbl.feq (Dbl.ofInt k) x <;> simp
      constructor
      · rintro ⟨i, hi, h⟩
        refine ⟨a, b, rfl, rfl, ⟨i, hi⟩, ?_⟩
        rcases h with h | ⟨j, hj, h⟩
        · left
          rw [← stoi_eq_truncate hwA hi]
          exact (hne hfa).1 h
        · right
          refine ⟨⟨j, hj⟩, ?_⟩
          rw [← stoi_eq_truncate hwB hj]
          exact (hne hfb).1 h
      · rintro ⟨a2, b2, ha2, hb2, ⟨i, hi⟩, h⟩
        cases ha2
        cases hb2
        refine ⟨i, hi, ?_⟩
        rcases h with h | ⟨⟨j, hj⟩, h⟩
        · left
          rw [← stoi_eq_truncate hwA hi] at h
          exact (hne hfa).2 h
        · right
          refine ⟨j, hj, ?_⟩
          rw [← stoi_eq_truncate hwB hj] at h
          exact (hne hfb).2 h

/-- C8 (witness): "5.5%2" and "5.5%3000000000" return `ModuleOfNonIntegerValue`
(in the second `stoi` is not applied to the right operand, which is no `int`),
and so does a literal just below `2^-1022`, which `stod` converts to `2^-1022`,
with "2"; "5.0%2" does not. -/
theorem process_moduleOfNonInteger_iff_witness :
    (∃ v, process (['5', '.', '5'] ++ '%' :: ['2']) (Val.lit Dbl.nan)
      = .ok (ErrorCode.ModuleOfNonIntegerValue, v)) ∧
    (∃ v, process (['5', '.', '5'] ++ '%' :: ['3', '0', '0', '0', '0', '0', '0', '0', '0', '0'])
      (Val.lit Dbl.nan) = .ok (ErrorCode.ModuleOfNonIntegerValue, v)) ∧
    (∃ v, process ((['0', '.'] ++ List.replicate 307 '0' ++
        ['2', '2', '2', '5', '0', '7', '3', '8', '5', '8', '5', '0', '7', '2', '0', '1', '3']) ++ '%' :: ['2']) (Val.lit Dbl.nan)
      = .ok (ErrorCode.ModuleOfNonIntegerValue, v)) ∧
    ¬ (∃ v, process (['5', '.', '0'] ++ '%' :: ['2']) (Val.lit Dbl.nan)
      = .ok (ErrorCode.ModuleOfNonIntegerValue, v)) := by
  refine ⟨?_, ?_, ?_, ?_⟩
  · exact (process_moduleOfNonInteger_iff ['5', '.', '5'] ['2'] (Val.lit Dbl.nan)
      (by decide) (by decide)).2
      ⟨Dbl.fin false 11 (-1), Dbl.ofInt 2, by decide!, by decide!, ⟨5, by decide!⟩,
        Or.inl (by decide!)⟩
  · exact (process_moduleOfNonInteger_iff ['5', '.', '5']
      ['3', '0', '0', '0', '0', '0', '0', '0', '0', '0'] (Val.lit Dbl.nan)
      (by decide) (by decide)).2
      ⟨Dbl.fin false 11 (-1), Dbl.ofInt 3000000000, by decide!, by decide!, ⟨5, by decide!⟩,
        Or.inl (by decide!)⟩
  · exact (process_moduleOfNonInteger_iff (['0', '.'] ++ List.replicate 307 '0' ++
        ['2', '2', '2', '5', '0', '7', '3', '8', '5', '8', '5', '0', '7', '2', '0', '1', '3']) ['2'] (Val.lit Dbl.nan)
      (by decide!) (by decide)).2
      ⟨Dbl.fin false 1 (-1022), Dbl.ofInt 2, by decide!, by decide!, ⟨0, by decide!⟩,
        Or.inl (by decide!)⟩
  · intro h
    obtain ⟨a, b, ha, hb, _, h3⟩ := (process_moduleOfNonInteger_iff ['5', '.', '0'] ['2']
      (Val.lit Dbl.nan) (by decide) (by decide)).1 h
    have ha2 : stod ['5', '.', '0'] = .ok (Dbl.ofInt 5) := by decide!
    have hb2 : stod ['2'] = .ok (Dbl.ofInt 2) := by decide!
    rw [ha2] at ha
    rw [hb2] at hb
    cases ha
    cases hb
    rcases h3 with h3 | ⟨_, h3⟩
    · exact h3 (by decide!)
    · exact h3 (by decide!)

/-- C8 (counterexample): the value of "5.0000000000000000000001" differs from
its truncation 5, and `process` returns `OK` with the remainder of 5 by 2, the
nearest `double` being 5; the values of "3000000000.5" and of "5.5" differ from
their truncations, and `process` does not return on "3000000000.5%2" and
"2%3000000000.5", where `stoi` throws `std::out_of_range`, nor on "5.5%" followed
by 1 and 309 zeros, where `stod` throws it. -/
theorem process_moduleOfNonInteger_rounding :
    checkNumber (['5', '.'] ++ List.replicate 21 '0' ++ ['1']) = .ok true ∧
    literalValue (['5', '.'] ++ List.replicate 21 '0' ++ ['1'])
      ≠ (truncate (literalValue (['5', '.'] ++ List.replicate 21 '0' ++ ['1'])) : ℚ) ∧
    process (['5', '.'] ++ List.replicate 21 '0' ++ ['1', '%', '2']) (Val.lit Dbl.nan)
      = .ok (ErrorCode.OK, Val.lit (Dbl.ofInt 1)) ∧
    checkNumber ['3', '0', '0', '0', '0', '0', '0', '0', '0', '0', '.', '5'] = .ok true ∧
    literalValue ['3', '0', '0', '0', '0', '0', '0', '0', '0', '0', '.', '5']
      ≠ (truncate (literalValue ['3', '0', '0', '0', '0', '0', '0', '0', '0', '0', '.', '5']) : ℚ) ∧
    process ['3', '0', '0', '0', '0', '0', '0', '0', '0', '0', '.', '5', '%', '2']
      (Val.lit Dbl.nan) = .error Fault.outOfRange ∧
    process ['2', '%', '3', '0', '0', '0', '0', '0', '0', '0', '0', '0', '.', '5']
      (Val.lit Dbl.nan) = .error Fault.outOfRange ∧
    checkNumber ['5', '.', '5'] = .ok true ∧
    literalValue ['5', '.', '5'] ≠ (truncate (literalValue ['5', '.', '5']) : ℚ) ∧
    checkNumber ('1' :: List.replicate 309 '0') = .ok true ∧
    process (['5', '.', '5', '%'] ++ ('1' :: List.replicate 309 '0')) (Val.lit Dbl.nan)
      = .error Fault.outOfRange := by
  refine ⟨by decide!, by decide!, by decide!, by decide!, by decide!, by decide!, by decide!,
    by decide!, by decide!, by decide!, by decide!⟩

theorem modulus_of {i j : Int} (hj : j ≠ 0) (hij : ¬ (i = -2 ^ 31 ∧ j = -1)) :
    modulus i j = .ok (Int.tmod i j) := by
  unfold modulus
  rw [if_neg hj, if_neg hij]
  rfl

/-- C9 (as amended): for operands accepted by `checkNumber` whose values are
integers `i` and `j` within `int`, with `j` not zero and not `INT_MIN % -1`,
`process` on `A%B` returns `OK` and stores `i - j * trunc(i / j)`, which has
the sign of `i`. -/
theorem process_modulus_ok (A B : List Char) (i j : Int) (out : Val)
    (hA : checkNumber A = .ok true) (hB : checkNumber B = .ok true)
    (hi : literalValue A = (i : ℚ)) (hj : literalValue B = (j : ℚ))
    (hilo : -2 ^ 31 ≤ i) (hihi : i ≤ 2 ^ 31 - 1) (hjlo : -2 ^ 31 ≤ j) (hjhi : j ≤ 2 ^ 31 - 1)
    (hj0 : j ≠ 0) (hmin : ¬ (i = -2 ^ 31 ∧ j = -1)) :
    process (A ++ '%' :: B) out
        = .ok (ErrorCode.OK, Val.lit (Dbl.ofInt (i - j * Int.tdiv i j))) ∧
      (0 ≤ i → 0 ≤ i - j * Int.tdiv i j) ∧ (i ≤ 0 → i - j * Int.tdiv i j ≤ 0) := by
  have hwA := wellFormed_of_checkNumber hA
  have hwB := wellFormed_of_checkNumber hB
  obtain ⟨hsi, a, ha, hfa, hra⟩ := stoi_stod_of_integral hwA hi hilo hihi
  obtain ⟨hsj, b, hb, hfb, hrb⟩ := stoi_stod_of_integral hwB hj hjlo hjhi
  refine ⟨?_, ?_, ?_⟩
  · rw [process_binary hwA hwB (by decide) (by decide), binaryOutcome_of_stod out ha hb,
      nonIntegerOperand_of ha hb hsi hsj, (feq_ofInt_iff hfa i).2 hra,
      (feq_ofInt_iff hfb j).2 hrb]
    have hcmd : command ['%'] a b = .ok (Val.lit (Dbl.ofInt (Int.tmod i j))) := by
      simp only [command, List.cons.injEq, and_true, Char.reduceEq, if_false, if_true,
        toInt_of_toRat hfa hra hilo hihi, toInt_of_toRat hfb hrb hjlo hjhi, modulus_of hj0 hmin,
        bind, Except.bind, pure, Except.pure]
    rw [hcmd, Int.tmod_def]
    simp [Except.bind]
  · intro h
    rw [← Int.tmod_def]
    exact Int.tmod_nonneg j h
  · intro h
    have := Int.tmod_nonneg j (Int.neg_nonneg.2 h)
    rw [Int.tmod_def, Int.neg_tdiv, mul_neg] at this
    linarith

/-- C9 (witness): "7%3" stores 1 and "-7%3" stores -1. -/
theorem process_modulus_ok_witness :
    (process ['7', '%', '3'] (Val.lit Dbl.nan)
        = .ok (ErrorCode.OK, Val.lit (Dbl.ofInt (7 - 3 * Int.tdiv 7 3))) ∧
      7 - 3 * Int.tdiv 7 3 = 1) ∧
    (process ['-', '7', '%', '3'] (Val.lit Dbl.nan)
        = .ok (ErrorCode.OK, Val.lit (Dbl.ofInt (-7 - 3 * Int.tdiv (-7) 3))) ∧
      -7 - 3 * Int.tdiv (-7) 3 = -1) :=
  ⟨⟨(process_modulus_ok ['7'] ['3'] 7 3 _ (by decide) (by decide) (by decide!) (by decide!)
      (by decide) (by decide) (by decide) (by decide) (by decide) (by decide)).1, by decide⟩,
   ⟨(process_modulus_ok ['-', '7'] ['3'] (-7) 3 _ (by decide) (by decide) (by decide!)
      (by decide!) (by decide) (by decide) (by decide) (by decide) (by decide) (by decide)).1,
    by decide⟩⟩

/-- C9 (counterexample): the values of "5" and "0" are integers, and on "5%0"
`process` does not return: the `int` remainder has a zero divisor; nor does it
on "3000000000%2", where `stoi` throws `std::out_of_range`, and on
"-2147483648%-1", where the `int` remainder overflows. -/
theorem process_modulus_faults :
    checkNumber ['5'] = .ok true ∧ checkNumber ['0'] = .ok true ∧
    literalValue ['5'] = ((5 : Int) : ℚ) ∧ literalValue ['0'] = ((0 : Int) : ℚ) ∧
    process ['5', '%', '0'] (Val.lit Dbl.nan) = .error Fault.intDivByZero ∧
    process ['3', '0', '0', '0', '0', '0', '0', '0', '0', '0', '%', '2'] (Val.lit Dbl.nan)
      = .error Fault.outOfRange ∧
    process ['-', '2', '1', '4', '7', '4', '8', '3', '6', '4', '8', '%', '-', '1']
      (Val.lit Dbl.nan) = .error Fault.intOverflow := by
  refine ⟨by decide, by decide, by decide!, by decide!, by decide!, by decide!, by decide!⟩

/-! ## The factorial form and faults -/

/-- C10: for an input of allowed characters whose located operator is the
exclamation mark, `process` returns `BadFormat` when a character follows the
mark and when the text before it is not accepted by `checkNumber`; it returns
`OK` only when the input without spaces is a well-formed literal followed by
the mark. -/
theorem process_factorial_format (input : List Char) (d : Nat) (out : Val)
    (hcc : checkCharacters input = true)
    (hd : findOperation (removeSpaces input) = .ok d)
    (hop : cAt (removeSpaces input) d = .ok '!') :
    ((removeSpaces input).drop (d + 1) ≠ [] →
      process input out = .ok (ErrorCode.BadFormat, out)) ∧
    (checkNumber ((removeSpaces input).take d) = .ok false →
      process input out = .ok (ErrorCode.BadFormat, out)) ∧
    (∀ v, process input out = .ok (ErrorCode.OK, v) →
      ∃ L, WellFormedLiteral L ∧ checkNumber L = .ok true ∧ removeSpaces input = L ++ ['!']) := by
  rw [findOperation_eq] at hd
  injection hd with hd
  have hle := findOperationValue_le (removeSpaces input)
  rw [hd] at hle
  rw [cAt_of_le hle] at hop
  injection hop with hop
  have hpe : process input out = cleanedOutcome (removeSpaces input) out := by
    rw [process_eq, hcc]; rfl
  rw [hpe]
  unfold cleanedOutcome
  simp only [hd, hop, if_true]
  refine ⟨?_, ?_, ?_⟩
  · intro hR
    rw [if_pos hR]; rfl
  · intro hL
    rw [checkNumber_eq] at hL
    injection hL with hL
    by_cases hR : List.drop (d + 1) (removeSpaces input) ≠ []
    · rw [if_pos hR]; rfl
    · rw [if_neg hR, if_pos hL]; rfl
  · intro v hv
    by_cases hR : List.drop (d + 1) (removeSpaces input) ≠ []
    · rw [if_pos hR] at hv; cases hv
    · rw [if_neg hR] at hv
      cases hL : checkNumberValue (List.take d (removeSpaces input))
      · rw [if_pos hL] at hv; cases hv
      · refine ⟨List.take d (removeSpaces input), (checkNumberValue_iff _).1 hL, ?_, ?_⟩
        · rw [checkNumber_eq, hL]
        · have hlt : d < (removeSpaces input).length := by
            rcases Nat.lt_or_eq_of_le hle with h | h
            · exact h
            · rw [h, List.getD_eq_getElem?_getD, List.getElem?_eq_none (le_refl _)] at hop
              have hnul : (none : Option Char).getD (Char.ofNat 0) ≠ '!' := by decide
              exact absurd hop hnul
          have hget : (removeSpaces input)[d] = '!' := by
            rw [List.getD_eq_getElem?_getD, List.getElem?_eq_getElem hlt] at hop
            exact hop
          have hdrop : List.drop d (removeSpaces input)
              = (removeSpaces input)[d] :: List.drop (d + 1) (removeSpaces input) :=
            List.drop_eq_getElem_cons hlt
          rw [hget, not_not.1 hR] at hdrop
          conv_lhs => rw [← List.take_append_drop d (removeSpaces input), hdrop]

/-- C10 (witness): "5!3", "!" and "-!" return `BadFormat`. -/
theorem process_factorial_format_witness :
    process ['5', '!', '3'] (Val.lit Dbl.nan) = .ok (ErrorCode.BadFormat, Val.lit Dbl.nan) ∧
    process ['!'] (Val.lit Dbl.nan) = .ok (ErrorCode.BadFormat, Val.lit Dbl.nan) ∧
    process ['-', '!'] (Val.lit Dbl.nan) = .ok (ErrorCode.BadFormat, Val.lit Dbl.nan) :=
  ⟨(process_factorial_format ['5', '!', '3'] 1 _ (by decide) (by decide) (by decide)).1
      (by decide),
   (process_factorial_format ['!'] 0 _ (by decide) (by decide) (by decide)).2.1 (by decide),
   (process_factorial_format ['-', '!'] 1 _ (by decide) (by decide) (by decide)).2.1
      (by decide)⟩

/-- C4 (failing inputs): on "5%0" the `int` remainder is taken with a zero
divisor, on "-2147483648%-1" it overflows, on "99999999999%2" `stoi` throws
`std::out_of_range`, and on a number of 310 digits plus 1 `stod` throws
`std::out_of_range`: none of these calls returns an `ErrorCode`. -/
theorem process_faults :
    process ['5', '%', '0'] (Val.lit Dbl.nan) = .error Fault.intDivByZero ∧
    process ['-', '2', '1', '4', '7', '4', '8', '3', '6', '4', '8', '%', '-', '1']
      (Val.lit Dbl.nan) = .error Fault.intOverflow ∧
    process ['9', '9', '9', '9', '9', '9', '9', '9', '9', '9', '9', '%', '2']
      (Val.lit Dbl.nan) = .error Fault.outOfRange ∧
    process (('1' :: List.replicate 309 '0') ++ ['+', '1']) (Val.lit Dbl.nan)
      = .error Fault.outOfRange := by
  refine ⟨by decide!, by decide!, by decide!, by decide!⟩

/-! ## The faults `process` can end in -/

theorem error_of_ite_error {α : Type} {c : Prop} [Decidable c] {x : α} {e f : Fault}
    (h : (if c then Except.error f else Except.ok x) = Except.error e) : e = f := by
  by_cases hc : c
  · rw [if_pos hc] at h; injection h with h; exact h.symm
  · rw [if_neg hc] at h; cases h

theorem error_of_ite_ok {α : Type} {c : Prop} [Decidable c] {x : α} {e f : Fault}
    (h : (if c then Except.ok x else Except.error f) = Except.error e) : e = f := by
  by_cases hc : c
  · rw [if_pos hc] at h; cases h
  · rw [if_neg hc] at h; injection h with h; exact h.symm

theorem ok_of_ite_ite {c1 c2 : Prop} [Decidable c1] [Decidable c2] {v i : Int} {f g : Fault}
    (h : (if c1 then (throw f : Except Fault Int) else if c2 then pure v else throw g)
      = Except.ok i) : c2 ∧ v = i := by
  by_cases h1 : c1
  · rw [if_pos h1] at h; cases h
  · rw [if_neg h1] at h
    by_cases h2 : c2
    · rw [if_pos h2] at h; injection h with h; exact ⟨h2, h⟩
    · rw [if_neg h2] at h; cases h

theorem stod_error_of_wellFormed {s : List Char} (hs : WellFormedLiteral s) {e : Fault}
    (h : stod s = .error e) : e = Fault.outOfRange := by
  obtain ⟨neg, ip, fp, h1, h2, h3, rfl⟩ := (wellFormed_iff_literal s).1 hs
  rw [stod_literal neg h1 h2 h3] at h
  by_cases hdrop : strtodDropsBit (digitsValue (ip ++ fp)) (10 ^ fp.length) = true
  · rw [if_pos hdrop] at h
    exact error_of_ite_error h
  · rw [if_neg hdrop] at h
    exact error_of_ite_error h

theorem stoi_error_of_wellFormed {s : List Char} (hs : WellFormedLiteral s) {e : Fault}
    (h : stoi s = .error e) : e = Fault.outOfRange := by
  obtain ⟨neg, ip, fp, h1, h2, h3, rfl⟩ := (wellFormed_iff_literal s).1 hs
  rw [stoi_literal neg h1 h2 h3] at h
  exact error_of_ite_ok h

theorem stoi_range {s : List Char} {i : Int} (h : stoi s = .ok i) :
    -2 ^ 31 ≤ i ∧ i ≤ 2 ^ 31 - 1 := by
  unfold stoi at h
  simp only [] at h
  obtain ⟨hr, hv⟩ := ok_of_ite_ite h
  rw [← hv]; exact hr

theorem modulus_error {x y : Int} {e : Fault} (h : modulus x y = .error e) :
    e = Fault.intDivByZero ∨ e = Fault.intOverflow := by
  unfold modulus at h
  split at h
  · injection h with h; exact Or.inl h.symm
  · split at h
    · injection h with h; exact Or.inr h.symm
    · cases h

theorem command_error {op : Char} {a b : Dbl} {i j : Int} {e : Fault}
    (ha : op = '%' → Dbl.toInt a = .ok i) (hb : op = '%' → Dbl.toInt b = .ok j)
    (h : command [op] a b = .error e) :
    e = Fault.outOfRange ∨ e = Fault.intDivByZero ∨ e = Fault.intOverflow := by
  unfold command at h
  by_cases h1 : [op] = ['+']
  · rw [if_pos h1] at h; cases h
  rw [if_neg h1] at h
  by_cases h2 : [op] = ['-']
  · rw [if_pos h2] at h; cases h
  rw [if_neg h2] at h
  by_cases h3 : [op] = ['*']
  · rw [if_pos h3] at h; cases h
  rw [if_neg h3] at h
  by_cases h4 : [op] = ['/']
  · rw [if_pos h4] at h; cases h
  rw [if_neg h4] at h
  by_cases h5 : [op] = ['%']
  · rw [if_pos h5] at h
    have hop : op = '%' := by injection h5
    rw [ha hop, hb hop] at h
    simp only [bind, Except.bind] at h
    cases hm : modulus i j with
    | error e2 =>
      rw [hm] at h
      injection h with h
      rw [← h]
      exact Or.inr (modulus_error hm)
    | ok r => rw [hm] at h; cases h
  rw [if_neg h5] at h
  by_cases h6 : [op] = ['^']
  · rw [if_pos h6] at h; cases h
  rw [if_neg h6] at h
  by_cases h7 : [op] = ['$']
  · rw [if_pos h7] at h; cases h
  rw [if_neg h7] at h
  by_cases h8 : [op] = ['!']
  · rw [if_pos h8] at h; cases h
  rw [if_neg h8] at h
  injection h with h
  exact Or.inl h.symm

theorem nonIntegerOperand_error {L R : List Char} (hL : WellFormedLiteral L)
    (hR : WellFormedLiteral R) {e : Fault} (h : nonIntegerOperand L R = .error e) :
    e = Fault.outOfRange := by
  unfold nonIntegerOperand at h
  simp only [bind, Except.bind, pure, Except.pure] at h
  cases h1 : stoi L with
  | error e1 => rw [h1] at h; injection h with h; rw [← h]; exact stoi_error_of_wellFormed hL h1
  | ok i =>
    cases h2 : stod L with
    | error e2 =>
      rw [h1, h2] at h; injection h with h; rw [← h]; exact stod_error_of_wellFormed hL h2
    | ok a =>
      rw [h1, h2] at h
      simp only [] at h
      split at h
      · cases h
      · cases h3 : stoi R with
        | error e3 =>
          rw [h3] at h; injection h with h; rw [← h]; exact stoi_error_of_wellFormed hR h3
        | ok j =>
          cases h4 : stod R with
          | error e4 =>
            rw [h3, h4] at h; injection h with h; rw [← h]
            exact stod_error_of_wellFormed hR h4
          | ok b =>
            rw [h3, h4] at h
            simp only [] at h
            split at h <;> cases h

theorem nonIntegerOperand_false {L R : List Char} {a b : Dbl} (ha : stod L = .ok a)
    (hb : stod R = .ok b) (h : nonIntegerOperand L R = .ok false) :
    ∃ i j, stoi L = .ok i ∧ stoi R = .ok j ∧ Dbl.feq (Dbl.ofInt i) a = true ∧
      Dbl.feq (Dbl.ofInt j) b = true := by
  unfold nonIntegerOperand at h
  simp only [bind, Except.bind, pure, Except.pure, ha, hb] at h
  cases h1 : stoi L with
  | error e1 => rw [h1] at h; cases h
  | ok i =>
    rw [h1] at h
    simp only [] at h
    cases hq1 : Dbl.feq (Dbl.ofInt i) a
    · rw [hq1] at h; simp at h
    · rw [hq1] at h
      simp only [Bool.not_true, Bool.false_eq_true, if_false] at h
      cases h3 : stoi R with
      | error e3 => rw [h3] at h; cases h
      | ok j =>
        rw [h3] at h
        simp only [] at h
        cases hq2 : Dbl.feq (Dbl.ofInt j) b
        · rw [hq2] at h; simp at h
        · exact ⟨i, j, rfl, rfl, hq1, hq2⟩

theorem binaryOutcome_error {op : Char} {L R : List Char} (hL : WellFormedLiteral L)
    (hR : WellFormedLiteral R) {out : Val} {e : Fault}
    (h : binaryOutcome op L R out = .error e) :
    e = Fault.outOfRange ∨ e = Fault.intDivByZero ∨ e = Fault.intOverflow := by
  cases ha : stod L with
  | error e1 =>
    rw [binaryOutcome_of_stod_error_left out ha] at h
    injection h with h; rw [← h]
    exact Or.inl (stod_error_of_wellFormed hL ha)
  | ok a =>
    cases hb : stod R with
    | error e2 =>
      rw [binaryOutcome_of_stod_error out ha hb] at h
      injection h with h; rw [← h]
      exact Or.inl (stod_error_of_wellFormed hR hb)
    | ok b =>
      obtain ⟨hfa, _, _⟩ := stod_sign hL ha
      obtain ⟨hfb, _, _⟩ := stod_sign hR hb
      rw [binaryOutcome_of_stod out ha hb] at h
      split at h
      · cases h
      · split at h
        · cases h
        · by_cases hop : op = '%'
          · rw [if_pos hop] at h
            cases hn : nonIntegerOperand L R with
            | error e3 =>
              rw [hn] at h
              injection h with h; rw [← h]
              exact Or.inl (nonIntegerOperand_error hL hR hn)
            | ok m =>
              rw [hn] at h
              cases m
              · obtain ⟨i, j, hi, hj, hq1, hq2⟩ := nonIntegerOperand_false ha hb hn
                simp only [Except.bind, Bool.false_eq_true, if_false] at h
                cases hc : command [op] a b with
                | error e4 =>
                  rw [hc] at h
                  injection h with h; rw [← h]
                  exact command_error
                    (fun _ => toInt_of_toRat hfa ((feq_ofInt_iff hfa i).1 hq1)
                      (stoi_range hi).1 (stoi_range hi).2)
                    (fun _ => toInt_of_toRat hfb ((feq_ofInt_iff hfb j).1 hq2)
                      (stoi_range hj).1 (stoi_range hj).2) hc
                | ok r => rw [hc] at h; cases h
              · simp [Except.bind] at h
          · rw [if_neg hop] at h
            simp only [Except.bind, Bool.false_eq_true, if_false] at h
            cases hc : command [op] a b with
            | error e4 =>
              rw [hc] at h
              injection h with h; rw [← h]
              exact command_error (i := 0) (j := 0) (fun h => absurd h hop)
                (fun h => absurd h hop) hc
            | ok r => rw [hc] at h; cases h

theorem unaryOutcome_error {L : List Char} (hL : WellFormedLiteral L) {e : Fault}
    (h : unaryOutcome L = .error e) : e = Fault.outOfRange := by
  unfold unaryOutcome at h
  cases ha : stod L with
  | error e1 =>
    rw [ha] at h
    injection h with h; rw [← h]
    exact stod_error_of_wellFormed hL ha
  | ok a =>
    rw [ha] at h
    simp only [bind, Except.bind, pure, Except.pure] at h
    split at h <;> cases h

/-- The faults that end a call of `process`: `std::out_of_range`, the `int`
remainder with a zero divisor and its overflow.  No string access is out of
bounds, no `std::invalid_argument` is thrown and no `double` outside `int` is
converted to `int`. -/
theorem process_error_kinds (input : List Char) (out : Val) {e : Fault}
    (h : process input out = .error e) :
    e = Fault.outOfRange ∨ e = Fault.intDivByZero ∨ e = Fault.intOverflow := by
  rw [process_eq] at h
  split at h
  · cases h
  · unfold cleanedOutcome at h
    simp only [pure, Except.pure] at h
    split at h
    · split at h
      · cases h
      · split at h
        · cases h
        · rename_i hL
          have hL2 := (checkNumberValue_iff _).1 (by simpa using hL)
          exact Or.inl (unaryOutcome_error hL2 h)
    · split at h
      · cases h
      · rename_i hLR
        simp only [not_or, Bool.not_eq_false] at hLR
        exact binaryOutcome_error ((checkNumberValue_iff _).1 hLR.1)
          ((checkNumberValue_iff _).1 hLR.2) h

/-- The `double` that `stod` returns for a literal is at least as close to the
literal's value as any finite `double`, that is any `(-1)^neg * M * 2^(q - 1074)`
with `M` below `2^53`. -/
theorem stod_nearest {s : List Char} (hs : WellFormedLiteral s) {d : Dbl} (hd : stod s = .ok d)
    (neg : Bool) {M : Nat} (hM : M < 2 ^ 53) (q : Nat) :
    |d.toRat - literalValue s| ≤ |(Dbl.fin neg M ((q : Int) - 1074)).toRat - literalValue s| := by
  obtain ⟨sg, ip, fp, h1, h2, h3, rfl⟩ := (wellFormed_iff_literal s).1 hs
  obtain ⟨m, S, rfl, _, hnear⟩ := stod_literal_ok sg h1 h2 h3 hd
  rw [literalValue_literal sg h1 h2]
  have ht : 0 < 10 ^ fp.length := by positivity
  have hcastt : ((10 : ℚ) ^ fp.length) = ((10 ^ fp.length : ℕ) : ℚ) := by push_cast; rfl
  rw [hcastt]
  exact nearest_of_scaled sg neg m S (digitsValue (ip ++ fp)) (10 ^ fp.length) ht hnear hM q

/-! ## Parsing: operator search, splitting and space removal -/

theorem findIf_not_before (p : Char → Bool) (s : List Char) :
    ∀ i, i < findIf p s → ∃ c, s[i]? = some c ∧ p c = false := by
  induction s with
  | nil => intro i hi; simp [findIf] at hi
  | cons c cs ih =>
    intro i hi
    unfold findIf at hi
    by_cases hc : p c = true
    · rw [if_pos hc] at hi; omega
    · rw [if_neg hc] at hi
      cases i with
      | zero => exact ⟨c, by simp, by simpa using hc⟩
      | succ j =>
        obtain ⟨x, hx, hpx⟩ := ih j (by omega)
        exact ⟨x, by simpa using hx, hpx⟩

theorem findIf_at (p : Char → Bool) (s : List Char) (h : findIf p s < s.length) :
    ∃ c, s[findIf p s]? = some c ∧ p c = true := by
  induction s with
  | nil => simp at h
  | cons c cs ih =>
    unfold findIf at h ⊢
    by_cases hc : p c = true
    · rw [if_pos hc]; exact ⟨c, by simp, hc⟩
    · rw [if_neg hc] at h ⊢
      obtain ⟨x, hx, hpx⟩ := ih (by simpa using h)
      exact ⟨x, by simpa using hx, hpx⟩

theorem findIf_eq_length {p : Char → Bool} {s : List Char} (h : ∀ c ∈ s, p c = false) :
    findIf p s = s.length := by
  induction s with
  | nil => rfl
  | cons c cs ih =>
    have hc : ¬ p c = true := by simp [h c (by simp)]
    unfold findIf
    rw [if_neg hc, ih (fun x hx => h x (by simp [hx]))]
    rfl

/-- The number of characters `findOperation` skips before it searches. -/
theorem findOperationValue_eq (s : List Char) :
    findOperationValue s
      = (if s.head? = some '-' then 1 else 0)
        + findIf isOperation (s.drop (if s.head? = some '-' then 1 else 0)) := by
  cases s with
  | nil => rfl
  | cons c cs =>
    unfold findOperationValue
    by_cases hc : c = '-'
    · subst hc; simp
    · simp [hc]

theorem findOperationValue_at (s : List Char) (h : findOperationValue s < s.length) :
    ∃ c, s[findOperationValue s]? = some c ∧ isOperation c = true := by
  cases s with
  | nil => simp at h
  | cons c cs =>
    simp only [findOperationValue] at h ⊢
    by_cases hc : c = '-'
    · rw [if_pos hc] at h ⊢
      obtain ⟨x, hx, hpx⟩ := findIf_at isOperation cs (by simp at h; omega)
      refine ⟨x, ?_, hpx⟩
      rw [Nat.add_comm]
      simpa using hx
    · rw [if_neg hc] at h ⊢
      exact findIf_at isOperation (c :: cs) h

theorem findOperationValue_of_none {s : List Char}
    (h : ∀ c ∈ unsignedPart s, isOperation c = false) : findOperationValue s = s.length := by
  cases s with
  | nil => rfl
  | cons c cs =>
    simp only [findOperationValue]
    by_cases hc : c = '-'
    · subst hc
      have h2 : ∀ x ∈ cs, isOperation x = false := by
        intro x hx; apply h; simp [unsignedPart, hx]
      rw [if_pos rfl, findIf_eq_length h2]; simp [Nat.add_comm]
    · have h2 : ∀ x ∈ c :: cs, isOperation x = false := by
        intro x hx; apply h; simpa [unsignedPart, hc] using hx
      rw [if_neg hc, findIf_eq_length h2]

/-- C16: for every string, `findOperation` returns an index `r` between `n` and the length,
where `n` is 1 when the string starts with a minus sign and 0 otherwise; no character at a
position from `n` up to `r` is an operator character, and when `r` is inside the string the
character at `r` is an operator character. -/
theorem findOperation_leftmost (s : List Char) :
    ∃ r, findOperation s = .ok r ∧
      (if s.head? = some '-' then 1 else 0) ≤ r ∧ r ≤ s.length ∧
      (∀ i, (if s.head? = some '-' then 1 else 0) ≤ i → i < r →
        ∃ c, s[i]? = some c ∧ c ∉ operations) ∧
      (r < s.length → ∃ c, s[r]? = some c ∧ c ∈ operations) := by
  have hop : ∀ c, isOperation c = true ↔ c ∈ operations := by
    intro c; simp [isOperation]
  refine ⟨findOperationValue s, findOperation_eq s, ?_, findOperationValue_le s, ?_, ?_⟩
  · rw [findOperationValue_eq]; omega
  · intro i h1 h2
    rw [findOperationValue_eq] at h2
    obtain ⟨c, hc, hpc⟩ := findIf_not_before isOperation
      (s.drop (if s.head? = some '-' then 1 else 0))
      (i - (if s.head? = some '-' then 1 else 0)) (by omega)
    refine ⟨c, ?_, ?_⟩
    · rw [List.getElem?_drop] at hc
      rw [← hc]; congr 1; omega
    · intro hmem
      rw [← hop, hpc] at hmem
      exact Bool.noConfusion hmem
  · intro h
    obtain ⟨c, hc, hpc⟩ := findOperationValue_at s h
    exact ⟨c, hc, (hop c).1 hpc⟩

/-- C17: for an index `d` inside the string, `separateNums` returns a first part of length
`d` and a second part such that first part, the character at `d` and second part make up
the string again; for `d` equal to the length it returns the whole string and an empty
second part, without failing. -/
theorem separateNums_split (s : List Char) (d : Nat) (hd : d ≤ s.length) :
    ∃ L R, separateNums s d = .ok (L, R) ∧ L.length = d ∧
      (∀ c, s[d]? = some c → L ++ c :: R = s) ∧
      (d = s.length → L = s ∧ R = []) := by
  refine ⟨s.take d, s.drop (d + 1), separateNums_eq hd, ?_, ?_, ?_⟩
  · simp [hd]
  · intro c hc
    obtain ⟨hlt, hget⟩ := List.getElem?_eq_some_iff.1 hc
    rw [← hget]
    simp
  · intro h
    subst h
    simp

theorem separateNums_split_witness :
    ∃ L R, separateNums ['1', '2', '+', '3'] 2 = .ok (L, R) ∧ L.length = 2 ∧
      (∀ c, ['1', '2', '+', '3'][2]? = some c → L ++ c :: R = ['1', '2', '+', '3']) ∧
      (2 = ['1', '2', '+', '3'].length → L = ['1', '2', '+', '3'] ∧ R = []) :=
  separateNums_split ['1', '2', '+', '3'] 2 (by decide)

/-- C18: `removeSpaces` leaves the subsequence of the characters that are not a space, in
their order: the result has no space, it is a subsequence of the original, every other
subsequence without a space is a subsequence of it, every character other than a space
occurs as often as before, and a second application changes nothing. -/
theorem removeSpaces_spec (s : List Char) :
    ' ' ∉ removeSpaces s ∧
      List.Sublist (removeSpaces s) s ∧
      (∀ t, List.Sublist t s → ' ' ∉ t → List.Sublist t (removeSpaces s)) ∧
      (∀ c, c ≠ ' ' → (removeSpaces s).count c = s.count c) ∧
      removeSpaces (removeSpaces s) = removeSpaces s := by
  refine ⟨?_, ?_, ?_, ?_, ?_⟩
  · simp [removeSpaces]
  · exact List.filter_sublist s
  · intro t ht hsp
    have h1 : t.filter (fun c => c != ' ') = t := by
      rw [List.filter_eq_self]
      intro c hc
      have : c ≠ ' ' := fun h => hsp (h ▸ hc)
      simpa using this
    rw [← h1]
    exact ht.filter _
  · intro c hc
    unfold removeSpaces
    rw [List.count_filter]
    simpa using hc
  · simp [removeSpaces]

theorem isOperation_of_binary {op : Char}
    (h : op ∈ ['+', '-', '*', '/', '%', '^', '$']) : isOperation op = true ∧ op ≠ '!' := by
  simp only [List.mem_cons, List.mem_singleton, List.not_mem_nil, or_false] at h
  rcases h with h | h | h | h | h | h | h <;> subst h <;> decide

theorem binary_of_isOperation {op : Char} (h : isOperation op = true) (hne : op ≠ '!') :
    op ∈ ['+', '-', '*', '/', '%', '^', '$'] := by
  rcases (isOperation_iff op).1 h with h | h | h | h | h | h | h | h
  all_goals first | exact absurd h hne | (subst h; decide)

theorem split_at_index {s : List Char} {d : Nat} (h : d < s.length) :
    s = s.take d ++ s.getD d (Char.ofNat 0) :: s.drop (d + 1) := by
  have h1 : s.getD d (Char.ofNat 0) = s[d] := by
    simp [List.getD, List.getElem?_eq_getElem h]
  rw [h1]
  simp

theorem cleanedOutcome_of_length {s : List Char} (hd : findOperationValue s = s.length)
    (out : Val) : cleanedOutcome s out = .ok (ErrorCode.BadFormat, out) := by
  have e1 : s.getD s.length (Char.ofNat 0) = Char.ofNat 0 := by simp [List.getD]
  have e2 : List.drop (s.length + 1) s = [] := by simp
  have e3 : ¬ (Char.ofNat 0 = '!') := by decide
  have e4 : checkNumberValue (List.take s.length s) = false ∨ checkNumberValue [] = false :=
    Or.inr rfl
  unfold cleanedOutcome
  rw [hd]
  simp only []
  rw [e1, e2, if_neg e3, if_pos e4]
  rfl

/-- C19: for operands `A` and `B` accepted by `checkNumber` and a binary operator character
`op`, `findOperation` on `A`, `op`, `B` put together returns the length of `A`, and
`separateNums` at that index returns exactly `A` and `B`, also when an operand starts
with a minus sign; `process` then goes on with exactly these two operands. -/
theorem parse_concatenation {A B : List Char} (hA : checkNumber A = .ok true)
    (hB : checkNumber B = .ok true) {op : Char}
    (hop : op ∈ ['+', '-', '*', '/', '%', '^', '$']) (out : Val) :
    findOperation (A ++ op :: B) = .ok A.length ∧
      separateNums (A ++ op :: B) A.length = .ok (A, B) ∧
      process (A ++ op :: B) out = binaryOutcome op A B out := by
  have hwA := wellFormed_of_checkNumber hA
  have hwB := wellFormed_of_checkNumber hB
  obtain ⟨hop1, hop2⟩ := isOperation_of_binary hop
  refine ⟨?_, ?_, process_binary hwA hwB hop1 hop2 out⟩
  · obtain ⟨na, ia, fa, a1, a2, a3, rfl⟩ := (wellFormed_iff_literal A).1 hwA
    rw [findOperation_eq, findOperationValue_literal na a1 a2 a3 hop1]
  · rw [separateNums_eq (by simp)]
    simp

theorem parse_concatenation_witness :
    findOperation (['-', '2'] ++ '-' :: ['-', '3']) = .ok ['-', '2'].length ∧
      separateNums (['-', '2'] ++ '-' :: ['-', '3']) ['-', '2'].length
        = .ok (['-', '2'], ['-', '3']) ∧
      process (['-', '2'] ++ '-' :: ['-', '3']) (Val.lit Dbl.nan)
        = binaryOutcome '-' ['-', '2'] ['-', '3'] (Val.lit Dbl.nan) :=
  parse_concatenation (A := ['-', '2']) (B := ['-', '3']) (by decide) (by decide) (by decide)
    (Val.lit Dbl.nan)

/-- C15: whenever `process` returns an error code other than OK, the value behind `out`
is left as it was. -/
theorem process_error_keeps_out (input : List Char) (out : Val) (c : ErrorCode) (v : Val)
    (h : process input out = .ok (c, v)) (hc : c ≠ ErrorCode.OK) : v = out := by
  rw [process_eq] at h
  by_cases hch : checkCharacters input = false
  · rw [if_pos hch] at h
    injection h with h
    injection h with h1 h2
    exact h2.symm
  · rw [if_neg hch] at h
    rcases cleanedOutcome_code h with h1 | ⟨h1, _⟩
    · exact absurd h1 hc
    · exact h1

theorem process_error_keeps_out_witness :
    process ['5', '/', '0'] (Val.lit (Dbl.ofInt 7)) = .ok (ErrorCode.DivideBy0, Val.lit (Dbl.ofInt 7))
      ∧ Val.lit (Dbl.ofInt 7) = Val.lit (Dbl.ofInt 7) :=
  ⟨by decide!, process_error_keeps_out ['5', '/', '0'] (Val.lit (Dbl.ofInt 7))
    ErrorCode.DivideBy0 (Val.lit (Dbl.ofInt 7)) (by decide!) (by decide)⟩

/-- C13: when an input has only allowed characters and, after the spaces are removed and
one leading minus sign is skipped, no operator character is left, `findOperation` returns
the length of the cleaned string, `separateNums` returns the cleaned string and an empty
second operand, and `process` returns BadFormat. -/
theorem process_no_operator (input : List Char) (out : Val)
    (hch : checkCharacters input = true)
    (hno : ∀ c ∈ unsignedPart (removeSpaces input), isOperation c = false) :
    findOperation (removeSpaces input) = .ok (removeSpaces input).length ∧
      separateNums (removeSpaces input) (removeSpaces input).length
        = .ok (removeSpaces input, []) ∧
      process input out = .ok (ErrorCode.BadFormat, out) := by
  have hd := findOperationValue_of_none hno
  refine ⟨?_, ?_, ?_⟩
  · rw [findOperation_eq, hd]
  · rw [separateNums_eq (le_refl _)]
    simp
  · rw [process_eq, if_neg (by simp [hch]), cleanedOutcome_of_length hd]

theorem process_no_operator_witness :
    (findOperation (removeSpaces [' ', '-', '5', ' '])
        = .ok (removeSpaces [' ', '-', '5', ' ']).length ∧
      separateNums (removeSpaces [' ', '-', '5', ' ']) (removeSpaces [' ', '-', '5', ' ']).length
        = .ok (removeSpaces [' ', '-', '5', ' '], []) ∧
      process [' ', '-', '5', ' '] (Val.lit Dbl.nan)
        = .ok (ErrorCode.BadFormat, Val.lit Dbl.nan)) ∧
    (findOperation (removeSpaces []) = .ok (removeSpaces []).length ∧
      separateNums (removeSpaces []) (removeSpaces []).length = .ok (removeSpaces [], []) ∧
      process [] (Val.lit Dbl.nan) = .ok (ErrorCode.BadFormat, Val.lit Dbl.nan)) ∧
    (findOperation (removeSpaces ['-']) = .ok (removeSpaces ['-']).length ∧
      separateNums (removeSpaces ['-']) (removeSpaces ['-']).length
        = .ok (removeSpaces ['-'], []) ∧
      process ['-'] (Val.lit Dbl.nan) = .ok (ErrorCode.BadFormat, Val.lit Dbl.nan)) :=
  ⟨process_no_operator [' ', '-', '5', ' '] (Val.lit Dbl.nan) (by decide) (by decide),
    process_no_operator [] (Val.lit Dbl.nan) (by decide) (by decide),
    process_no_operator ['-'] (Val.lit Dbl.nan) (by decide) (by decide)⟩

/-- C14: whenever `process` returns a code other than BadCharacter and BadFormat, the
input without its spaces is a first operand accepted by `checkNumber`, one binary operator
character and a second operand accepted by `checkNumber`, or an operand accepted by
`checkNumber` followed by the factorial sign. -/
theorem process_syntax_first (input : List Char) (out : Val) (c : ErrorCode) (v : Val)
    (h : process input out = .ok (c, v))
    (h1 : c ≠ ErrorCode.BadCharacter) (h2 : c ≠ ErrorCode.BadFormat) :
    (∃ L op R, op ∈ ['+', '-', '*', '/', '%', '^', '$'] ∧ checkNumber L = .ok true ∧
        checkNumber R = .ok true ∧ removeSpaces input = L ++ op :: R) ∨
      (∃ L, checkNumber L = .ok true ∧ removeSpaces input = L ++ ['!']) := by
  rw [process_eq] at h
  by_cases hch : checkCharacters input = false
  · rw [if_pos hch] at h
    injection h with h
    injection h with h3 h4
    exact absurd h3.symm h1
  · rw [if_neg hch] at h
    generalize removeSpaces input = s at h ⊢
    have hbad : ∀ {x : Except Fault (ErrorCode × Val)},
        x = .ok (c, v) → x ≠ pure (ErrorCode.BadFormat, out) := by
      intro x hx hx2
      rw [hx2] at hx
      injection hx with hx
      injection hx with hx3 hx4
      exact h2 hx3.symm
    have hlen : findOperationValue s < s.length := by
      by_contra hge
      have hd : findOperationValue s = s.length :=
        le_antisymm (findOperationValue_le s) (by omega)
      rw [cleanedOutcome_of_length hd] at h
      exact hbad h rfl
    have hsplit := split_at_index hlen
    obtain ⟨x, hx, hopx⟩ := findOperationValue_at s hlen
    have hget : s.getD (findOperationValue s) (Char.ofNat 0) = x := by
      simp [List.getD, hx]
    rw [hget] at hsplit
    unfold cleanedOutcome at h
    simp only [hget] at h
    by_cases hf : x = '!'
    · right
      rw [if_pos hf] at h
      by_cases hR : List.drop (findOperationValue s + 1) s ≠ []
      · rw [if_pos hR] at h; exact absurd rfl (hbad h)
      · rw [if_neg hR] at h
        by_cases hL : checkNumberValue (List.take (findOperationValue s) s) = false
        · rw [if_pos hL] at h; exact absurd rfl (hbad h)
        · refine ⟨List.take (findOperationValue s) s, ?_, ?_⟩
          · rw [checkNumber_eq]; simpa using hL
          · have hR2 : List.drop (findOperationValue s + 1) s = [] := by simpa using hR
            rw [hR2, hf] at hsplit
            exact hsplit
    · left
      rw [if_neg hf] at h
      by_cases hLR : checkNumberValue (List.take (findOperationValue s) s) = false ∨
          checkNumberValue (List.drop (findOperationValue s + 1) s) = false
      · rw [if_pos hLR] at h; exact absurd rfl (hbad h)
      · have hL : checkNumberValue (List.take (findOperationValue s) s) = true := by
          by_contra hn; exact hLR (Or.inl (by simpa using hn))
        have hR : checkNumberValue (List.drop (findOperationValue s + 1) s) = true := by
          by_contra hn; exact hLR (Or.inr (by simpa using hn))
        refine ⟨_, x, _, binary_of_isOperation hopx hf, ?_, ?_, hsplit⟩
        · rw [checkNumber_eq, hL]
        · rw [checkNumber_eq, hR]

theorem process_syntax_first_witness :
    process ['4', '/', ' ', '0'] (Val.lit (Dbl.ofInt 7))
        = .ok (ErrorCode.DivideBy0, Val.lit (Dbl.ofInt 7)) ∧
      process ['2', '+', '3', '*', '4'] (Val.lit (Dbl.ofInt 7))
        = .ok (ErrorCode.BadFormat, Val.lit (Dbl.ofInt 7)) ∧
      ((∃ L op R, op ∈ ['+', '-', '*', '/', '%', '^', '$'] ∧ checkNumber L = .ok true ∧
          checkNumber R = .ok true ∧ removeSpaces ['4', '/', ' ', '0'] = L ++ op :: R) ∨
        (∃ L, checkNumber L = .ok true ∧ removeSpaces ['4', '/', ' ', '0'] = L ++ ['!'])) :=
  ⟨by decide!, by decide!,
    process_syntax_first ['4', '/', ' ', '0'] (Val.lit (Dbl.ofInt 7)) ErrorCode.DivideBy0
      (Val.lit (Dbl.ofInt 7)) (by decide!) (by decide) (by decide)⟩

/-! ## Canonical form of finite doubles -/

theorem oddPart_odd (fuel m : Nat) (e : Int) (hm : 0 < m) (hf : m ≤ fuel) :
    (oddPart fuel m e).1 % 2 = 1 := by
  induction fuel generalizing m e with
  | zero => omega
  | succ f ih =>
    unfold oddPart
    by_cases h : m % 2 = 0
    · rw [if_pos h]
      exact ih (m / 2) (e + 1) (by omega) (by omega)
    · rw [if_neg h]
      show m % 2 = 1
      omega

theorem odd_mul_pow_eq {a b k : Nat} (ha : a % 2 = 1) (h : a = b * 2 ^ k) : k = 0 := by
  cases k with
  | zero => rfl
  | succ j =>
    exfalso
    rw [pow_succ, ← mul_assoc] at h
    omega

theorem fin_unique_le {m1 m2 : Nat} {e1 e2 : Int} (h1 : m1 % 2 = 1) (hle : e1 ≤ e2)
    (h : (m1 : ℚ) * 2 ^ e1 = (m2 : ℚ) * 2 ^ e2) : m1 = m2 ∧ e1 = e2 := by
  obtain ⟨k, hk⟩ := Int.le.dest hle
  have h2 : (2 : ℚ) ≠ 0 := by norm_num
  have hp : (2 : ℚ) ^ e1 ≠ 0 := zpow_ne_zero _ h2
  rw [← hk, zpow_add₀ h2, zpow_natCast, mul_comm ((2 : ℚ) ^ e1), ← mul_assoc] at h
  have h3 : (m1 : ℚ) = (m2 : ℚ) * 2 ^ k := mul_right_cancel₀ hp h
  have h4 : m1 = m2 * 2 ^ k := by exact_mod_cast h3
  have hk0 := odd_mul_pow_eq h1 h4
  subst hk0
  constructor
  · simpa using h4
  · simpa using hk

theorem fin_unique {m1 m2 : Nat} {e1 e2 : Int} (h1 : m1 % 2 = 1) (h2 : m2 % 2 = 1)
    (h : (m1 : ℚ) * 2 ^ e1 = (m2 : ℚ) * 2 ^ e2) : m1 = m2 ∧ e1 = e2 := by
  rcases le_total e1 e2 with hle | hle
  · exact fin_unique_le h1 hle h
  · obtain ⟨a, b⟩ := fin_unique_le h2 hle h.symm
    exact ⟨a.symm, b.symm⟩

theorem mk_eq_of_value (neg : Bool) {m n : Nat} {e f : Int} (hm : m ≠ 0) (hn : n ≠ 0)
    (h : (m : ℚ) * 2 ^ e = (n : ℚ) * 2 ^ f) : Dbl.mk neg m e = Dbl.mk neg n f := by
  unfold Dbl.mk
  rw [if_neg hm, if_neg hn]
  have h1 := oddPart_odd m m e (Nat.pos_of_ne_zero hm) (le_refl _)
  have h2 := oddPart_odd n n f (Nat.pos_of_ne_zero hn) (le_refl _)
  have h3 := (oddPart_spec m m e).1
  have h4 := (oddPart_spec n n f).1
  obtain ⟨a, b⟩ := fin_unique h1 h2 (by rw [h3, h4, h])
  rw [a, b]

theorem roundRat_int (neg : Bool) {i d : Nat} (hi : 0 < i) (hi2 : i < 2 ^ 53) (hd : 0 < d) :
    Dbl.roundRat neg (i * d) d = Dbl.mk neg i 0 := by
  obtain ⟨hm, hsh, hin, ho⟩ := roundNearestEven_int hi hi2 hd
  unfold Dbl.roundRat
  simp only []
  rw [ho, if_neg (by decide)]
  generalize (roundNearestEven (i * d) d).mant = M at hm
  generalize (roundNearestEven (i * d) d).shift = S at hm hsh
  have hM : M ≠ 0 := by
    intro h0
    rw [h0, Nat.zero_mul] at hm
    have : 0 < i * 2 ^ 1074 := by positivity
    exact (ne_of_gt this) hm.symm
  apply mk_eq_of_value neg hM (by omega)
  have hmq : (M : ℚ) * 2 ^ S = (i : ℚ) * 2 ^ 1074 := by
    have e2 : (2 : ℚ) = ((2 : ℕ) : ℚ) := by norm_num
    rw [e2, ← Nat.cast_pow, ← Nat.cast_pow, ← Nat.cast_mul, ← Nat.cast_mul, hm]
  have hp : (2 : ℚ) ^ 1074 ≠ 0 := pow_ne_zero _ (by norm_num)
  rw [two_zpow_sub, ← mul_div_assoc, hmq, mul_div_assoc, div_self hp, zpow_zero]

theorem ofInt_natCast (n : Nat) : Dbl.ofInt (n : Int) = Dbl.mk false n 0 := by
  unfold Dbl.ofInt
  have h : ¬ ((n : Int) < 0) := by omega
  rw [decide_eq_false h, Int.natAbs_ofNat]

theorem oddPart_nonneg (fuel m : Nat) (e : Int) (he : 0 ≤ e) :
    0 ≤ (oddPart fuel m e).2 ∧
      (oddPart fuel m e).1 * 2 ^ (oddPart fuel m e).2.toNat = m * 2 ^ e.toNat := by
  induction fuel generalizing m e with
  | zero => exact ⟨he, rfl⟩
  | succ f ih =>
    unfold oddPart
    by_cases h : m % 2 = 0
    · rw [if_pos h]
      obtain ⟨a, b⟩ := ih (m / 2) (e + 1) (by omega)
      refine ⟨a, ?_⟩
      rw [b]
      have e1 : (e + 1).toNat = e.toNat + 1 := by omega
      have e2 : m = m / 2 * 2 := by omega
      rw [e1, pow_succ]
      nth_rewrite 2 [e2]
      ring
    · rw [if_neg h]
      exact ⟨he, rfl⟩

theorem add_ofInt_one {n : Nat} (h0 : 0 < n) (h : n + 1 < 2 ^ 53) :
    Dbl.add (Dbl.ofInt (n : Int)) (Dbl.ofInt 1) = Dbl.ofInt ((n + 1 : Nat) : Int) := by
  have h1 : Dbl.ofInt 1 = Dbl.fin false 1 0 := by decide
  have hn : n ≠ 0 := by omega
  obtain ⟨he, hv⟩ := oddPart_nonneg n n 0 (le_refl _)
  rw [ofInt_natCast, ofInt_natCast, h1, Dbl.mk, if_neg hn]
  generalize (oddPart n n 0).1 = m1 at hv
  generalize (oddPart n n 0).2 = e1 at hv he
  have hk : min e1 0 = 0 := min_eq_right he
  have hs : Dbl.scaledInt false m1 e1 0 + Dbl.scaledInt false 1 0 0 = ((n + 1 : Nat) : Int) := by
    unfold Dbl.scaledInt
    simp only [Bool.false_eq_true, if_false, one_mul, sub_zero, Int.toNat_zero, pow_zero,
      Nat.cast_one, mul_one]
    have hv2 : m1 * 2 ^ e1.toNat = n := by simpa using hv
    rw [← hv2]
    push_cast
    ring
  have hne : ¬ (((n + 1 : Nat) : Int) = 0) := by omega
  have hnl : ¬ (((n + 1 : Nat) : Int) < 0) := by omega
  unfold Dbl.add
  simp only [hk, hs]
  rw [if_neg hne, if_pos (le_refl _), decide_eq_false hnl, Int.natAbs_ofNat]
  have hr := roundRat_int false (Nat.succ_pos n) h (Nat.one_pos)
  simpa using hr

theorem stod_of_natural {s : List Char} (hs : WellFormedLiteral s) {n : Nat} (hn0 : 0 < n)
    (hn : n < 2 ^ 53) (hv : literalValue s = (n : ℚ)) : stod s = .ok (Dbl.ofInt (n : Int)) := by
  obtain ⟨neg, ip, fp, h1, h2, h3, rfl⟩ := (wellFormed_iff_literal s).1 hs
  rw [literalValue_literal neg h1 h2] at hv
  have h10 : 0 < 10 ^ fp.length := by positivity
  have h10q : (0 : ℚ) < 10 ^ fp.length := by positivity
  have hnn : (0 : ℚ) ≤ ((digitsValue (ip ++ fp) : ℕ) : ℚ) / 10 ^ fp.length := by positivity
  have hnq : (0 : ℚ) < (n : ℚ) := by exact_mod_cast hn0
  have hneg : neg = false := by
    cases neg
    · rfl
    · exfalso
      simp only [if_true, neg_mul, one_mul] at hv
      linarith
  subst hneg
  simp only [Bool.false_eq_true, if_false, one_mul] at hv
  have hD : digitsValue (ip ++ fp) = n * 10 ^ fp.length := by
    rw [div_eq_iff (ne_of_gt h10q)] at hv
    exact_mod_cast hv
  obtain ⟨hm, hsh, hin, ho⟩ := roundNearestEven_int hn0 hn h10
  have hr := roundRat_int false hn0 hn h10
  unfold Dbl.roundRat at hr
  simp only [] at hr
  rw [ho, if_neg (by decide)] at hr
  have hdrop : strtodDropsBit (digitsValue (ip ++ fp)) (10 ^ fp.length) = false := by
    rw [hD]; exact strtodDropsBit_mul hn0 h10
  rw [stod_literal_standard false h1 h2 h3 hdrop, hD, hin, ho, ofInt_natCast, ← hr]
  simp only [Bool.and_false, Bool.false_and, Bool.or_self, Bool.false_eq_true, if_false]

/-! ## The factorial branch and the conversion of accepted literals -/

theorem toRat_nonpos_iff {s : List Char} (hs : WellFormedLiteral s) {d : Dbl}
    (hd : stod s = .ok d) : d.toRat ≤ 0 ↔ literalValue s ≤ 0 := by
  obtain ⟨_, hz, hn⟩ := stod_sign hs hd
  constructor
  · intro h
    rcases lt_or_eq_of_le h with h | h
    · exact le_of_lt (hn.1 h)
    · exact le_of_eq (hz.1 h)
  · intro h
    rcases lt_or_eq_of_le h with h | h
    · exact le_of_lt (hn.2 h)
    · exact le_of_eq (hz.2 h)

/-- C11 (amended): for every operand `L` accepted by `checkNumber` that `stod` converts
without a range error and whose value is at most zero, `process` on `L` followed by the
factorial sign returns OK and writes the literal 1: the gamma function is not called. -/
theorem process_factorial_nonpositive {L : List Char} (hL : checkNumber L = .ok true)
    {d : Dbl} (hd : stod L = .ok d) (hv : literalValue L ≤ 0) (out : Val) :
    process (L ++ ['!']) out = .ok (ErrorCode.OK, Val.lit (Dbl.ofInt 1)) := by
  have hw := wellFormed_of_checkNumber hL
  have hfin := (stod_sign hw hd).1
  have hle : Dbl.fle d (Dbl.ofInt 0) = true :=
    (fle_zero_iff hfin).2 ((toRat_nonpos_iff hw hd).2 hv)
  rw [process_unary hw, unaryOutcome, hd]
  show (if Dbl.fle d (Dbl.ofInt 0) = true then _ else _) = _
  rw [if_pos hle]
  rfl

theorem process_factorial_nonpositive_witness :
    process (['0'] ++ ['!']) (Val.lit Dbl.nan) = .ok (ErrorCode.OK, Val.lit (Dbl.ofInt 1)) ∧
    process (['-', '3'] ++ ['!']) (Val.lit Dbl.nan)
      = .ok (ErrorCode.OK, Val.lit (Dbl.ofInt 1)) ∧
    process (('-' :: (['0', '.'] ++ List.replicate 307 '0' ++
        ['2', '2', '2', '5', '0', '7', '3', '8', '5', '8', '5', '0', '7', '2', '0', '1', '3'])) ++ ['!']) (Val.lit Dbl.nan)
      = .ok (ErrorCode.OK, Val.lit (Dbl.ofInt 1)) :=
  ⟨process_factorial_nonpositive (L := ['0']) (by decide) (d := Dbl.fin false 0 0)
      (by decide!) (by decide!) (Val.lit Dbl.nan),
    process_factorial_nonpositive (L := ['-', '3']) (by decide) (d := Dbl.fin true 3 0)
      (by decide!) (by decide!) (Val.lit Dbl.nan),
    process_factorial_nonpositive (L := '-' :: (['0', '.'] ++ List.replicate 307 '0' ++
        ['2', '2', '2', '5', '0', '7', '3', '8', '5', '8', '5', '0', '7', '2', '0', '1', '3'])) (by decide!)
      (d := Dbl.fin true 1 (-1022)) (by decide!) (by decide!) (Val.lit Dbl.nan)⟩

/-- C11 (counterexample): a minus sign followed by 1 and 309 zeros is accepted by
`checkNumber` and its value is below zero, yet `process` on it followed by the factorial
sign returns no code: `stod` throws `std::out_of_range`. -/
theorem process_factorial_nonpositive_out_of_range :
    checkNumber ('-' :: '1' :: List.replicate 309 '0') = .ok true ∧
    literalValue ('-' :: '1' :: List.replicate 309 '0') ≤ 0 ∧
    process (('-' :: '1' :: List.replicate 309 '0') ++ ['!']) (Val.lit Dbl.nan)
      = .error Fault.outOfRange := by
  refine ⟨by decide!, by decide!, by decide!⟩

/-- The factorial of 23 has more than 53 significant bits: no `double` is equal to it. -/
theorem factorial_23_not_double (neg : Bool) (m : Nat) (e : Int) (hm : m < 2 ^ 53) :
    (Dbl.fin neg m e).toRat ≠ ((Nat.factorial 23 : Nat) : ℚ) := by
  have hF : Nat.factorial 23 = 2 ^ 19 * 49308808782358125 := by decide
  intro h
  unfold Dbl.toRat at h
  have hpos : (0 : ℚ) < 2 ^ e := by positivity
  have hm0 : (0 : ℚ) ≤ (m : ℚ) := Nat.cast_nonneg m
  have hFpos : (0 : ℚ) < ((Nat.factorial 23 : Nat) : ℚ) := by
    exact_mod_cast Nat.factorial_pos 23
  cases neg
  · simp only [Bool.false_eq_true, if_false, one_mul] at h
    rw [hF] at h
    rcases Int.eq_nat_or_neg e with ⟨k, hk | hk⟩
    · subst hk
      rw [zpow_natCast] at h
      have h2 : m * 2 ^ k = 2 ^ 19 * 49308808782358125 := by exact_mod_cast h
      by_cases hk19 : k ≤ 19
      · have h3 : (2 : Nat) ^ 19 = 2 ^ (19 - k) * 2 ^ k := by
          rw [← pow_add]; congr 1; omega
        rw [h3, Nat.mul_right_comm] at h2
        have h4 : m = 2 ^ (19 - k) * 49308808782358125 :=
          Nat.eq_of_mul_eq_mul_right (by positivity) h2
        have h5 : 1 ≤ 2 ^ (19 - k) := Nat.one_le_two_pow
        have h6 : 1 * 49308808782358125 ≤ 2 ^ (19 - k) * 49308808782358125 :=
          Nat.mul_le_mul_right _ h5
        omega
      · have h3 : (2 : Nat) ^ k = 2 ^ (k - 20) * 2 * 2 ^ 19 := by
          rw [← pow_succ, ← pow_add]; congr 1; omega
        rw [h3, ← Nat.mul_assoc, Nat.mul_comm (2 ^ 19)] at h2
        have h4 : m * (2 ^ (k - 20) * 2) = 49308808782358125 :=
          Nat.eq_of_mul_eq_mul_right (by positivity) h2
        have h5 : m * (2 ^ (k - 20) * 2) = 2 * (m * 2 ^ (k - 20)) := by ring
        omega
    · subst hk
      rw [zpow_neg, zpow_natCast] at h
      have hk2 : (0 : ℚ) < 2 ^ k := by positivity
      have h2 : (m : ℚ) = ((2 ^ 19 * 49308808782358125 * 2 ^ k : ℕ) : ℚ) := by
        push_cast
        field_simp at h
        linarith
      have h3 : m = 2 ^ 19 * 49308808782358125 * 2 ^ k := by exact_mod_cast h2
      have h5 : 1 ≤ 2 ^ k := Nat.one_le_two_pow
      have h6 : 2 ^ 19 * 49308808782358125 * 1 ≤ 2 ^ 19 * 49308808782358125 * 2 ^ k :=
        Nat.mul_le_mul_left _ h5
      omega
  · simp only [if_true, neg_mul, one_mul] at h
    have : (0 : ℚ) ≤ (m : ℚ) * 2 ^ e := mul_nonneg hm0 (le_of_lt hpos)
    linarith

/-- C12 (amended): for every operand `L` accepted by `checkNumber` that `stod` converts
without a range error to `d` and whose value is above zero, `process` on `L` followed by
the factorial sign returns OK and writes what `tgamma` returns on the double sum of `d`
and 1; for a literal whose value is a positive integer `n` with `n + 1` below `2 ^ 53`
that argument is exactly `n + 1`, and for `n` up to 11 the value written is the
factorial of `n`. -/
theorem process_factorial_positive {L : List Char} (hL : checkNumber L = .ok true)
    (out : Val) :
    (∀ d, stod L = .ok d → 0 < literalValue L →
      process (L ++ ['!']) out
        = .ok (ErrorCode.OK, Val.tgamma (Dbl.add d (Dbl.ofInt 1)))) ∧
    (∀ n : Nat, 0 < n → n + 1 < 2 ^ 53 → literalValue L = (n : ℚ) →
      process (L ++ ['!']) out
        = .ok (ErrorCode.OK, Val.tgamma (Dbl.ofInt ((n + 1 : Nat) : Int)))) ∧
    (∀ n : Nat, 0 < n → n ≤ 11 → literalValue L = (n : ℚ) →
      ∃ w, process (L ++ ['!']) out = .ok (ErrorCode.OK, w) ∧
        w.known = some (Dbl.ofInt ((n.factorial : Nat) : Int))) := by
  have hw := wellFormed_of_checkNumber hL
  have main : ∀ d, stod L = .ok d → 0 < literalValue L →
      process (L ++ ['!']) out
        = .ok (ErrorCode.OK, Val.tgamma (Dbl.add d (Dbl.ofInt 1))) := by
    intro d hd hv
    have hfin := (stod_sign hw hd).1
    have hle : ¬ (Dbl.fle d (Dbl.ofInt 0) = true) := by
      intro h
      have := (toRat_nonpos_iff hw hd).1 ((fle_zero_iff hfin).1 h)
      linarith
    rw [process_unary hw, unaryOutcome, hd]
    show (if Dbl.fle d (Dbl.ofInt 0) = true then _ else _) = _
    rw [if_neg hle]
    rfl
  have exact : ∀ n : Nat, 0 < n → n + 1 < 2 ^ 53 → literalValue L = (n : ℚ) →
      process (L ++ ['!']) out
        = .ok (ErrorCode.OK, Val.tgamma (Dbl.ofInt ((n + 1 : Nat) : Int))) := by
    intro n hn0 hn hv
    have hd := stod_of_natural hw hn0 (by omega) hv
    have hpos : 0 < literalValue L := by rw [hv]; exact_mod_cast hn0
    rw [main _ hd hpos, add_ofInt_one hn0 hn]
  refine ⟨main, exact, ?_⟩
  intro n hn0 hn hv
  refine ⟨_, exact n hn0 (by omega) hv, ?_⟩
  interval_cases n <;> decide!

/-- C12 (witness): "5!" returns OK and writes what `tgamma` returns on 6, the sum of the
doubles 5 and 1, which is 120. -/
theorem process_factorial_positive_witness :
    process (['5'] ++ ['!']) (Val.lit Dbl.nan)
      = .ok (ErrorCode.OK, Val.tgamma (Dbl.add (Dbl.ofInt 5) (Dbl.ofInt 1))) ∧
    process (['5'] ++ ['!']) (Val.lit Dbl.nan)
      = .ok (ErrorCode.OK, Val.tgamma (Dbl.ofInt ((5 + 1 : Nat) : Int))) ∧
    (∃ w, process (['5'] ++ ['!']) (Val.lit Dbl.nan) = .ok (ErrorCode.OK, w) ∧
      w.known = some (Dbl.ofInt ((Nat.factorial 5 : Nat) : Int))) ∧
    Dbl.ofInt ((Nat.factorial 5 : Nat) : Int) = Dbl.ofInt 120 :=
  ⟨(process_factorial_positive (L := ['5']) (by decide) (Val.lit Dbl.nan)).1 (Dbl.ofInt 5)
      (by decide!) (by decide!),
    (process_factorial_positive (L := ['5']) (by decide) (Val.lit Dbl.nan)).2.1 5
      (by decide) (by norm_num) (by decide!),
    (process_factorial_positive (L := ['5']) (by decide) (Val.lit Dbl.nan)).2.2 5
      (by decide) (by decide) (by decide!),
    by decide!⟩

/-- C12 (counterexample): the positive integer literal made of 1 and 309 zeros is
accepted by `checkNumber`, yet `process` on it followed by the factorial sign returns no
code and writes nothing: `stod` throws `std::out_of_range`.  On "12!" `process` returns OK
and writes what `tgamma` returns on 13, which is the `double` next below the factorial of
12 and not that factorial.  On "23!" `process` returns OK and writes what `tgamma`
returns on 24, and no `double`, whose significand is below `2 ^ 53`, is the factorial of
23. -/
theorem process_factorial_positive_out_of_range :
    checkNumber ('1' :: List.replicate 309 '0') = .ok true ∧
    0 < literalValue ('1' :: List.replicate 309 '0') ∧
    process (('1' :: List.replicate 309 '0') ++ ['!']) (Val.lit Dbl.nan)
      = .error Fault.outOfRange ∧
    checkNumber ['1', '2'] = .ok true ∧ literalValue ['1', '2'] = 12 ∧
    process ['1', '2', '!'] (Val.lit Dbl.nan)
      = .ok (ErrorCode.OK, Val.tgamma (Dbl.ofInt 13)) ∧
    (Val.tgamma (Dbl.ofInt 13)).known = some (Dbl.fin false 8036313307545599 (-24)) ∧
    (Dbl.fin false 8036313307545599 (-24)).toRat ≠ ((Nat.factorial 12 : Nat) : ℚ) ∧
    checkNumber ['2', '3'] = .ok true ∧ literalValue ['2', '3'] = 23 ∧
    process ['2', '3', '!'] (Val.lit Dbl.nan)
      = .ok (ErrorCode.OK, Val.tgamma (Dbl.ofInt 24)) ∧
    (∀ (neg : Bool) (m : Nat) (e : Int), m < 2 ^ 53 →
      (Dbl.fin neg m e).toRat ≠ ((Nat.factorial 23 : Nat) : ℚ)) := by
  refine ⟨by decide!, by decide!, by decide!, by decide!, by decide!, by decide!, by decide!,
    by decide!, by decide!, by decide!, by decide!, factorial_23_not_double⟩

/-- C20 (amended): for every string accepted by `checkNumber`, the decimal scan of `stod`
consumes the whole string, and the number it reads is sign times integer part plus
fractional part.  `stod` throws `std::out_of_range` exactly on the values of
`StodRangeError`: a magnitude of `2^1024 - 2^970` or more, or one below
`2^-1022 - 2^-1076` that is no multiple of `2^-1074` and not, from `2^-1023` on, a
multiple of `2^-1074` plus `2^-1076`.  On every other value it yields a finite double
that is at least as close to the value as every double of the format.  It never throws
`std::invalid_argument`, and neither does `process` on any input. -/
theorem stod_consumes_literal {s : List Char} (hs : checkNumber s = .ok true) :
    (∃ x, strtodDecimal s = some x ∧ x.rest = [] ∧
      (if x.neg then -1 else 1) * ((x.digits : ℚ) / 10 ^ x.scale) = literalValue s) ∧
    (stod s = .error Fault.outOfRange ↔ StodRangeError (literalValue s)) ∧
    (¬ StodRangeError (literalValue s) →
      ∃ d, stod s = .ok d ∧ d.isFinite = true ∧
        ∀ (neg : Bool) (M q : Nat), M < 2 ^ 53 →
          |d.toRat - literalValue s|
            ≤ |(Dbl.fin neg M ((q : Int) - 1074)).toRat - literalValue s|) ∧
    stod s ≠ .error Fault.invalidArgument ∧
    (∀ input out, process input out ≠ .error Fault.invalidArgument) := by
  have hw := wellFormed_of_checkNumber hs
  refine ⟨?_, stod_error_iff hw, ?_, ?_, ?_⟩
  · obtain ⟨neg, ip, fp, h1, h2, h3, rfl⟩ := (wellFormed_iff_literal s).1 hw
    refine ⟨_, strtodDecimal_literal neg h1 h2 h3, rfl, ?_⟩
    rw [literalValue_literal neg h1 h2]
  · intro hno
    cases h : stod s with
    | error e =>
      have he := stod_error_of_wellFormed hw h
      subst he
      exact absurd ((stod_error_iff hw).1 h) hno
    | ok d =>
      exact ⟨d, rfl, (stod_sign hw h).1, fun neg M q hM => stod_nearest hw h neg hM q⟩
  · intro h
    cases stod_error_of_wellFormed hw h
  · intro input out h
    rcases process_error_kinds input out h with h | h | h <;> cases h

/-- C20 (witness): the theorem at "-12.5", which is no range error and which `stod`
converts to -12.5, and at the literal made of 1 and 309 zeros, which is a range error; a
literal just below `2^-1022` is converted to `2^-1022`, and the literal of 1076 decimals
whose value is `2^-1023 + 2^-1076` is converted to `2^-1023`, both without a range
error. -/
theorem stod_consumes_literal_witness :
    ((∃ x, strtodDecimal ['-', '1', '2', '.', '5'] = some x ∧ x.rest = [] ∧
      (if x.neg then -1 else 1) * ((x.digits : ℚ) / 10 ^ x.scale)
        = literalValue ['-', '1', '2', '.', '5']) ∧
    (stod ['-', '1', '2', '.', '5'] = .error Fault.outOfRange
      ↔ StodRangeError (literalValue ['-', '1', '2', '.', '5'])) ∧
    (¬ StodRangeError (literalValue ['-', '1', '2', '.', '5']) →
      ∃ d, stod ['-', '1', '2', '.', '5'] = .ok d ∧ d.isFinite = true ∧
        ∀ (neg : Bool) (M q : Nat), M < 2 ^ 53 →
          |d.toRat - literalValue ['-', '1', '2', '.', '5']|
            ≤ |(Dbl.fin neg M ((q : Int) - 1074)).toRat
                - literalValue ['-', '1', '2', '.', '5']|) ∧
    stod ['-', '1', '2', '.', '5'] ≠ .error Fault.invalidArgument ∧
    (∀ input out, process input out ≠ .error Fault.invalidArgument)) ∧
    ¬ StodRangeError (literalValue ['-', '1', '2', '.', '5']) ∧
    stod ['-', '1', '2', '.', '5'] = .ok (Dbl.fin true 25 (-1)) ∧
    StodRangeError (literalValue ('1' :: List.replicate 309 '0')) ∧
    stod (['0', '.'] ++ List.replicate 307 '0' ++
        ['2', '2', '2', '5', '0', '7', '3', '8', '5', '8', '5', '0', '7', '2', '0', '1', '3']) = .ok (Dbl.fin false 1 (-1022)) ∧
    literalValue (['0', '.'] ++ List.replicate 307 '0'
        ++ Nat.toDigits 10 ((2 ^ 53 + 1) * 5 ^ 1076)) = (2 ^ 53 + 1) / 2 ^ 1076 ∧
    stod (['0', '.'] ++ List.replicate 307 '0' ++ Nat.toDigits 10 ((2 ^ 53 + 1) * 5 ^ 1076))
      = .ok (Dbl.fin false 1 (-1023)) :=
  ⟨stod_consumes_literal (s := ['-', '1', '2', '.', '5']) (by decide),
    fun h => absurd
      ((stod_consumes_literal (s := ['-', '1', '2', '.', '5']) (by decide)).2.1.2 h)
      (by decide!),
    by decide!,
    (stod_consumes_literal (s := '1' :: List.replicate 309 '0') (by decide!)).2.1.1
      (by decide!),
    by decide!, by decide!, by decide!⟩

/-- C20 (counterexample): the literal made of 1 and 309 zeros and the literal of 309
zeros and a 1 after the point are accepted by `checkNumber` and `stod` yields no value
on them, throwing `std::out_of_range`; on the accepted literal "0.1" `stod` yields a
double whose value is not one tenth. -/
theorem stod_not_exact :
    checkNumber ('1' :: List.replicate 309 '0') = .ok true ∧
    stod ('1' :: List.replicate 309 '0') = .error Fault.outOfRange ∧
    checkNumber (['0', '.'] ++ List.replicate 309 '0' ++ ['1']) = .ok true ∧
    stod (['0', '.'] ++ List.replicate 309 '0' ++ ['1']) = .error Fault.outOfRange ∧
    checkNumber ['0', '.', '1'] = .ok true ∧
    literalValue ['0', '.', '1'] = 1 / 10 ∧
    ∃ d, stod ['0', '.', '1'] = .ok d ∧ d.toRat ≠ literalValue ['0', '.', '1'] := by
  refine ⟨by decide!, by decide!, by decide!, by decide!, by decide!, by decide!, ?_⟩
  exact ⟨Dbl.fin false 3602879701896397 (-55), by decide!, by decide!⟩

end AdvancedCalculator
